import Mathlib

/-!
Verification development for the path-tree manipulation and table-assembly
engine of `SphinxReport` (`DataTree.py`).

Python values are shallowly embedded as the inductive type `PyVal`:
an ordered dictionary is an association list (insertion order preserved,
as for `collections.OrderedDict`), and the opaque pandas objects
(`DataFrame`, `Series`) are modelled as leaf constructors carrying their
construction data, since the engine treats them as opaque payloads.
Raising Python code is embedded in the `Except PyErr` monad; `try/except`
blocks become matches on the error constructor.
-/

inductive PyVal where
  | vnone
  | vint (n : Int)
  | vstr (s : String)
  | vlist (xs : List PyVal)
  | vdict (xs : List (PyVal × PyVal))
  | vdf (data index cols : PyVal)
  | vseries (data index : PyVal)

mutual
/-- Boolean equality on embedded Python values (`==` on plain data). -/
def pyEq : PyVal → PyVal → Bool
  | .vnone, .vnone => true
  | .vint a, .vint b => a == b
  | .vstr a, .vstr b => a == b
  | .vlist xs, .vlist ys => pyEqL xs ys
  | .vdict xs, .vdict ys => pyEqD xs ys
  | .vdf a b c, .vdf a' b' c' => pyEq a a' && pyEq b b' && pyEq c c'
  | .vseries a b, .vseries a' b' => pyEq a a' && pyEq b b'
  | _, _ => false

def pyEqL : List PyVal → List PyVal → Bool
  | [], [] => true
  | x :: xs, y :: ys => pyEq x y && pyEqL xs ys
  | _, _ => false

def pyEqD : List (PyVal × PyVal) → List (PyVal × PyVal) → Bool
  | [], [] => true
  | (k, v) :: xs, (k', v') :: ys => pyEq k k' && pyEq v v' && pyEqD xs ys
  | _, _ => false
end

mutual
theorem pyEq_iff : ∀ (a b : PyVal), pyEq a b = true ↔ a = b
  | .vnone, b => by cases b <;> simp [pyEq]
  | .vint n, b => by cases b <;> simp [pyEq]
  | .vstr s, b => by cases b <;> simp [pyEq]
  | .vlist xs, .vlist ys => by simpa [pyEq] using pyEqL_iff xs ys
  | .vlist xs, .vnone => by simp [pyEq]
  | .vlist xs, .vint n => by simp [pyEq]
  | .vlist xs, .vstr s => by simp [pyEq]
  | .vlist xs, .vdict ys => by simp [pyEq]
  | .vlist xs, .vdf a b c => by simp [pyEq]
  | .vlist xs, .vseries a b => by simp [pyEq]
  | .vdict xs, .vdict ys => by simpa [pyEq] using pyEqD_iff xs ys
  | .vdict xs, .vnone => by simp [pyEq]
  | .vdict xs, .vint n => by simp [pyEq]
  | .vdict xs, .vstr s => by simp [pyEq]
  | .vdict xs, .vlist ys => by simp [pyEq]
  | .vdict xs, .vdf a b c => by simp [pyEq]
  | .vdict xs, .vseries a b => by simp [pyEq]
  | .vdf a b c, .vdf a' b' c' => by
      simp [pyEq, pyEq_iff a a', pyEq_iff b b', pyEq_iff c c', and_assoc]
  | .vdf a b c, .vnone => by simp [pyEq]
  | .vdf a b c, .vint n => by simp [pyEq]
  | .vdf a b c, .vstr s => by simp [pyEq]
  | .vdf a b c, .vlist ys => by simp [pyEq]
  | .vdf a b c, .vdict ys => by simp [pyEq]
  | .vdf a b c, .vseries a' b' => by simp [pyEq]
  | .vseries a b, .vseries a' b' => by simp [pyEq, pyEq_iff a a', pyEq_iff b b']
  | .vseries a b, .vnone => by simp [pyEq]
  | .vseries a b, .vint n => by simp [pyEq]
  | .vseries a b, .vstr s => by simp [pyEq]
  | .vseries a b, .vlist ys => by simp [pyEq]
  | .vseries a b, .vdict ys => by simp [pyEq]
  | .vseries a b, .vdf a' b' c' => by simp [pyEq]

theorem pyEqL_iff : ∀ (xs ys : List PyVal), pyEqL xs ys = true ↔ xs = ys
  | [], [] => by simp [pyEqL]
  | [], _ :: _ => by simp [pyEqL]
  | _ :: _, [] => by simp [pyEqL]
  | x :: xs, y :: ys => by simp [pyEqL, pyEq_iff x y, pyEqL_iff xs ys]

theorem pyEqD_iff : ∀ (xs ys : List (PyVal × PyVal)), pyEqD xs ys = true ↔ xs = ys
  | [], [] => by simp [pyEqD]
  | [], _ :: _ => by simp [pyEqD]
  | _ :: _, [] => by simp [pyEqD]
  | (k, v) :: xs, (k', v') :: ys => by
      simp [pyEqD, pyEq_iff k k', pyEq_iff v v', pyEqD_iff xs ys, Prod.ext_iff, and_assoc]
end

instance : DecidableEq PyVal := fun a b => decidable_of_iff (pyEq a b = true) (pyEq_iff a b)

mutual
/-- Size of a value, used as a termination measure for the traversals
that the Python code writes as worklist loops. -/
def szV : PyVal → Nat
  | .vlist xs => 1 + szL xs
  | .vdict xs => 1 + szD xs
  | _ => 1

def szL : List PyVal → Nat
  | [] => 0
  | x :: xs => 1 + szV x + szL xs

def szD : List (PyVal × PyVal) → Nat
  | [] => 0
  | (k, v) :: xs => 1 + szV k + szV v + szD xs
end

/-- Size of a worklist of values. -/
def szF : List PyVal → Nat
  | [] => 0
  | x :: xs => szV x + szF xs

theorem szV_pos (v : PyVal) : 0 < szV v := by
  cases v <;> simp [szV] <;> omega

theorem szF_append (a b : List PyVal) : szF (a ++ b) = szF a + szF b := by
  induction a with
  | nil => simp [szF]
  | cons x xs ih => simp [szF, ih]; omega

/-- Python truthiness of `hasattr(x, "keys")` for our value universe:
dictionaries, data frames and series have a `keys` attribute. -/
def pyHasKeys : PyVal → Bool
  | .vdict _ => true
  | .vdf _ _ _ => true
  | .vseries _ _ => true
  | _ => false

def isDictV : PyVal → Bool
  | .vdict _ => true
  | _ => false

def isDFLike : PyVal → Bool
  | .vdf _ _ _ => true
  | .vseries _ _ => true
  | _ => false

/-- First-match association-list lookup: Python `d[k]` on a dict (keys are
unique in a real Python dict, so first match is the match). -/
def lookupD : List (PyVal × PyVal) → PyVal → Option PyVal
  | [], _ => Option.none
  | (k, v) :: rest, x => if k = x then some v else lookupD rest x

/-- Python `d[k] = v` on an ordered dict: update in place if the key
exists (keeping its position), otherwise append at the end. -/
def dictSet : List (PyVal × PyVal) → PyVal → PyVal → List (PyVal × PyVal)
  | [], x, v => [(x, v)]
  | (k, w) :: rest, x, v => if k = x then (k, v) :: rest else (k, w) :: dictSet rest x v

/-- Python `del d[k]`: removes the (unique) binding of `k`. -/
def dictDel : List (PyVal × PyVal) → PyVal → List (PyVal × PyVal)
  | [], _ => []
  | (k, w) :: rest, x => if k = x then rest else (k, w) :: dictDel rest x

def dictKeys (d : List (PyVal × PyVal)) : List PyVal := d.map Prod.fst

def dictVals (d : List (PyVal × PyVal)) : List PyVal := d.map Prod.snd

/-- The Python exceptions raised by the embedded code.  `notImplErr`
carries the observed minimum and maximum leaf depth, mirroring
`NotImplementedError('data tree not of uniform depth, min=%i, max=%i')`. -/
inductive PyErr where
  | keyError
  | typeError
  | indexError
  | valueError
  | attributeError
  | notImplErr (mi ma : Nat)
  deriving DecidableEq

/-- Python subscription `work[x]`.  Dictionaries raise `KeyError` on a
missing key; sequences accept integer indices (negative indices count
from the end) and raise `IndexError` out of range, `TypeError` on
non-integer indices; all other values raise `TypeError`. -/
def pySubscript : PyVal → PyVal → Except PyErr PyVal
  | .vdict d, x =>
      match lookupD d x with
      | some v => .ok v
      | Option.none => .error .keyError
  | .vlist xs, .vint i =>
      let j : Int := if i < 0 then i + xs.length else i
      if h : 0 ≤ j ∧ j.toNat < xs.length then .ok (xs.get ⟨j.toNat, h.2⟩)
      else .error .indexError
  | .vlist _, _ => .error .typeError
  | .vstr s, .vint i =>
      let cs := s.toList
      let j : Int := if i < 0 then i + cs.length else i
      if h : 0 ≤ j ∧ j.toNat < cs.length then .ok (.vstr (String.mk [cs.get ⟨j.toNat, h.2⟩]))
      else .error .indexError
  | .vstr _, _ => .error .typeError
  | _, _ => .error .typeError

/-- Python `len(x)`; non-sized values raise `TypeError`.  For the opaque
tabular objects the length is the number of rows, i.e. the length of the
index. -/
def pyLenE : PyVal → Except PyErr Nat
  | .vdict d => .ok d.length
  | .vlist xs => .ok xs.length
  | .vstr s => .ok s.length
  | .vdf _ index _ =>
      match index with
      | .vlist xs => .ok xs.length
      | _ => .ok 0
  | .vseries data _ =>
      match data with
      | .vlist xs => .ok xs.length
      | _ => .ok 0
  | _ => .error .typeError

/-- Python `x in work`: key containment for dicts, element containment
for sequences, substring test for strings; `TypeError` otherwise. -/
def pyContainsE (x : PyVal) : PyVal → Except PyErr Bool
  | .vdict d => .ok (decide (x ∈ dictKeys d))
  | .vlist xs => .ok (decide (x ∈ xs))
  | .vstr s =>
      match x with
      | .vstr t => .ok (decide (t.toList <:+: s.toList))
      | _ => .error .typeError
  | _ => .error .typeError

/-- Python truthiness `bool(x)`.  Never evaluated on tabular objects by
the embedded code paths (they are fenced off by `isinstance` checks), so
those are given an arbitrary total value. -/
def pyTruthy : PyVal → Bool
  | .vnone => false
  | .vint n => n != 0
  | .vstr s => s ≠ ""
  | .vlist xs => xs ≠ []
  | .vdict d => d ≠ []
  | .vdf _ _ _ => true
  | .vseries _ _ => true

/-- `unique(iterables)` from `DataTree.py`: stable duplicate removal
(first occurrence wins). -/
def uniqueAux : List PyVal → List PyVal → List PyVal
  | _, [] => []
  | seen, x :: rest => if x ∈ seen then uniqueAux seen rest else x :: uniqueAux (x :: seen) rest

def unique (l : List PyVal) : List PyVal := uniqueAux [] l

/-!  ## Path analysis: `getPaths`, `getDepths`, `getNodes` (`DataTree.py:339-392`) -/

/-- One pass of the `getPaths` while-loop body over the key-having values
of the current level (`for x in [x for x in this_level if hasattr(x, "keys")]`):
collects keys and next-level values of the dictionaries, and — exactly as
the source does — aborts the level scan (`break`) when it meets a pandas
`DataFrame` or `Series`. -/
def scanKeyed : List PyVal → (List PyVal × List PyVal)
  | [] => ([], [])
  | .vdict d :: rest =>
      let r := scanKeyed rest
      (dictKeys d ++ r.1, dictVals d ++ r.2)
  | _ :: _ => ([], [])

theorem szF_dictVals_le (d : List (PyVal × PyVal)) : szF (dictVals d) ≤ szD d := by
  induction d with
  | nil => simp [dictVals, szF, szD]
  | cons kv rest ih =>
      obtain ⟨k, v⟩ := kv
      simp [dictVals, szF, szD] at *
      omega

theorem szF_scanKeyed_snd_le (l : List PyVal) : szF (scanKeyed l).2 ≤ szF l := by
  induction l with
  | nil => simp [scanKeyed, szF]
  | cons x rest ih =>
      cases x <;> simp [scanKeyed, szF, szF_append] <;> try positivity
      case vdict d =>
        have h1 := szF_dictVals_le d
        simp [szV]
        omega

theorem szF_scanKeyed_lt (l : List PyVal) (h : (scanKeyed l).1 ≠ []) :
    szF (scanKeyed l).2 < szF l := by
  cases l with
  | nil => simp [scanKeyed] at h
  | cons x rest =>
      cases x <;> simp [scanKeyed] at h ⊢ <;> simp [szF, szV_pos, szF_append]
      case vdict d =>
        have h1 := szF_dictVals_le d
        have h2 := szF_scanKeyed_snd_le rest
        simp [szV]
        omega
      all_goals { have := szV_pos ‹PyVal›; omega }

theorem szF_filter_le (p : PyVal → Bool) (l : List PyVal) : szF (l.filter p) ≤ szF l := by
  induction l with
  | nil => simp [szF]
  | cons x rest ih =>
      by_cases hx : p x <;> simp [List.filter, hx, szF] <;> omega

/-- The `while 1` loop of `getPaths`: collect the keys of the current
level's dictionaries; stop when no keys were found, otherwise record the
de-duplicated key list and descend into the collected values.  The `fuel`
argument is a structural bound on the number of iterations (the level
size strictly decreases, see `szF_scanKeyed_lt`); it keeps the loop
kernel-reducible and is always supplied large enough for the zero case
to be unreachable (`getPathsAux_congr`). -/
def getPathsAux : Nat → List PyVal → List (List PyVal)
  | 0, _ => []
  | fuel + 1, lvl =>
      let s := scanKeyed (lvl.filter pyHasKeys)
      if s.1 = [] then []
      else unique s.1 :: getPathsAux fuel s.2

theorem getPathsAux_congr : ∀ (f1 f2 : Nat) (lvl : List PyVal),
    szF lvl < f1 → szF lvl < f2 → getPathsAux f1 lvl = getPathsAux f2 lvl
  | 0, _, _, h1, _ => absurd h1 (by omega)
  | _ + 1, 0, _, _, h2 => absurd h2 (by omega)
  | f1 + 1, f2 + 1, lvl, h1, h2 => by
      simp only [getPathsAux]
      by_cases h : (scanKeyed (lvl.filter pyHasKeys)).1 = []
      · simp [h]
      · have hlt : szF (scanKeyed (lvl.filter pyHasKeys)).2 < szF lvl :=
          lt_of_lt_of_le (szF_scanKeyed_lt _ h) (szF_filter_le _ _)
        simp only [h, if_false]
        rw [getPathsAux_congr f1 f2 _ (by omega) (by omega)]

/-- `getPaths(work)` (`DataTree.py:339-361`). -/
def getPaths (work : PyVal) : List (List PyVal) := getPathsAux (szV work + 1) [work]

/-- Stack measure for `getDepths`. -/
def szS : List (Nat × PyVal) → Nat
  | [] => 0
  | (_, v) :: rest => szV v + szS rest

theorem szS_append (a b : List (Nat × PyVal)) : szS (a ++ b) = szS a + szS b := by
  induction a with
  | nil => simp [szS]
  | cons x xs ih => obtain ⟨n, v⟩ := x; simp [szS, ih]; omega

theorem szS_level_map (n : Nat) (d : List (PyVal × PyVal)) :
    szS ((d.map (fun kv => (n, kv.2))).reverse) ≤ szD d := by
  induction d with
  | nil => simp [szS, szD]
  | cons kv rest ih =>
      obtain ⟨k, v⟩ := kv
      simp [szS_append, szD, szS] at *
      omega

/-- The stack loop of `getDepths`: the Python list is used with
`pop()`/`extend`, i.e. as a LIFO stack; we keep the stack top at the head,
so `extend(l)` pushes `l.reverse`.  The `fuel` argument is a structural
bound on the iteration count (the stack size `szS` strictly decreases);
it is always supplied large enough for the zero case to be unreachable
(`getDepthsAux_congr`). -/
def getDepthsAux : Nat → List (Nat × PyVal) → List Nat → List Nat
  | 0, _, acc => acc
  | _ + 1, [], acc => acc
  | fuel + 1, (level, v) :: rest, acc =>
      match v with
      | .vdict d =>
          getDepthsAux fuel (((d.map (fun kv => (level + 1, kv.2))).reverse) ++ rest) acc
      | _ => getDepthsAux fuel rest (acc ++ [level])

theorem szS_dict_children (level : Nat) (d : List (PyVal × PyVal)) (rest : List (Nat × PyVal)) :
    szS (((d.map (fun kv => (level + 1, kv.2))).reverse) ++ rest) < szS ((level, .vdict d) :: rest) := by
  have h1 := szS_level_map (level + 1) d
  simp [szS, szS_append, szV]
  omega

theorem getDepthsAux_congr : ∀ (f1 f2 : Nat) (stack : List (Nat × PyVal)) (acc : List Nat),
    szS stack < f1 → szS stack < f2 → getDepthsAux f1 stack acc = getDepthsAux f2 stack acc
  | 0, _, _, _, h1, _ => absurd h1 (by omega)
  | _ + 1, 0, _, _, _, h2 => absurd h2 (by omega)
  | f1 + 1, f2 + 1, [], acc, _, _ => by simp [getDepthsAux]
  | f1 + 1, f2 + 1, (level, v) :: rest, acc, h1, h2 => by
      cases v
      case vdict d =>
        have hlt := szS_dict_children level d rest
        simp only [getDepthsAux]
        exact getDepthsAux_congr f1 f2 _ acc (by omega) (by omega)
      all_goals
        simp only [getDepthsAux]
        refine getDepthsAux_congr f1 f2 rest _ ?_ ?_ <;> (simp [szS, szV] at h1 h2 ⊢ <;> omega)

/-- `getDepths(work)` (`DataTree.py:381-392`); the argument is the nested
dictionary (the only inputs the source ever passes). -/
def getDepths (work : List (PyVal × PyVal)) : List Nat :=
  getDepthsAux (szS ((work.map (fun kv => (0, kv.2))).reverse) + 1)
    ((work.map (fun kv => (0, kv.2))).reverse) []

/-- Queue measure for `getNodes`. -/
def szQ : List (List PyVal × Int × (PyVal × PyVal)) → Nat
  | [] => 0
  | (_, _, (_, v)) :: rest => szV v + szQ rest

theorem szQ_append (a b : List (List PyVal × Int × (PyVal × PyVal))) :
    szQ (a ++ b) = szQ a + szQ b := by
  induction a with
  | nil => simp [szQ]
  | cons x xs ih => obtain ⟨p, l, k, v⟩ := x; simp [szQ, ih]; omega

theorem szQ_children (n : List PyVal) (l : Int) (d : List (PyVal × PyVal)) :
    szQ (d.map (fun kv => (n, l, kv))) ≤ szD d := by
  induction d with
  | nil => simp [szQ, szD]
  | cons kv rest ih =>
      obtain ⟨k, v⟩ := kv
      simp [szQ, szD] at *
      omega

/-- The BFS loop of `getNodes`: a FIFO queue (`deque.popleft`), yielding
`(path, value)` pairs whose depth equals `level` in visit order.  The
`fuel` argument is a structural bound on the iteration count (the queue
size `szQ` strictly decreases); it is always supplied large enough for
the zero case to be unreachable (`getNodesAux_congr`). -/
def getNodesAux : Nat → List (List PyVal × Int × (PyVal × PyVal)) → Int →
    List (List PyVal × PyVal) → List (List PyVal × PyVal)
  | 0, _, _, acc => acc
  | _ + 1, [], _, acc => acc
  | fuel + 1, (p, l, (k, v)) :: rest, level, acc =>
      let n := p ++ [k]
      let acc' := if l = level then acc ++ [(n, v)] else acc
      match v with
      | .vdict d => getNodesAux fuel (rest ++ d.map (fun kv => (n, l + 1, kv))) level acc'
      | _ => getNodesAux fuel rest level acc'

theorem szQ_step (p : List PyVal) (k : PyVal) (l : Int) (d : List (PyVal × PyVal))
    (rest : List (List PyVal × Int × (PyVal × PyVal))) :
    szQ (rest ++ d.map (fun kv => (p ++ [k], l + 1, kv))) < szQ ((p, l, (k, .vdict d)) :: rest) := by
  have h1 := szQ_children (p ++ [k]) (l + 1) d
  simp [szQ, szQ_append, szV]
  omega

theorem getNodesAux_congr : ∀ (f1 f2 : Nat) (q : List (List PyVal × Int × (PyVal × PyVal)))
    (level : Int) (acc : List (List PyVal × PyVal)),
    szQ q < f1 → szQ q < f2 → getNodesAux f1 q level acc = getNodesAux f2 q level acc
  | 0, _, _, _, _, h1, _ => absurd h1 (by omega)
  | _ + 1, 0, _, _, _, _, h2 => absurd h2 (by omega)
  | f1 + 1, f2 + 1, [], _, acc, _, _ => by simp [getNodesAux]
  | f1 + 1, f2 + 1, (p, l, (k, v)) :: rest, level, acc, h1, h2 => by
      cases v
      case vdict d =>
        have hlt := szQ_step p k l d rest
        simp only [getNodesAux]
        exact getNodesAux_congr f1 f2 _ level _ (by omega) (by omega)
      all_goals
        simp only [getNodesAux]
        refine getNodesAux_congr f1 f2 rest level _ ?_ ?_ <;> (simp [szQ, szV] at h1 h2 ⊢ <;> omega)

/-- `getNodes(work, level)` (`DataTree.py:363-379`); the argument is the
nested dictionary. -/
def getNodes (work : List (PyVal × PyVal)) (level : Int) : List (List PyVal × PyVal) :=
  getNodesAux (szQ (work.map (fun kv => ([], 0, kv))) + 1)
    (work.map (fun kv => ([], 0, kv))) level []

/-!  ## Path access: `getLeaf`, `setLeaf` and the `DataTree` methods -/

/-- Module-level `getLeaf(work, path)` (`DataTree.py:394-406`): the loop
`work = work[x]` with `except KeyError`/`except TypeError` handlers that
set `work = None` and break. -/
def getLeafE (work : PyVal) : List PyVal → Except PyErr PyVal
  | [] => .ok work
  | x :: p =>
      match pySubscript work x with
      | .ok w => getLeafE w p
      | .error .keyError => .ok .vnone
      | .error .typeError => .ok .vnone
      | .error e => .error e

/-- `DataTree.getLeaf(path)` (`DataTree.py:81-90`): same loop but with
only the `except KeyError` handler; any other exception propagates. -/
def dtGetLeaf (work : PyVal) : List PyVal → Except PyErr PyVal
  | [] => .ok work
  | x :: p =>
      match pySubscript work x with
      | .ok w => dtGetLeaf w p
      | .error .keyError => .ok .vnone
      | .error e => .error e

/-- Shared body of module-level `setLeaf` (`DataTree.py:408-416`) and
`DataTree.setLeaf` (`DataTree.py:92-105`) for a non-empty path: walk
`path[:-1]` by `work = work[x]`, autovivifying an empty ordered dict on
`KeyError`, then assign `work[path[-1]] = data`.  Walking through or
assigning into a non-dictionary raises as Python subscription does. -/
def setLeafAux (t : PyVal) : List PyVal → PyVal → Except PyErr PyVal
  | [], _ => .error .indexError
  | [x], data =>
      match t with
      | .vdict d => .ok (.vdict (dictSet d x data))
      | .vlist xs =>
          match x with
          | .vint i =>
              let j : Int := if i < 0 then i + xs.length else i
              if h : 0 ≤ j ∧ j.toNat < xs.length then .ok (.vlist (xs.set j.toNat data))
              else .error .indexError
          | _ => .error .typeError
      | _ => .error .typeError
  | x :: y :: rest, data =>
      match t with
      | .vdict d =>
          match lookupD d x with
          | some w => do
              let w' ← setLeafAux w (y :: rest) data
              .ok (.vdict (dictSet d x w'))
          | Option.none => do
              let w' ← setLeafAux (.vdict []) (y :: rest) data
              .ok (.vdict (dictSet d x w'))
      | .vlist xs =>
          match x with
          | .vint i =>
              let j : Int := if i < 0 then i + xs.length else i
              if h : 0 ≤ j ∧ j.toNat < xs.length then do
                let w' ← setLeafAux (xs.get ⟨j.toNat, h.2⟩) (y :: rest) data
                .ok (.vlist (xs.set j.toNat w'))
              else .error .indexError
          | _ => .error .typeError
      | .vstr s => do
          let w ← pySubscript (.vstr s) x
          let _ ← setLeafAux w (y :: rest) data
          .error .typeError
      | _ => .error .typeError

/-- Module-level `setLeaf(work, path, data)` (`DataTree.py:408-416`);
an empty path evaluates `path[-1]` and raises `IndexError`. -/
def setLeafM (work : PyVal) (path : List PyVal) (data : PyVal) : Except PyErr PyVal :=
  setLeafAux work path data

/-- `DataTree.setLeaf(path, data)` (`DataTree.py:92-105`); an empty path
replaces the whole root contents by `data`. -/
def dtSetLeaf (t : PyVal) (path : List PyVal) (data : PyVal) : Except PyErr PyVal :=
  match path with
  | [] => .ok data
  | _ => setLeafAux t path data

/-- `itertools.product` on lists of keys (leftmost factor varies slowest). -/
def pyProduct : List (List PyVal) → List (List PyVal)
  | [] => [[]]
  | l :: ls => l.bind (fun x => (pyProduct ls).map (fun p => x :: p))

/-- `getPrefixes(work, level)` (`DataTree.py:418-421`). -/
def getPrefixes (work : PyVal) (level : Nat) : List (List PyVal) :=
  pyProduct ((getPaths work).take level)

/-!  ## `removeEmptyLeaves` (`DataTree.py:522-553`) -/

/-- Number of rows of an opaque tabular object (the length of its index). -/
def idxLen : PyVal → Nat
  | .vlist xs => xs.length
  | _ => 0

mutual
/-- `removeEmptyLeaves(work)`: returns the value after the in-place
mutation together with the returned keep-flag.  For a dictionary, the
children are pruned recursively and the ones whose recursive call
returned a falsy flag are deleted; the flag is then `len(work) != 0`.
For a tabular leaf the flag is `len(work) > 0`.  For any other leaf the
flag is the literal source expression `work is not None or work != ""`
(note: `or`, not `and` — it is true for every such leaf). -/
def removeEmptyLeaves : PyVal → PyVal × Bool
  | .vdict d =>
      let d' := removeEmptyLeavesD d
      (.vdict d', decide (d' ≠ []))
  | .vdf a i c => (.vdf a i c, decide (0 < idxLen i))
  | .vseries a i => (.vseries a i, decide (0 < idxLen a))
  | w => (w, decide (w ≠ PyVal.vnone) || decide (w ≠ PyVal.vstr ("")))

/-- The `for label, w in work.items()` loop with the deferred deletion of
the children whose recursive call said not to keep them. -/
def removeEmptyLeavesD : List (PyVal × PyVal) → List (PyVal × PyVal)
  | [] => []
  | (k, v) :: rest =>
      let r := removeEmptyLeaves v
      if r.2 then (k, r.1) :: removeEmptyLeavesD rest
      else removeEmptyLeavesD rest
end

/-!  ## `removeLevel` (`DataTree.py:423-442`) -/

/-- `for subkey, item in d.items(): leaf[subkey] = item`. -/
def spliceDict (ld : List (PyVal × PyVal)) : List (PyVal × PyVal) → List (PyVal × PyVal)
  | [] => ld
  | (sk, it) :: rest => spliceDict (dictSet ld sk it) rest

/-- The `for key in keys` loop of `removeLevel` at one branch node.
State: the (possibly detached) leaf dictionary being mutated, the whole
tree, and whether a `setLeaf(work, path, d)` replacement has been
performed (which detaches the leaf dictionary).  A non-dictionary child
`d` triggers `except AttributeError: setLeaf(work, path, d)`. -/
def removeLevelKeys (path : List PyVal) :
    List PyVal → PyVal → List (PyVal × PyVal) → Bool →
    Except PyErr (PyVal × List (PyVal × PyVal) × Bool)
  | [], tree, ld, replaced => .ok (tree, ld, replaced)
  | key :: rest, tree, ld, replaced =>
      match lookupD ld key with
      | Option.none => .error .keyError
      | some d0 =>
          let ld' := dictDel ld key
          match d0 with
          | .vdict dd => removeLevelKeys path rest tree (spliceDict ld' dd) replaced
          | _ => do
              let tree' ← setLeafM tree path d0
              removeLevelKeys path rest tree' ld' true

/-- One iteration of the `for path in prefixes` loop of `removeLevel`:
fetch the branch, skip it if missing, splice each child's bindings into
it (the non-dictionary children replacing the branch via `setLeaf`), and
reflect the in-place mutation of the branch back into the tree. -/
def removeLevelStep (tree : PyVal) (path : List PyVal) : Except PyErr PyVal := do
  let leaf ← getLeafE tree path
  if leaf = PyVal.vnone then pure tree
  else
    match leaf with
    | .vdict ld => do
        let r ← removeLevelKeys path (dictKeys ld) tree ld false
        match r with
        | (tree', ld', replaced) =>
            if replaced then pure tree'
            else
              match path with
              | [] => pure (.vdict ld')
              | _ => setLeafM tree' path (.vdict ld')
    | _ => .error .attributeError

/-- `removeLevel(work, level)` (`DataTree.py:423-442`); returns the tree
after the in-place mutation. -/
def removeLevel (work : PyVal) (level : Nat) : Except PyErr PyVal :=
  (getPrefixes work level).foldlM removeLevelStep work

/-!  ## `swop` (`DataTree.py:444-506`) -/

/-- `_f(p) = tuple([x for x in p if x != None])`. -/
def pfilterNone (p : List PyVal) : List PyVal := p.filter (fun x => x ≠ PyVal.vnone)

/-- The innermost loops of `swop` for one `(p1, p2, prefix, infix)`
combination: compute the per-branch suffixes from the first level of the
sub-paths below the combination, then copy each non-`None` payload from
its old path to the swapped path in the accumulator tree. -/
def swopQuad (work : PyVal) (p1 p2 : PyVal) (pfx ifx : List PyVal) (newtree : PyVal) :
    Except PyErr PyVal := do
  let w ← getLeafE work (pfilterNone (pfx ++ [p1] ++ ifx ++ [p2]))
  let subpaths := getPaths w
  let sfxs := if subpaths ≠ [] then pyProduct [subpaths.headD []] else [[PyVal.vnone]]
  sfxs.foldlM (fun nt sfx => do
    let oldpath := pfilterNone (pfx ++ [p1] ++ ifx ++ [p2] ++ sfx)
    let newpath := pfilterNone (pfx ++ [p2] ++ ifx ++ [p1] ++ sfx)
    let data ← getLeafE work oldpath
    if data = PyVal.vnone then pure nt
    else setLeafM nt newpath data) newtree

/-- `swop(work, level1, level2)` (`DataTree.py:444-506`).  Returns
`None` (embedded as `vnone`) when the two levels are equal, mirroring the
bare `return`; raises `IndexError` when a level is out of range; builds
the result in a freshly constructed tree. -/
def swop (work : PyVal) (level1 level2 : Nat) : Except PyErr PyVal :=
  let paths := getPaths work
  let nlevels := paths.length
  if nlevels ≤ level1 then .error .indexError
  else if nlevels ≤ level2 then .error .indexError
  else if level1 = level2 then .ok PyVal.vnone
  else
    let l1 := if level1 > level2 then level2 else level1
    let l2 := if level1 > level2 then level1 else level2
    let pfxs := if paths.take l1 ≠ [] then pyProduct (paths.take l1) else [[PyVal.vnone]]
    let mids := (paths.drop (l1 + 1)).take (l2 - (l1 + 1))
    let ifxs := if mids ≠ [] then pyProduct mids else [[PyVal.vnone]]
    (paths.getD l1 []).foldlM (fun nt1 p1 =>
      (paths.getD l2 []).foldlM (fun nt2 p2 =>
        pfxs.foldlM (fun nt3 pfx =>
          ifxs.foldlM (fun nt4 ifx =>
            swopQuad work p1 p2 pfx ifx nt4) nt3) nt2) nt1) (PyVal.vdict [])

/-!  ## `prune` (`DataTree.py:742-794`) -/

/-- The `for prefix in prefixes` retention check of `prune`: keep the
level as soon as one existing branch has more than one key or does not
contain the level's sole label (with Python's short-circuit: the
containment test is only evaluated when the length test fails). -/
def pruneKeep (cleaned : PyVal) (label : PyVal) : List (List PyVal) → Except PyErr Bool
  | [] => .ok false
  | px :: rest => do
      let leaves ← getLeafE cleaned px
      if leaves = PyVal.vnone then pruneKeep cleaned label rest
      else do
        let n ← pyLenE leaves
        if 1 < n then .ok true
        else do
          let c ← pyContainsE label leaves
          if !c then .ok true
          else pruneKeep cleaned label rest

/-- The body of the `for level in range(0, nlevels)` loop of `prune`:
collect `(level, label)` for every level whose key list is the singleton
`[label]` with `label` not ignored and no branch forcing retention. -/
def pruneScanLevels (cleaned : PyVal) (ignore : List PyVal)
    (dataPaths : List (List PyVal)) :
    List Nat → List (Nat × PyVal) → Except PyErr (List (Nat × PyVal))
  | [], acc => .ok acc
  | level :: rest, acc =>
      if (dataPaths.getD level []).length = 1 then
        let label := (dataPaths.getD level []).headD PyVal.vnone
        if label ∈ ignore then pruneScanLevels cleaned ignore dataPaths rest acc
        else do
          let keep ← pruneKeep cleaned label (getPrefixes cleaned level)
          if keep then pruneScanLevels cleaned ignore dataPaths rest acc
          else pruneScanLevels cleaned ignore dataPaths rest (acc ++ [(level, label)])
      else pruneScanLevels cleaned ignore dataPaths rest acc

/-- The first loop of `prune` over `range(0, nlevels)`. -/
def pruneScan (cleaned : PyVal) (ignore : List PyVal) (dataPaths : List (List PyVal))
    (nlevels : Nat) : Except PyErr (List (Nat × PyVal)) :=
  pruneScanLevels cleaned ignore dataPaths (List.range nlevels) []

/-- The second loop of `prune`: walk the reversed candidate list, skip a
level-0 candidate while only one level remains, otherwise record the
candidate and remove the level, decrementing the level count. -/
def pruneRemove : List (Nat × PyVal) → PyVal → Nat → List (Nat × PyVal) →
    Except PyErr (PyVal × Nat × List (Nat × PyVal))
  | [], tree, n, acc => .ok (tree, n, acc)
  | (level, label) :: rest, tree, n, acc =>
      if level = 0 ∧ n = 1 then pruneRemove rest tree n acc
      else do
        let tree' ← removeLevel tree level
        pruneRemove rest tree' (n - 1) (acc ++ [(level, label)])

/-- `prune(data, ignore)` (`DataTree.py:742-794`): remove empty leaves,
collect the superfluous singleton levels, remove them deepest-first, and
return the mutated tree together with the list of removed
`(level, label)` pairs. -/
def prune (data : PyVal) (ignore : List PyVal) :
    Except PyErr (PyVal × List (Nat × PyVal)) := do
  let cleaned := (removeEmptyLeaves data).1
  let dataPaths := getPaths cleaned
  let nlevels := dataPaths.length
  let ltp ← pruneScan cleaned ignore dataPaths nlevels
  let r ← pruneRemove ltp.reverse cleaned nlevels []
  pure (r.1, r.2.2)

/-!  ## `tree2table` (`DataTree.py:577-707`) -/

/-- Modelled from the spec: the display-string form `str(x)` used for
headers, and the core of `Utils.quote_rst` (the `SphinxReport.Utils`
module is not part of the sources); the spec requires cell values to be
emitted as display-strings.  Only scalar shapes are exercised. -/
def pyStr : PyVal → String
  | .vnone => String.append ("Non") ("e")
  | .vint n => toString n
  | .vstr s => s
  | _ => ""

/-- Modelled from the spec: `Utils.quote_rst` — coercion of a cell value
to its display-string (missing `SphinxReport.Utils`). -/
def quote_rst (v : PyVal) : PyVal := .vstr (pyStr v)

/-- `count_levels(labels)` (`DataTree.py:577-585`): the width of each
level, where a composite (sequence) first key contributes its length
(`Utils.ContainerTypes` is modelled from the spec as the sequence types). -/
def count_levels (labels : List (List PyVal)) : List Nat :=
  labels.map (fun x =>
    match x.headD PyVal.vnone with
    | .vlist ys => ys.length
    | _ => 1)

/-- `type(x) in Utils.ContainerTypes` (modelled from the spec: the
sequence types list/tuple). -/
def isContainerT : PyVal → Bool
  | .vlist _ => true
  | _ => false

/-- Python list assignment `l[i] = v` (raises `IndexError` out of range). -/
def listSetE (l : List PyVal) (i : Nat) (v : PyVal) : Except PyErr (List PyVal) :=
  if i < l.length then .ok (l.set i v) else .error .indexError

theorem sumLenTail_lt (m : List (List PyVal)) (hne : m ≠ [])
    (hall : ∀ r ∈ m, r ≠ []) :
    ((m.map (fun r => r.tail)).map List.length).sum < (m.map List.length).sum := by
  induction m with
  | nil => simp at hne
  | cons r rest ih =>
      have hr := hall r (by simp)
      have hpos : 0 < r.length := List.length_pos.mpr hr
      cases rest with
      | nil => simp [List.length_tail]; omega
      | cons s rest2 =>
          have ih2 := ih (by simp) (fun x hx => hall x (by simp [hx]))
          simp only [List.map_cons, List.sum_cons, List.length_tail] at *
          omega

/-- `list(zip(*matrix))`: transpose truncating at the shortest row; the
`fuel` argument is a structural bound on the output length (each step
shortens every row), always supplied large enough to be unreachable. -/
def pyZipStarAux : Nat → List (List PyVal) → List (List PyVal)
  | 0, _ => []
  | fuel + 1, m =>
      if m = [] then []
      else if m.any (fun r => r.isEmpty) then []
      else (m.map (fun r => r.headD PyVal.vnone)) :: pyZipStarAux fuel (m.map (fun r => r.tail))

theorem pyZipStarAux_congr : ∀ (f1 f2 : Nat) (m : List (List PyVal)),
    (m.map List.length).sum < f1 → (m.map List.length).sum < f2 →
    pyZipStarAux f1 m = pyZipStarAux f2 m
  | 0, _, _, h1, _ => absurd h1 (by omega)
  | _ + 1, 0, _, _, h2 => absurd h2 (by omega)
  | f1 + 1, f2 + 1, m, h1, h2 => by
      simp only [pyZipStarAux]
      by_cases hm : m = []
      · simp [hm]
      · simp only [hm, if_false]
        by_cases he : m.any (fun r => r.isEmpty)
        · simp [he]
        · have h2' : ∀ r ∈ m, r ≠ [] := by
            intro r hr hre
            apply he
            rw [List.any_eq_true]
            exact ⟨r, hr, by rw [hre]; rfl⟩
          have hlt := sumLenTail_lt m hm h2'
          simp only [he, if_false]
          rw [pyZipStarAux_congr f1 f2 _ (by simp only [List.map_map] at hlt ⊢; omega)
            (by simp only [List.map_map] at hlt ⊢; omega)]

def pyZipStar (m : List (List PyVal)) : List (List PyVal) :=
  pyZipStarAux ((m.map List.length).sum + 1) m

/-- `if head and len(matrix) >= head` — the sub-row loop break test. -/
def headBreak (head : Option Nat) (n : Nat) : Bool :=
  match head with
  | some h => decide (h ≠ 0) && decide (h ≤ n)
  | Option.none => false

/-- The row-header emission for the first non-empty sub-row of a main
row: a composite (sequence) key contributes its first part as the header
and its remaining parts as leading cells, a plain key is the header
itself (`row[0]` on an empty sequence raises `IndexError`). -/
def t2tRowHeader (row : PyVal) (rd : List PyVal) : Except PyErr (PyVal × List PyVal) :=
  match row with
  | .vlist [] => .error .indexError
  | .vlist (h :: rest) =>
      rest.enum.foldlM (fun rd' zp => listSetE rd' zp.1 zp.2) rd |>.map (fun rd' => (h, rd'))
  | _ => .ok (row, rd)

/-- The multi-level-row detection scan over the last level's columns:
`is_container` falls to false at the first non-sequence cell; sequence
cells must agree in length (`ValueError` otherwise). -/
def t2tScanCols (work : PyVal) : List PyVal → Option Nat → Except PyErr (Bool × Option Nat)
  | [], mr => .ok (true, mr)
  | c :: rest, mr => do
      let has ← pyContainsE c work
      if !has then t2tScanCols work rest mr
      else do
        let wc ← pySubscript work c
        if !isContainerT wc then .ok (false, mr)
        else
          let n := match wc with | .vlist xs => xs.length | _ => 0
          match mr with
          | Option.none => t2tScanCols work rest (some n)
          | some m => if m ≠ n then .error .valueError else t2tScanCols work rest mr

/-- Fill one expanded sub-row at sequence index `z`:
`row_data[y+header_offset] = quote_rst(work[column][z])` with the
`except KeyError: pass` of the source. -/
def t2tFillRowZ (work : PyVal) (cols : List PyVal) (offset : Nat) (z : Nat)
    (rd0 : List PyVal) : Except PyErr (List PyVal) :=
  cols.enum.foldlM (fun rd yc => do
    let r : Except PyErr PyVal := do
      let wc ← pySubscript work yc.2
      let v ← pySubscript wc (PyVal.vint (z : Int))
      pure (quote_rst v)
    match r with
    | .error .keyError => pure rd
    | .error e => .error e
    | .ok qv => listSetE rd (yc.1 + offset) qv) rd0

/-- Fill a single-level row:
`row_data[y+header_offset] = quote_rst(work[column])` with
`except KeyError: pass`. -/
def t2tFillRow (work : PyVal) (cols : List PyVal) (offset : Nat)
    (rd0 : List PyVal) : Except PyErr (List PyVal) :=
  cols.enum.foldlM (fun rd yc =>
    match pySubscript work yc.2 with
    | .error .keyError => pure rd
    | .error e => .error e
    | .ok wc => listSetE rd (yc.1 + offset) (quote_rst wc)) rd0

/-- The `for z in range(max_rows)` expansion: every index but the last
appends its row with a blank row header and starts a fresh blank row;
the last filled row is left for the common append. -/
def t2tExpand (work : PyVal) (cols : List PyVal) (offset ncols : Nat) :
    Nat → Nat → List (List PyVal) × List PyVal × List PyVal →
    Except PyErr (List (List PyVal) × List PyVal × List PyVal)
  | _, 0, st => pure st
  | z, r + 1, (mat, rh, rd) => do
      let rd' ← t2tFillRowZ work cols offset z rd
      if r = 0 then pure (mat, rh, rd')
      else
        t2tExpand work cols offset ncols (z + 1) r
          (mat ++ [rd'], rh ++ [PyVal.vstr ("")], List.replicate ncols (PyVal.vstr ("")))

/-- One `(row, path)` sub-row iteration of `tree2table`: skip empty
branches, emit the row header, enter the path cells, then either expand
multi-valued cells into stacked sub-rows or fill a single row; finally
evaluate the `head` break.  Returns the new `(matrix, row_headers)`
state, the updated first-row flag, and whether the sub-row loop broke. -/
def t2tSubrow (data : PyVal) (lastLevel : List PyVal) (offset ncols : Nat)
    (head : Option Nat) (row : PyVal) (p : List PyVal) (first : Bool)
    (st : List (List PyVal) × List PyVal) :
    Except PyErr ((List (List PyVal) × List PyVal) × Bool × Bool) := do
  let work ← getLeafE data (row :: p)
  let skip := match work with
    | .vdf _ i _ => decide (idxLen i = 0)
    | _ => !pyTruthy work
  if skip then pure (st, first, false)
  else do
    let rd0 := List.replicate ncols (PyVal.vstr (""))
    let (rh1, rd1, first') ←
      if first then do
        let hr ← t2tRowHeader row rd0
        pure (st.2 ++ [hr.1], hr.2, false)
      else
        pure (st.2 ++ [PyVal.vstr ("")], rd0, first)
    let rd2 ← p.enum.foldlM (fun rd zp => listSetE rd zp.1 zp.2) rd1
    let sc ← t2tScanCols work lastLevel Option.none
    if sc.1 then
      match sc.2 with
      | Option.none => .error .typeError
      | some m => do
          let ex ← t2tExpand work lastLevel offset ncols 0 m (st.1, rh1, rd2)
          let mat2 := ex.1 ++ [ex.2.2]
          pure ((mat2, ex.2.1), first', headBreak head mat2.length)
    else do
      let rdF ← t2tFillRow work lastLevel offset rd2
      let mat2 := st.1 ++ [rdF]
      pure ((mat2, rh1), first', headBreak head mat2.length)

/-- The `for xx, path in enumerate(paths)` loop with its `break`. -/
def t2tPaths (data : PyVal) (lastLevel : List PyVal) (offset ncols : Nat)
    (head : Option Nat) (row : PyVal) :
    List (List PyVal) → Bool → List (List PyVal) × List PyVal →
    Except PyErr (List (List PyVal) × List PyVal)
  | [], _, st => pure st
  | p :: ps, first, st => do
      let r ← t2tSubrow data lastLevel offset ncols head row p first st
      if r.2.2 then pure r.1
      else t2tPaths data lastLevel offset ncols head row ps r.2.1 r.1

/-- The `for x, row in enumerate(labels[0])` main-row loop. -/
def t2tRows (data : PyVal) (lastLevel : List PyVal) (paths : List (List PyVal))
    (offset ncols : Nat) (head : Option Nat) :
    List PyVal → List (List PyVal) × List PyVal →
    Except PyErr (List (List PyVal) × List PyVal)
  | [], st => pure st
  | row :: rest, st => do
      let st' ← t2tPaths data lastLevel offset ncols head row paths true st
      t2tRows data lastLevel paths offset ncols head rest st'

/-- `tree2table(data, transpose, head)` (`DataTree.py:587-707`): returns
`(matrix, row_headers, col_headers)`, the headers coerced to display
strings. -/
def tree2table (data : PyVal) (transpose : Bool) (head : Option Nat) :
    Except PyErr (List (List PyVal) × List String × List String) := do
  let labels := getPaths data
  if labels.length < 2 then .error .valueError
  else do
    let effective_labels := count_levels labels
    let effective_cols : Int := ((effective_labels.dropLast.map (Int.ofNat)).sum) - 1
    let col_headers := List.replicate effective_cols.toNat (PyVal.vstr ("")) ++ labels.getLastD []
    let ncols := col_headers.length
    let paths := pyProduct ((labels.drop 1).dropLast)
    let header_offset := effective_cols.toNat
    let st ← t2tRows data (labels.getLastD []) paths header_offset ncols head (labels.headD []) ([], [])
    let (rh2, ch2, mat2) :=
      if transpose then (col_headers, st.2, pyZipStar st.1)
      else (st.2, col_headers, st.1)
    pure (mat2, rh2.map pyStr, ch2.map pyStr)

/-!  ## `asDataFrame` (`DataTree.py:181-337`) -/

def MATRIX_KEYS : List PyVal := [.vstr ("rows"), .vstr ("columns"), .vstr ("matrix")]

def VENN2_KEYS : List PyVal := [.vstr ("10"), .vstr ("01"), .vstr ("11")]

def VENN3_KEYS : List PyVal := [.vstr ("010"), .vstr ("001"), .vstr ("011")]

/-- `len(set(branch.keys()).intersection(KS)) == len(KS)`, i.e. all the
(distinct) keys of `KS` occur among the branch's keys. -/
def keysMatch (ks : List PyVal) (d : List (PyVal × PyVal)) : Bool :=
  ks.all (fun m => m ∈ dictKeys d)

/-- Stable insertion into a list of items sorted by display-string key. -/
def insertSorted (x : PyVal × PyVal) : List (PyVal × PyVal) → List (PyVal × PyVal)
  | [] => [x]
  | y :: rest => if pyStr y.1 ≤ pyStr x.1 then y :: insertSorted x rest else x :: y :: rest

/-- `sorted(branch.items())` (stable sort by key; keys are strings in the
encodings this is applied to). -/
def sortItems : List (PyVal × PyVal) → List (PyVal × PyVal)
  | [] => []
  | x :: rest => insertSorted x (sortItems rest)

/-- The composite-leaf normalization of one branch of `asDataFrame`
(`DataTree.py:250-266`): a grid-encoded branch becomes the tabular object
`DataFrame(branch['matrix'], columns=branch['columns'], index=branch['rows'])`,
an overlap-encoded branch becomes a tabular object built from its sorted
items; any other branch is left untouched. -/
def adfNormBranch (branch : List (PyVal × PyVal)) : Option PyVal :=
  if keysMatch MATRIX_KEYS branch then
    some (.vdf ((lookupD branch (.vstr ("matrix"))).getD .vnone)
               ((lookupD branch (.vstr ("rows"))).getD .vnone)
               ((lookupD branch (.vstr ("columns"))).getD .vnone))
  else if keysMatch VENN2_KEYS branch || keysMatch VENN3_KEYS branch then
    let values := sortItems branch
    some (.vdf (.vlist (values.map Prod.snd)) (.vlist (values.map Prod.fst)) .vnone)
  else Option.none

/-- The `for path, branch in branches` normalization loop, rewriting the
matching branches in place via `setLeaf` (`DataTree.py:251-266`). -/
def adfNormalize : List (List PyVal × PyVal) → PyVal → Except PyErr PyVal
  | [], tree => .ok tree
  | (path, branch) :: rest, tree =>
      match branch with
      | .vdict bd =>
          match adfNormBranch bd with
          | some df => do
              let tree' ← setLeafM tree path df
              adfNormalize rest tree'
          | Option.none => adfNormalize rest tree
      | _ => .error .attributeError

/-- Modelled from the spec: the merge phase of `asDataFrame`
(`DataTree.py:271-337`); the pandas operations (`pandas.DataFrame`,
`pandas.concat`, `from_dict(...).transpose()`) are not part of the
sources, so the produced tabular object is represented structurally:
one block per branch with the branch paths as the hierarchical index,
the strategy chosen by the leaf payload kind (sequence, tabular, or
scalar with the depth-1/depth-2/deeper split).  It reads the tree and
builds a fresh object; the tree is not modified. -/
def adfMerge (tree : PyVal) (labels2 : List (List PyVal)) : Except PyErr PyVal :=
  match tree with
  | .vdict d' =>
      let leaves := getNodes d' ((labels2.length : Int) - 1)
      match leaves with
      | [] => .error .indexError
      | (_, leaf) :: _ =>
          match leaf with
          | .vlist _ =>
              let branches2 :=
                if labels2.length = 1 then [([PyVal.vstr ("all")], tree)]
                else getNodes d' (max 0 ((labels2.length : Int) - 2))
              .ok (.vdf (.vlist (branches2.map Prod.snd))
                        (.vlist (branches2.map (fun pb => .vlist pb.1))) .vnone)
          | .vdf _ _ _ =>
              .ok (.vdf (.vlist (leaves.map Prod.snd))
                        (.vlist (leaves.map (fun pb => .vlist pb.1))) .vnone)
          | .vseries _ _ =>
              .ok (.vdf (.vlist (leaves.map Prod.snd))
                        (.vlist (leaves.map (fun pb => .vlist pb.1))) .vnone)
          | _ =>
              if labels2.length = 1 then
                .ok (.vdf (.vlist (dictVals d')) (.vlist (dictKeys d')) .vnone)
              else if labels2.length = 2 then
                .ok (.vdf tree (.vlist (labels2.getLastD [])) .vnone)
              else
                let branches3 := getNodes d' (max 0 ((labels2.length : Int) - 3))
                .ok (.vdf (.vlist (branches3.map Prod.snd))
                          (.vlist (branches3.map (fun pb => .vlist pb.1))) .vnone)
  | _ => .error .attributeError

/-- `asDataFrame(data)` (`DataTree.py:181-337`), embedded as a state
passing function returning the tree after the call together with the
outcome: `None` ("no data") for an empty or `None` input, the
non-uniform-depth `NotImplementedError` naming the observed minimum and
maximum depth, or the merged tabular object.  (On an error raised during
normalization the returned tree component is the un-mutated input — the
partially mutated state of an aborted Python call is not modelled; every
theorem below only evaluates it on succeeding runs.) -/
def asDataFrame (data : PyVal) : PyVal × Except PyErr (Option PyVal) :=
  match data with
  | .vnone => (data, .ok Option.none)
  | _ =>
    match pyLenE data with
    | .error e => (data, .error e)
    | .ok n =>
      if n = 0 then (data, .ok Option.none)
      else
        match data with
        | .vdict d0 =>
            let levels := getDepths d0
            match levels with
            | [] => (data, .error .valueError)
            | x :: xs =>
                let mi := xs.foldl min x
                let ma := xs.foldl max x
                if mi ≠ ma then (data, .error (.notImplErr mi ma))
                else
                  let labels := getPaths data
                  match adfNormalize (getNodes d0 ((labels.length : Int) - 2)) data with
                  | .error e => (data, .error e)
                  | .ok tree' =>
                      let labels2 := getPaths tree'
                      match adfMerge tree' labels2 with
                      | .error e => (tree', .error e)
                      | .ok df => (tree', .ok (some df))
        | _ => (data, .error .attributeError)

/-!  ## Specification-side notions used by the theorems -/

mutual
/-- The fully-qualified `(path, payload)` bindings of a tree: one entry
per non-dictionary node, carrying its full key path from the root. -/
def bindings : PyVal → List (List PyVal × PyVal)
  | .vdict d => bindingsD d
  | v => [([], v)]

def bindingsD : List (PyVal × PyVal) → List (List PyVal × PyVal)
  | [] => []
  | (k, v) :: rest => (bindings v).map (fun pv => (k :: pv.1, pv.2)) ++ bindingsD rest
end

/-- Exchange the components at positions `i` and `j` of a path. -/
def swapPath (i j : Nat) (p : List PyVal) : List PyVal :=
  (p.set i (p.getD j PyVal.vnone)).set j (p.getD i PyVal.vnone)

/-- Pure dictionary-only descent: the sub-tree at `path`, `none` when
some step is missing or goes below a non-dictionary node. -/
def subAt : PyVal → List PyVal → Option PyVal
  | v, [] => some v
  | .vdict d, k :: p =>
      match lookupD d k with
      | some w => subAt w p
      | Option.none => Option.none
  | _, _ :: _ => Option.none

/-!  ## Example trees used by the claims -/

def kA : PyVal := .vstr ("a")
def kB : PyVal := .vstr ("b")
def kC : PyVal := .vstr ("c")
def kX : PyVal := .vstr ("x")
def kY : PyVal := .vstr ("y")

/-- `{"a": {"x": 1, "y": 2}, "b": {"x": 3, "y": 4}}` -/
def exC6 : PyVal := .vdict [(kA, .vdict [(kX, .vint 1), (kY, .vint 2)]),
                            (kB, .vdict [(kX, .vint 3), (kY, .vint 4)])]

/-- `{"a": {"x": 1}, "b": {"x": 2}}` -/
def exC7 : PyVal := .vdict [(kA, .vdict [(kX, .vint 1)]),
                            (kB, .vdict [(kX, .vint 2)])]

/-- `{"a": {"b": 1}, "c": 2}` — a tree with a leaf above the deeper level. -/
def exC2 : PyVal := .vdict [(kA, .vdict [(kB, .vint 1)]), (kC, .vint 2)]

/-- `{"a": {"b": {}}, "c": 1}` -/
def exC3 : PyVal := .vdict [(kA, .vdict [(kB, .vdict [])]), (kC, .vint 1)]

/-- `{"a": 1, "b": {"c": 2}}` — leaves at depths 0 and 1. -/
def exC8 : PyVal := .vdict [(kA, .vint 1), (kB, .vdict [(kC, .vint 2)])]

/-!  ## C6 — `tree2table` on the two-level example -/

/-- C6: `tree2table` on `{"a": {"x": 1, "y": 2}, "b": {"x": 3, "y": 4}}`
returns row headers `["a","b"]`, column headers `["x","y"]` and the
matrix `[["1","2"],["3","4"]]` of display-strings; with `transpose=True`
it returns row headers `["x","y"]`, column headers `["a","b"]` and the
matrix `[["1","3"],["2","4"]]`. -/
theorem c6_tree2table_example :
    tree2table exC6 false Option.none =
      .ok ([[.vstr ("1"), .vstr ("2")], [.vstr ("3"), .vstr ("4")]],
           [("a"), ("b")], [("x"), ("y")]) ∧
    tree2table exC6 true Option.none =
      .ok ([[.vstr ("1"), .vstr ("3")], [.vstr ("2"), .vstr ("4")]],
           [("x"), ("y")], [("a"), ("b")]) :=
  ⟨rfl, rfl⟩

/-!  ## C7 — `head` truncation -/

/-- C7: on `{"a": {"x": 1}, "b": {"x": 2}}` with `head=1` the returned
matrix has two rows, not one: the `break` of
`if head and len(matrix) >= head` only leaves the sub-row loop of the
current main row, so every later main row still contributes its first
sub-row group, contradicting the docstring "If head is given, only first
head rows are output". -/
theorem c7_head_bug_eval :
    tree2table exC7 false (some 1) =
      .ok ([[.vstr ("1")], [.vstr ("2")]], [("a"), ("b")], [("x")]) ∧
    (∀ mat rh ch, tree2table exC7 false (some 1) = .ok (mat, rh, ch) → mat.length = 2) := by
  refine ⟨rfl, ?_⟩
  intro mat rh ch h
  have h2 : tree2table exC7 false (some 1) =
      .ok ([[.vstr ("1")], [.vstr ("2")]], [("a"), ("b")], [("x")]) := rfl
  rw [h2] at h
  cases h
  rfl

/-!  ## C3 — `removeEmptyLeaves` -/

/-- C3 counterexample: the claim says a `None` leaf is treated as empty
(so `{"a": None}` would prune to `{}`), but the retention test
`work is not None or work != ""` is a disjunction that holds for `None`,
so the leaf is kept. -/
theorem c3_removeEmptyLeaves_counterexample :
    (removeEmptyLeaves (.vdict [(kA, PyVal.vnone)])).1 = .vdict [(kA, PyVal.vnone)] ∧
    (removeEmptyLeaves (.vdict [(kA, PyVal.vnone)])).1 ≠ .vdict [] := by decide

/-- C3 amended: `removeEmptyLeaves` keeps a container only if a child
survives the recursive pruning (so `{"a": {"b": {}}, "c": 1}` becomes
`{"c": 1}`), and removes zero-length tabular leaves; but every other
non-container leaf — including `None`, `""` and `[]` — is kept, because
the retention test `work is not None or work != ""` is true for all of
them. -/
theorem c3_removeEmptyLeaves :
    (removeEmptyLeaves exC3).1 = .vdict [(kC, .vint 1)] ∧
    (∀ v : PyVal, isDictV v = false → isDFLike v = false →
      (removeEmptyLeaves v).2 = true) ∧
    (removeEmptyLeaves (.vdict [(kA, .vdf PyVal.vnone (.vlist []) PyVal.vnone)])).1 = .vdict [] ∧
    (removeEmptyLeaves (.vdict [(kA, .vstr (""))])).1 = .vdict [(kA, .vstr (""))] ∧
    (removeEmptyLeaves (.vdict [(kA, .vlist [])])).1 = .vdict [(kA, .vlist [])] := by
  refine ⟨by decide, ?_, by decide, by decide, by decide⟩
  intro v h1 h2
  cases v <;> simp_all [removeEmptyLeaves, isDictV, isDFLike]

/-- Witness for C3's amended theorem: the hypotheses of its universal
part hold at the concrete leaf `5`, which is kept. -/
theorem c3_removeEmptyLeaves_witness :
    (removeEmptyLeaves (.vint 5)).2 = true :=
  c3_removeEmptyLeaves.2.1 (.vint 5) rfl rfl

/-!  ## C4 — `getLeaf` never raises -/

/-- C4 counterexample: `DataTree.getLeaf` only handles `KeyError`, so a
path descending below the non-container leaf `5` raises `TypeError`. -/
theorem c4_getLeaf_counterexample :
    dtGetLeaf (.vdict [(kA, .vint 5)]) [kA, kB] = .error .typeError := rfl

def isIntV : PyVal → Bool
  | .vint _ => true
  | _ => false

theorem pySubscript_err_kinds (w x : PyVal) (e : PyErr)
    (h : pySubscript w x = .error e) :
    e = .keyError ∨ e = .typeError ∨ e = .indexError := by
  cases w <;> cases x <;> simp only [pySubscript] at h <;>
    (try split at h) <;> (try split at h) <;> simp_all

theorem pySubscript_no_indexError (w x : PyVal) (hx : isIntV x = false) :
    pySubscript w x ≠ .error .indexError := by
  cases w <;> cases x <;> simp only [pySubscript, isIntV] at hx ⊢ <;>
    (try split) <;> simp_all

/-- C4 amended: the module-level `getLeaf` (which handles both `KeyError`
and `TypeError`) returns a value and never raises whenever no path
component is an integer — an integer component can index a sequence leaf
out of range, raising an unhandled `IndexError`; the `DataTree` method,
by contrast, raises `TypeError` below a non-container leaf. -/
theorem c4_getLeaf_total :
    (∀ (work : PyVal) (path : List PyVal),
      (∀ k ∈ path, isIntV k = false) → ∃ v, getLeafE work path = .ok v) ∧
    dtGetLeaf (.vdict [(kA, .vint 5)]) [kA, kB] = .error .typeError := by
  refine ⟨?_, rfl⟩
  intro work path
  induction path generalizing work with
  | nil => exact fun _ => ⟨work, rfl⟩
  | cons x p ih =>
      intro h
      have hx := h x (by simp)
      simp only [getLeafE]
      cases hs : pySubscript work x with
      | ok w => exact ih w (fun k hk => h k (by simp [hk]))
      | error e =>
          rcases pySubscript_err_kinds work x e hs with rfl | rfl | rfl
          · exact ⟨.vnone, rfl⟩
          · exact ⟨.vnone, rfl⟩
          · exact absurd hs (pySubscript_no_indexError work x hx)

/-- Witness for C4's amended theorem at a concrete tree and path. -/
theorem c4_getLeaf_total_witness :
    ∃ v, getLeafE (.vdict [(kA, .vint 5)]) [kA, kB] = .ok v :=
  c4_getLeaf_total.1 (.vdict [(kA, .vint 5)]) [kA, kB] (by decide)

/-!  ## C5 — `DataTree.setLeaf` / `getLeaf` round trip -/

/-- C5 counterexample: `set(("a","b"), 5)` on the tree `{"a": 7}` does
not autovivify — the traversal subscripts the non-container leaf `7` and
raises `TypeError`, so the claimed universal set/get round trip fails. -/
theorem c5_set_get_counterexample :
    dtSetLeaf (.vdict [(kA, .vint 7)]) [kA, kB] (.vint 5) = .error .typeError := rfl

/-- Every already-present strict prefix of `path` resolves to a
dictionary: the condition under which the `setLeaf` traversal can only
meet dictionaries or autovivified fresh containers. -/
def pathDictOk : PyVal → List PyVal → Bool
  | _, [] => true
  | t, [_] => isDictV t
  | t, x :: y :: rest =>
      match t with
      | .vdict d =>
          match lookupD d x with
          | some w => pathDictOk w (y :: rest)
          | Option.none => true
      | _ => false

theorem lookupD_dictSet_self (d : List (PyVal × PyVal)) (x v : PyVal) :
    lookupD (dictSet d x v) x = some v := by
  induction d with
  | nil => simp [dictSet, lookupD]
  | cons kw rest ih =>
      obtain ⟨k, w⟩ := kw
      by_cases h : k = x <;> simp [dictSet, lookupD, h, ih]

theorem pathDictOk_fresh (y : PyVal) (rest : List PyVal) :
    pathDictOk (.vdict []) (y :: rest) = true := by
  cases rest <;> simp [pathDictOk, isDictV, lookupD]

theorem setGet_aux : ∀ (rest : List PyVal) (x : PyVal) (t v : PyVal),
    pathDictOk t (x :: rest) = true →
    ∃ t', setLeafAux t (x :: rest) v = .ok t' ∧ dtGetLeaf t' (x :: rest) = .ok v
  | [], x, t, v, h => by
      cases t <;> simp [pathDictOk, isDictV] at h
      refine ⟨_, rfl, ?_⟩
      simp [dtGetLeaf, pySubscript, lookupD_dictSet_self]
  | y :: rest, x, t, v, h => by
      cases t with
      | vdict d =>
          simp only [pathDictOk] at h
          cases hl : lookupD d x with
          | some w =>
              rw [hl] at h
              obtain ⟨t', hset, hget⟩ := setGet_aux rest y w v h
              refine ⟨.vdict (dictSet d x t'), ?_, ?_⟩
              · simp [setLeafAux, hl, hset, Bind.bind, Except.bind]
              · simp only [dtGetLeaf, pySubscript, lookupD_dictSet_self]
                exact hget
          | none =>
              obtain ⟨t', hset, hget⟩ := setGet_aux rest y (.vdict []) v (pathDictOk_fresh y rest)
              refine ⟨.vdict (dictSet d x t'), ?_, ?_⟩
              · simp [setLeafAux, hl, hset, Bind.bind, Except.bind]
              · simp only [dtGetLeaf, pySubscript, lookupD_dictSet_self]
                exact hget
      | vnone => simp [pathDictOk] at h
      | vint n => simp [pathDictOk] at h
      | vstr s => simp [pathDictOk] at h
      | vlist xs => simp [pathDictOk] at h
      | vdf a b c => simp [pathDictOk] at h
      | vseries a b => simp [pathDictOk] at h

/-- C5 amended: on a `DataTree`, `set` followed by `get` round-trips for
every value and every path whose already-present strict prefixes are all
containers (the counterexample forces this proviso: a non-container on
the way raises `TypeError`); missing intermediates are autovivified.  On
a fresh empty tree, `set(("a","b"), 5)` then `get(("a","b"))` returns
`5`, `get(("a","x"))` returns `None` without error, `get(())` returns
the whole root container, and `set` with an empty path replaces the root
contents with the given value. -/
theorem c5_set_get_roundtrip :
    (∀ (t : PyVal) (path : List PyVal) (v : PyVal), pathDictOk t path = true →
      ∃ t', dtSetLeaf t path v = .ok t' ∧ dtGetLeaf t' path = .ok v) ∧
    dtSetLeaf (.vdict []) [kA, kB] (.vint 5)
      = .ok (.vdict [(kA, .vdict [(kB, .vint 5)])]) ∧
    dtGetLeaf (.vdict [(kA, .vdict [(kB, .vint 5)])]) [kA, kB] = .ok (.vint 5) ∧
    dtGetLeaf (.vdict [(kA, .vdict [(kB, .vint 5)])]) [kA, kX] = .ok PyVal.vnone ∧
    (∀ t : PyVal, dtGetLeaf t [] = .ok t) ∧
    (∀ t v : PyVal, dtSetLeaf t [] v = .ok v) := by
  refine ⟨?_, rfl, rfl, rfl, fun _ => rfl, fun _ _ => rfl⟩
  intro t path v h
  cases path with
  | nil => exact ⟨v, rfl, rfl⟩
  | cons x rest => exact setGet_aux rest x t v h

/-- Witness for C5's amended theorem on the fresh empty tree. -/
theorem c5_set_get_roundtrip_witness :
    ∃ t', dtSetLeaf (.vdict []) [kA, kB] (.vint 5) = .ok t' ∧
      dtGetLeaf t' [kA, kB] = .ok (.vint 5) :=
  c5_set_get_roundtrip.1 (.vdict []) [kA, kB] (.vint 5) (by decide)

/-!  ## C1 — the `prune` collapse condition -/

/-- C1 counterexample: on `{"a": {"x": 1}, "b": {"x": 2}}` level 1 has
the single label `"x"`; at the prefix `("a",)` the sub-container
`{"x": 1}` has exactly one key and does contain `"x"`, so the claimed
collapse condition ("more than one key OR does not contain the label,
for all prefixes") fails — by the claim the level would be kept — yet
`prune` removes it, returning `[(1, "x")]` and splicing the children up. -/
theorem c1_prune_counterexample :
    (getPaths (removeEmptyLeaves exC7).1).getD 1 [] = [kX] ∧
    getLeafE (removeEmptyLeaves exC7).1 [kA] = .ok (.vdict [(kX, .vint 1)]) ∧
    prune exC7 [] = .ok (.vdict [(kA, .vint 1), (kB, .vint 2)], [(1, kX)]) :=
  ⟨rfl, rfl, rfl⟩

/-!  ## C2 — the `swop` round-trip law -/

/-- C2 counterexample: `{"a": {"b": 1}, "c": 2}` has two levels with
disjoint key sets, yet `swop(swop(T,0,1),0,1)` loses the shallow binding
`("c",) -> 2`: the enumeration only copies payloads reachable through a
level-1 key, so the leaf sitting above level 1 is dropped. -/
theorem c2_swop_counterexample :
    (getPaths exC2).length = 2 ∧
    (∀ k ∈ (getPaths exC2).getD 0 [], k ∉ (getPaths exC2).getD 1 []) ∧
    ∃ t1 t2, swop exC2 0 1 = .ok t1 ∧ swop t1 0 1 = .ok t2 ∧
      ¬ (bindings t2).Perm (bindings exC2) := by
  refine ⟨rfl, by decide, .vdict [(kB, .vdict [(kA, .vint 1)])],
    .vdict [(kA, .vdict [(kB, .vint 1)])], rfl, rfl, ?_⟩
  intro h
  have hl := h.length_eq
  have h1 : (bindings (.vdict [(kA, .vdict [(kB, .vint 1)])])).length = 1 := rfl
  have h2 : (bindings exC2).length = 2 := rfl
  omega

/-!  ## C8 — `asDataFrame` guards -/

/-- C8: `asDataFrame` returns the no-data value `None` (not an error) on
a `None` or empty input, and whenever the observed leaf depths have
different minimum and maximum it fails with the non-uniform-depth error
carrying exactly that minimum and maximum. -/
theorem c8_asDataFrame_guards :
    (∀ d : PyVal, (d = PyVal.vnone ∨ ∃ xs, d = .vdict xs ∧ xs.length = 0) →
      asDataFrame d = (d, .ok Option.none)) ∧
    (∀ (xs : List (PyVal × PyVal)) (x : Nat) (t : List Nat),
      xs ≠ [] → getDepths xs = x :: t →
      t.foldl min x ≠ t.foldl max x →
      asDataFrame (.vdict xs) =
        (.vdict xs, .error (.notImplErr (t.foldl min x) (t.foldl max x)))) := by
  constructor
  · intro d h
    rcases h with rfl | ⟨xs, rfl, hlen⟩
    · rfl
    · rw [List.length_eq_zero] at hlen
      subst hlen
      rfl
  · intro xs x t hne hdep hmm
    have hlen : xs.length ≠ 0 := by simpa using hne
    simp only [asDataFrame, pyLenE]
    rw [if_neg hlen, hdep]
    simp [hmm]

/-- Witness for C8 at the concrete trees `{}`/`{"a":1,"b":{"c":2}}`. -/
theorem c8_asDataFrame_guards_witness :
    asDataFrame (.vdict []) = (.vdict [], .ok Option.none) ∧
    asDataFrame exC8 = (exC8, .error (.notImplErr 0 1)) := by
  constructor
  · exact c8_asDataFrame_guards.1 (.vdict []) (Or.inr ⟨[], rfl, rfl⟩)
  · exact c8_asDataFrame_guards.2 [(kA, .vint 1), (kB, .vdict [(kC, .vint 2)])] 1 [0]
      (by decide) rfl (by decide)

/-!  ## C10 — nominal depth of a uniform tree -/

mutual
/-- `uniformB v r`: `v` is a plain uniform tree of residual depth `r`:
for `r = 0` a plain non-mapping payload (scalar or sequence, not an
opaque tabular object), for `r+1` a non-empty dictionary all of whose
children are uniform of residual `r`. -/
def uniformB : PyVal → Nat → Bool
  | .vdict _, 0 => false
  | .vdf _ _ _, 0 => false
  | .vseries _ _, 0 => false
  | _, 0 => true
  | .vdict d, r + 1 => decide (d ≠ []) && uniformD d r
  | _, _ + 1 => false

def uniformD : List (PyVal × PyVal) → Nat → Bool
  | [], _ => true
  | (_, v) :: rest, r => uniformB v r && uniformD rest r
end

theorem uniformD_mem (d : List (PyVal × PyVal)) (r : Nat) (h : uniformD d r = true) :
    ∀ kv ∈ d, uniformB kv.2 r = true := by
  induction d with
  | nil => simp
  | cons kv rest ih =>
      obtain ⟨k, v⟩ := kv
      simp [uniformD] at h
      rintro ⟨k', v'⟩ hm
      rcases List.mem_cons.mp hm with he | ht
      · cases he; exact h.1
      · exact ih h.2 _ ht

theorem uniformB_not_keyed (v : PyVal) (h : uniformB v 0 = true) : pyHasKeys v = false := by
  cases v <;> simp_all [uniformB, pyHasKeys]

theorem getDepthsAux_uniform :
    ∀ (fuel : Nat) (stack : List (Nat × PyVal)) (acc : List Nat) (dep : Nat),
    szS stack < fuel →
    (∀ e ∈ stack, ∃ r, e.1 + r = dep ∧ uniformB e.2 r = true) →
    (∀ x ∈ getDepthsAux fuel stack acc, x = dep ∨ x ∈ acc) ∧
    acc.length ≤ (getDepthsAux fuel stack acc).length ∧
    (stack ≠ [] → acc.length < (getDepthsAux fuel stack acc).length) := by
  intro fuel
  induction fuel with
  | zero => intro stack acc dep h1; omega
  | succ fuel ih =>
      intro stack acc dep h1 h2
      cases stack with
      | nil =>
          refine ⟨fun x hx => ?_, ?_, ?_⟩
          · simp only [getDepthsAux] at hx
            exact Or.inr hx
          · simp [getDepthsAux]
          · simp
      | cons e rest =>
          obtain ⟨level, v⟩ := e
          obtain ⟨r, hr, hu⟩ := h2 (level, v) (by simp)
          cases v
          case vdict d =>
            cases r with
            | zero => simp [uniformB] at hu
            | succ r' =>
                simp only [uniformB, Bool.and_eq_true, decide_eq_true_eq] at hu
                have hlt := szS_dict_children level d rest
                have hfe : szS (((d.map (fun kv => (level + 1, kv.2))).reverse) ++ rest) < fuel := by
                  omega
                have hstep : ∀ e ∈ ((d.map (fun kv => (level + 1, kv.2))).reverse) ++ rest,
                    ∃ r, e.1 + r = dep ∧ uniformB e.2 r = true := by
                  intro e he
                  rcases List.mem_append.mp he with hc | ho
                  · rw [List.mem_reverse] at hc
                    obtain ⟨kv, hkv, rfl⟩ := List.mem_map.mp hc
                    exact ⟨r', by omega, uniformD_mem d r' hu.2 kv hkv⟩
                  · exact h2 e (by simp [ho])
                obtain ⟨m1, m2, m3⟩ := ih _ acc dep hfe hstep
                refine ⟨?_, ?_, ?_⟩ <;> simp only [getDepthsAux]
                · exact m1
                · exact m2
                · intro _
                  apply m3
                  have hd : d ≠ [] := hu.1
                  simp [hd]
          all_goals
            cases r with
            | succ r' => simp [uniformB] at hu
            | zero =>
                simp only [uniformB] at hu
                first
                | exact absurd hu (by decide)
                | (have hd : level = dep := by omega
                   have hfe : szS rest < fuel := by simp [szS, szV] at h1 ⊢ <;> omega
                   have hstep : ∀ e ∈ rest, ∃ r, e.1 + r = dep ∧ uniformB e.2 r = true :=
                     fun e he => h2 e (by simp [he])
                   obtain ⟨m1, m2, m3⟩ := ih rest (acc ++ [level]) dep hfe hstep
                   refine ⟨?_, ?_, ?_⟩ <;> simp only [getDepthsAux]
                   · intro x hx
                     rcases m1 x hx with h | h
                     · exact Or.inl h
                     · rcases List.mem_append.mp h with h' | h'
                       · exact Or.inr h'
                       · simp at h'
                         exact Or.inl (h'.trans hd)
                   · calc acc.length ≤ (acc ++ [level]).length := by simp
                       _ ≤ _ := m2
                   · intro _
                     calc acc.length < (acc ++ [level]).length := by simp
                       _ ≤ _ := m2)

theorem scanKeyed_uniform : ∀ (lvl : List PyVal) (r : Nat),
    (∀ v ∈ lvl, uniformB v (r + 1) = true) →
    ((scanKeyed lvl).1 = [] ↔ lvl = []) ∧ ((scanKeyed lvl).2 = [] ↔ lvl = []) ∧
    (∀ v' ∈ (scanKeyed lvl).2, uniformB v' r = true) := by
  intro lvl r h
  induction lvl with
  | nil => simp [scanKeyed]
  | cons v rest ih =>
      have hv := h v (by simp)
      cases v <;> simp only [uniformB] at hv <;> try exact absurd hv (by decide)
      case vdict d =>
        simp only [Bool.and_eq_true, decide_eq_true_eq] at hv
        have ih2 := ih (fun v hvm => h v (by simp [hvm]))
        have hkne : dictKeys d ≠ [] := by
          simpa [dictKeys] using hv.1
        have hvne : dictVals d ≠ [] := by
          simpa [dictVals] using hv.1
        refine ⟨by simp [scanKeyed, hkne], by simp [scanKeyed, hvne], ?_⟩
        intro v' hv'
        simp only [scanKeyed, List.mem_append] at hv'
        rcases hv' with hc | ho
        · obtain ⟨kv, hkv, rfl⟩ := List.mem_map.mp hc
          exact uniformD_mem d r hv.2 kv hkv
        · exact ih2.2.2 v' ho

theorem filter_pyHasKeys_uniform (lvl : List PyVal) (r : Nat)
    (h : ∀ v ∈ lvl, uniformB v (r + 1) = true) : lvl.filter pyHasKeys = lvl := by
  rw [List.filter_eq_self]
  intro v hv
  have := h v hv
  cases v <;> simp_all [uniformB, pyHasKeys]

theorem filter_pyHasKeys_leaves (lvl : List PyVal)
    (h : ∀ v ∈ lvl, uniformB v 0 = true) : lvl.filter pyHasKeys = [] := by
  induction lvl with
  | nil => rfl
  | cons v rest ih =>
      have h1 := uniformB_not_keyed v (h v (by simp))
      simp [List.filter, h1, ih (fun v hv => h v (by simp [hv]))]

theorem getPathsAux_uniform : ∀ (fuel : Nat) (lvl : List PyVal) (r : Nat),
    szF lvl < fuel → lvl ≠ [] → (∀ v ∈ lvl, uniformB v r = true) →
    (getPathsAux fuel lvl).length = r := by
  intro fuel
  induction fuel with
  | zero => intro lvl r h1; omega
  | succ fuel ih =>
      intro lvl r h1 h2 h3
      cases r with
      | zero =>
          simp only [getPathsAux]
          rw [filter_pyHasKeys_leaves lvl h3]
          simp [scanKeyed]
      | succ r =>
          obtain ⟨e1, e2, e3⟩ := scanKeyed_uniform lvl r h3
          simp only [getPathsAux]
          rw [filter_pyHasKeys_uniform lvl r h3]
          have hne1 : (scanKeyed lvl).1 ≠ [] := by
            intro hc
            exact h2 (e1.mp hc)
          have hne2 : (scanKeyed lvl).2 ≠ [] := by
            intro hc
            exact h2 (e2.mp hc)
          have hsz : szF (scanKeyed lvl).2 < fuel := by
            have := szF_scanKeyed_lt lvl hne1
            omega
          simp only [hne1, if_neg, if_false, List.length_cons]
          rw [ih (scanKeyed lvl).2 r hsz hne2 e3]

/-- C10: for every non-empty plain uniform tree (nested non-empty
dictionaries whose leaves are all non-mapping scalar/sequence payloads
at the same depth `dep`), `getDepths` reports exactly the depth `dep`
for every leaf, and `getPaths` returns exactly `dep + 1` per-level key
lists — the nominal depth equals the uniform leaf depth plus one. -/
theorem c10_getPaths_depth (d : List (PyVal × PyVal)) (dep : Nat)
    (h : uniformB (.vdict d) (dep + 1) = true) :
    (∀ x ∈ getDepths d, x = dep) ∧ getDepths d ≠ [] ∧
    (getPaths (.vdict d)).length = dep + 1 := by
  simp only [uniformB, Bool.and_eq_true, decide_eq_true_eq] at h
  obtain ⟨hne, hd⟩ := h
  have hstep : ∀ e ∈ (d.map (fun kv => (0, kv.2))).reverse,
      ∃ r, e.1 + r = dep ∧ uniformB e.2 r = true := by
    intro e he
    rw [List.mem_reverse] at he
    obtain ⟨kv, hkv, rfl⟩ := List.mem_map.mp he
    exact ⟨dep, by omega, uniformD_mem d dep hd kv hkv⟩
  obtain ⟨m1, m2, m3⟩ := getDepthsAux_uniform
    (szS ((d.map (fun kv => (0, kv.2))).reverse) + 1)
    ((d.map (fun kv => (0, kv.2))).reverse) [] dep (by omega) hstep
  refine ⟨?_, ?_, ?_⟩
  · intro x hx
    rcases m1 x hx with h | h
    · exact h
    · simp at h
  · intro hemp
    have hsne : ((d.map (fun kv => (0, kv.2))).reverse) ≠ [] := by simp [hne]
    have := m3 hsne
    rw [getDepths] at hemp
    rw [hemp] at this
    simp at this
  · refine getPathsAux_uniform (szV (.vdict d) + 1) [.vdict d] (dep + 1)
      (by simp [szF]) (by simp) ?_
    intro v hv
    simp at hv
    subst hv
    simp [uniformB, hne, hd]

/-- Witness for C10 on the concrete uniform two-level tree. -/
theorem c10_getPaths_depth_witness :
    (∀ x ∈ getDepths [(kA, PyVal.vdict [(kX, .vint 1), (kY, .vint 2)]),
                      (kB, PyVal.vdict [(kX, .vint 3), (kY, .vint 4)])], x = 1) ∧
    (getPaths exC6).length = 2 := by
  have h := c10_getPaths_depth [(kA, PyVal.vdict [(kX, .vint 1), (kY, .vint 2)]),
      (kB, PyVal.vdict [(kX, .vint 3), (kY, .vint 4)])] 1 (by decide)
  exact ⟨h.1, h.2.2⟩

/-!  ## C1 — the corrected `prune` collapse condition -/

/-- The retention check returns `false` (collapse) exactly when every
prefix's branch is either missing or a dictionary with at most one key
that contains the label — provided every existing branch at the prefixes
is a dictionary (otherwise the length/containment tests can raise). -/
theorem pruneKeep_spec : ∀ (pxs : List (List PyVal)) (T' label : PyVal),
    (∀ px ∈ pxs, getLeafE T' px = .ok PyVal.vnone ∨
      ∃ dd, getLeafE T' px = .ok (.vdict dd)) →
    ∃ b, pruneKeep T' label pxs = .ok b ∧
      (b = false ↔ ∀ px ∈ pxs, getLeafE T' px = .ok PyVal.vnone ∨
        ∃ dd, getLeafE T' px = .ok (.vdict dd) ∧ dd.length ≤ 1 ∧ label ∈ dictKeys dd) := by
  intro pxs
  induction pxs with
  | nil => exact fun T' label _ => ⟨false, rfl, by simp⟩
  | cons px rest ih =>
      intro T' label h
      obtain ⟨b, hb, hiff⟩ := ih T' label (fun p hp => h p (by simp [hp]))
      rcases h px (by simp) with hn | ⟨dd, hdd⟩
      · refine ⟨b, ?_, ?_⟩
        · simp [pruneKeep, hn, Bind.bind, Except.bind, hb]
        · rw [hiff]
          constructor
          · intro hall p hp
            rcases List.mem_cons.mp hp with rfl | hp'
            · exact Or.inl hn
            · exact hall p hp'
          · intro hall p hp
            exact hall p (by simp [hp])
      · by_cases hlen : 1 < dd.length
        · refine ⟨true, ?_, ?_⟩
          · simp [pruneKeep, hdd, pyLenE, hlen, Bind.bind, Except.bind]
          · simp only [Bool.true_eq_false, false_iff]
            intro hall
            rcases hall px (by simp) with hn | ⟨dd', hdd', hlen', _⟩
            · rw [hn] at hdd; cases hdd
            · rw [hdd'] at hdd
              cases hdd
              omega
        · by_cases hc : label ∈ dictKeys dd
          · refine ⟨b, ?_, ?_⟩
            · simp [pruneKeep, hdd, pyLenE, hlen, pyContainsE, hc, Bind.bind, Except.bind, hb]
            · rw [hiff]
              constructor
              · intro hall p hp
                rcases List.mem_cons.mp hp with rfl | hp'
                · exact Or.inr ⟨dd, hdd, by omega, hc⟩
                · exact hall p hp'
              · intro hall p hp
                exact hall p (by simp [hp])
          · refine ⟨true, ?_, ?_⟩
            · simp [pruneKeep, hdd, pyLenE, hlen, pyContainsE, hc, Bind.bind, Except.bind]
            · simp only [Bool.true_eq_false, false_iff]
              intro hall
              rcases hall px (by simp) with hn | ⟨dd', hdd', _, hc'⟩
              · rw [hn] at hdd; cases hdd
              · rw [hdd'] at hdd
                cases hdd
                exact hc hc'

theorem pruneScanLevels_mem (cleaned : PyVal) (ignore : List PyVal)
    (dataPaths : List (List PyVal)) :
    ∀ (lvls : List Nat) (acc res : List (Nat × PyVal)),
    pruneScanLevels cleaned ignore dataPaths lvls acc = .ok res →
    ∀ lv lb, ((lv, lb) ∈ res ↔ (lv, lb) ∈ acc ∨
      (lv ∈ lvls ∧ dataPaths.getD lv [] = [lb] ∧ lb ∉ ignore ∧
        pruneKeep cleaned lb (getPrefixes cleaned lv) = .ok false)) := by
  intro lvls
  induction lvls with
  | nil =>
      intro acc res h lv lb
      simp only [pruneScanLevels] at h
      cases h
      simp
  | cons level rest ih =>
      intro acc res h lv lb
      simp only [pruneScanLevels] at h
      by_cases hlen : (dataPaths.getD level []).length = 1
      · rw [if_pos hlen] at h
        have hrow : dataPaths.getD level [] = [(dataPaths.getD level []).headD PyVal.vnone] := by
          rcases hr : dataPaths.getD level [] with _ | ⟨a, tl⟩
          · rw [hr] at hlen
            simp at hlen
          · rw [hr] at hlen
            simp at hlen
            subst hlen
            simp
        generalize hlabel : (dataPaths.getD level []).headD PyVal.vnone = label at h hrow
        by_cases hig : label ∈ ignore
        · rw [if_pos hig] at h
          rw [ih acc res h lv lb]
          constructor
          · rintro (ha | ⟨h1, h2, h3⟩)
            · exact Or.inl ha
            · exact Or.inr ⟨by simp [h1], h2, h3⟩
          · rintro (ha | ⟨h1, h2, h3, h4⟩)
            · exact Or.inl ha
            · rcases List.mem_cons.mp h1 with rfl | h1'
              · rw [hrow] at h2
                cases h2
                exact absurd hig h3
              · exact Or.inr ⟨h1', h2, h3, h4⟩
        · rw [if_neg hig] at h
          cases hpk : pruneKeep cleaned label (getPrefixes cleaned level) with
          | error e => rw [hpk] at h; cases h
          | ok b =>
              rw [hpk] at h
              simp only [Bind.bind, Except.bind] at h
              cases b with
              | true =>
                  simp only [if_pos] at h
                  rw [ih acc res h lv lb]
                  constructor
                  · rintro (ha | ⟨h1, h2, h3⟩)
                    · exact Or.inl ha
                    · exact Or.inr ⟨by simp [h1], h2, h3⟩
                  · rintro (ha | ⟨h1, h2, h3, h4⟩)
                    · exact Or.inl ha
                    · rcases List.mem_cons.mp h1 with rfl | h1'
                      · rw [hrow] at h2
                        cases h2
                        rw [hpk] at h4
                        cases h4
                      · exact Or.inr ⟨h1', h2, h3, h4⟩
              | false =>
                  simp only [Bool.false_eq_true, if_false] at h
                  rw [ih _ res h lv lb]
                  constructor
                  · rintro (ha | ⟨h1, h2, h3⟩)
                    · rcases List.mem_append.mp ha with ha' | ha'
                      · exact Or.inl ha'
                      · simp at ha'
                        obtain ⟨rfl, rfl⟩ := ha'
                        exact Or.inr ⟨by simp, hrow, hig, hpk⟩
                    · exact Or.inr ⟨by simp [h1], h2, h3⟩
                  · rintro (ha | ⟨h1, h2, h3, h4⟩)
                    · exact Or.inl (by simp [ha])
                    · rcases List.mem_cons.mp h1 with rfl | h1'
                      · rw [hrow] at h2
                        cases h2
                        exact Or.inl (by simp)
                      · exact Or.inr ⟨h1', h2, h3, h4⟩
      · rw [if_neg hlen] at h
        rw [ih acc res h lv lb]
        constructor
        · rintro (ha | ⟨h1, h2, h3⟩)
          · exact Or.inl ha
          · exact Or.inr ⟨by simp [h1], h2, h3⟩
        · rintro (ha | ⟨h1, h2, h3, h4⟩)
          · exact Or.inl ha
          · rcases List.mem_cons.mp h1 with rfl | h1'
            · rw [h2] at hlen
              simp at hlen
            · exact Or.inr ⟨h1', h2, h3, h4⟩

theorem pruneRemove_mem : ∀ (l : List (Nat × PyVal)) (tree : PyVal) (n : Nat)
    (acc : List (Nat × PyVal)) (res : PyVal × Nat × List (Nat × PyVal)),
    pruneRemove l tree n acc = .ok res →
    ∀ lv lb, 1 ≤ lv → ((lv, lb) ∈ res.2.2 ↔ (lv, lb) ∈ acc ∨ (lv, lb) ∈ l) := by
  intro l
  induction l with
  | nil =>
      intro tree n acc res h lv lb _
      simp only [pruneRemove] at h
      cases h
      simp
  | cons e rest ih =>
      intro tree n acc res h lv lb hlv
      obtain ⟨level, label⟩ := e
      simp only [pruneRemove] at h
      by_cases hskip : level = 0 ∧ n = 1
      · rw [if_pos hskip] at h
        rw [ih tree n acc res h lv lb hlv]
        constructor
        · rintro (ha | hr)
          · exact Or.inl ha
          · exact Or.inr (by simp [hr])
        · rintro (ha | hr)
          · exact Or.inl ha
          · rcases List.mem_cons.mp hr with he | hr'
            · cases he
              omega
            · exact Or.inr hr'
      · rw [if_neg hskip] at h
        cases hrl : removeLevel tree level with
        | error e => rw [hrl] at h; cases h
        | ok tree' =>
            rw [hrl] at h
            simp only [Bind.bind, Except.bind] at h
            rw [ih tree' (n - 1) _ res h lv lb hlv]
            constructor
            · rintro (ha | hr)
              · rcases List.mem_append.mp ha with ha' | ha'
                · exact Or.inl ha'
                · simp at ha'
                  obtain ⟨rfl, rfl⟩ := ha'
                  exact Or.inr (by simp)
              · exact Or.inr (by simp [hr])
            · rintro (ha | hr)
              · exact Or.inl (by simp [ha])
              · rcases List.mem_cons.mp hr with he | hr'
                · obtain ⟨rfl, rfl⟩ := Prod.mk.injEq .. ▸ he
                  exact Or.inl (by simp)
                · exact Or.inr hr'

/-- The branch at `px` is missing or a dictionary (decidable form). -/
def leafDictOrMissing (t : PyVal) (px : List PyVal) : Bool :=
  match getLeafE t px with
  | .ok PyVal.vnone => true
  | .ok (.vdict _) => true
  | _ => false

/-- The corrected collapse condition: every branch prefix that exists
holds a sub-container with at most one key that does contain `label`. -/
def pruneCollapseCond (t : PyVal) (level : Nat) (label : PyVal) : Prop :=
  ∀ px ∈ getPrefixes t level,
    getLeafE t px = .ok PyVal.vnone ∨
    ∃ dd, getLeafE t px = .ok (.vdict dd) ∧ dd.length ≤ 1 ∧ label ∈ dictKeys dd

theorem leafDictOrMissing_elim (t : PyVal) (px : List PyVal)
    (h : leafDictOrMissing t px = true) :
    getLeafE t px = .ok PyVal.vnone ∨ ∃ dd, getLeafE t px = .ok (.vdict dd) := by
  unfold leafDictOrMissing at h
  cases hg : getLeafE t px with
  | error e => rw [hg] at h; cases h
  | ok w =>
      rw [hg] at h
      cases w
      case vnone => exact Or.inl rfl
      case vdict d => exact Or.inr ⟨d, rfl⟩
      all_goals simp at h

/-- C1 amended: for a level `>= 1` whose key list on the cleaned tree is
the singleton `[label]` with `label` not ignored, and whose existing
prefix branches are all containers, a succeeding `prune` removes the
level (i.e. `(level, label)` is in the returned list) exactly when every
existing prefix branch has at most one key AND contains `label` — the
inverse of the claimed condition; when some existing prefix branch has
more than one key or lacks `label`, the level is kept. -/
theorem c1_prune_collapse (data : PyVal) (ignore : List PyVal) (level : Nat) (label : PyVal)
    (res : PyVal × List (Nat × PyVal))
    (hres : prune data ignore = .ok res)
    (hlevel : 1 ≤ level)
    (hsing : (getPaths (removeEmptyLeaves data).1).getD level [] = [label])
    (hig : label ∉ ignore)
    (hdm : ∀ px ∈ getPrefixes (removeEmptyLeaves data).1 level,
      leafDictOrMissing (removeEmptyLeaves data).1 px = true) :
    ((level, label) ∈ res.2 ↔ pruneCollapseCond (removeEmptyLeaves data).1 level label) := by
  simp only [prune, Bind.bind, Except.bind] at hres
  cases hscan : pruneScan (removeEmptyLeaves data).1 ignore
      (getPaths (removeEmptyLeaves data).1) (getPaths (removeEmptyLeaves data).1).length with
  | error e => rw [hscan] at hres; cases hres
  | ok ltp =>
      rw [hscan] at hres
      dsimp only at hres
      cases hrem : pruneRemove ltp.reverse (removeEmptyLeaves data).1
          (getPaths (removeEmptyLeaves data).1).length [] with
      | error e => rw [hrem] at hres; cases hres
      | ok r =>
          rw [hrem] at hres
          simp only [pure, Except.pure] at hres
          cases hres
          have hmem1 := pruneRemove_mem ltp.reverse (removeEmptyLeaves data).1
            (getPaths (removeEmptyLeaves data).1).length [] r hrem level label hlevel
      
          have hmem2 := pruneScanLevels_mem (removeEmptyLeaves data).1 ignore
            (getPaths (removeEmptyLeaves data).1)
            (List.range (getPaths (removeEmptyLeaves data).1).length) [] ltp hscan level label
          have hlt : level < (getPaths (removeEmptyLeaves data).1).length := by
            by_contra hge
            rw [List.getD_eq_default _ _ (by omega)] at hsing
            cases hsing
          obtain ⟨b, hb, hiff⟩ := pruneKeep_spec
            (getPrefixes (removeEmptyLeaves data).1 level) (removeEmptyLeaves data).1 label
            (fun px hpx => leafDictOrMissing_elim _ _ (hdm px hpx))
          rw [hmem1, List.mem_reverse, hmem2]
          simp only [List.not_mem_nil, false_or, List.mem_range]
          constructor
          · rintro ⟨_, _, _, hpk⟩
            rw [hb] at hpk
            cases hpk
            exact hiff.mp rfl
          · intro hcond
            refine ⟨hlt, hsing, hig, ?_⟩
            rw [hb, hiff.mpr hcond]

/-- Witness for C1's amended theorem: on `{"a": {"x": 1}, "b": {"x": 2}}`
with an empty ignore list, level 1 (sole label `"x"`) is removed, and
indeed every prefix branch is the one-key container `{"x": ...}`. -/
theorem c1_prune_collapse_witness :
    ((1, kX) ∈ (PyVal.vdict [(kA, .vint 1), (kB, .vint 2)], [(1, kX)]).2 ↔
      pruneCollapseCond (removeEmptyLeaves exC7).1 1 kX) :=
  c1_prune_collapse exC7 [] 1 kX (PyVal.vdict [(kA, .vint 1), (kB, .vint 2)], [(1, kX)])
    rfl (by omega) rfl (by simp) (by decide)

/-!  ## C9 — `asDataFrame` rewrites only the matching branches -/

theorem lookupD_mem (d : List (PyVal × PyVal)) (k v : PyVal)
    (h : lookupD d k = some v) : (k, v) ∈ d := by
  induction d with
  | nil => cases h
  | cons kw rest ih =>
      obtain ⟨k', w⟩ := kw
      by_cases he : k' = k
      · subst he
        simp [lookupD] at h
        simp [h]
      · simp [lookupD, he] at h
        simp [ih h]

theorem lookupD_of_mem_nodup (d : List (PyVal × PyVal)) (k v : PyVal)
    (hnd : (dictKeys d).Nodup) (h : (k, v) ∈ d) : lookupD d k = some v := by
  induction d with
  | nil => cases h
  | cons kw rest ih =>
      obtain ⟨k', w⟩ := kw
      rw [dictKeys, List.map_cons, List.nodup_cons] at hnd
      rcases List.mem_cons.mp h with he | ht
      · cases he
        simp [lookupD]
      · have hk : k ∈ rest.map Prod.fst := List.mem_map.mpr ⟨(k, v), ht, rfl⟩
        have hne : k' ≠ k := fun he => hnd.1 (he ▸ hk)
        simp only [lookupD, if_neg hne]
        exact ih (by rw [dictKeys]; exact hnd.2) ht

theorem lookupD_dictSet_ne (d : List (PyVal × PyVal)) (x y v : PyVal) (h : y ≠ x) :
    lookupD (dictSet d x v) y = lookupD d y := by
  induction d with
  | nil =>
      simp only [dictSet, lookupD]
      rw [if_neg (fun he => h he.symm)]
  | cons kw rest ih =>
      obtain ⟨k, w⟩ := kw
      by_cases he : k = x
      · subst he
        have hky : ¬ k = y := fun hk => h hk.symm
        simp only [dictSet, if_pos rfl, lookupD]
        rw [if_neg hky, if_neg hky]
      · simp only [dictSet, if_neg he, lookupD]
        by_cases hky : k = y
        · rw [if_pos hky, if_pos hky]
        · rw [if_neg hky, if_neg hky]
          exact ih

theorem prefix_snoc_cases (m n : List PyVal) (k : PyVal) (h : m <+: n ++ [k]) :
    m <+: n ∨ m = n ++ [k] := by
  rcases Nat.lt_or_ge m.length (n ++ [k]).length with hl | hl
  · left
    have hn : m.length ≤ n.length := by simp at hl ⊢; omega
    exact List.prefix_of_prefix_length_le h (List.prefix_append n [k]) hn
  · right
    exact h.eq_of_length (Nat.le_antisymm h.length_le hl)

mutual
/-- Well-formed Python dictionaries: no duplicate sibling keys anywhere. -/
def wfKeysB : PyVal → Bool
  | .vdict d => decide (dictKeys d).Nodup && wfKeysD d
  | _ => true

def wfKeysD : List (PyVal × PyVal) → Bool
  | [] => true
  | (_, v) :: rest => wfKeysB v && wfKeysD rest
end

theorem wfKeysD_mem (d : List (PyVal × PyVal)) (h : wfKeysD d = true) :
    ∀ kv ∈ d, wfKeysB kv.2 = true := by
  induction d with
  | nil => simp
  | cons kw rest ih =>
      obtain ⟨k, w⟩ := kw
      simp only [wfKeysD, Bool.and_eq_true] at h
      rintro ⟨k', v'⟩ hm
      rcases List.mem_cons.mp hm with he | ht
      · cases he; exact h.1
      · exact ih h.2 _ ht

theorem uniformB_subAt : ∀ (q : List PyVal) (T w : PyVal) (r : Nat),
    uniformB T r = true → subAt T q = some w →
    q.length ≤ r ∧ uniformB w (r - q.length) = true := by
  intro q
  induction q with
  | nil =>
      intro T w r h1 h2
      simp [subAt] at h2
      subst h2
      simpa using h1
  | cons k p ih =>
      intro T w r h1 h2
      cases T <;> simp [subAt] at h2
      rename_i d
      rcases hl : lookupD d k with _ | w1
      · rw [hl] at h2; cases h2
      · rw [hl] at h2
        cases r with
        | zero => simp [uniformB] at h1
        | succ r' =>
            simp only [uniformB, Bool.and_eq_true] at h1
            have hw1 := uniformD_mem d r' h1.2 _ (lookupD_mem d k w1 hl)
            have := ih w1 w r' hw1 h2
            constructor
            · simp; omega
            · simpa [Nat.succ_sub_one] using this.2

theorem foldl_min_const : ∀ (t : List Nat) (dep x : Nat),
    x = dep → (∀ y ∈ t, y = dep) → t.foldl min x = dep := by
  intro t
  induction t with
  | nil => intro dep x h1 _; simpa using h1
  | cons y t ih =>
      intro dep x h1 h2
      simp only [List.foldl_cons]
      exact ih dep (min x y) (by rw [h1, h2 y (by simp)]; simp)
        (fun z hz => h2 z (by simp [hz]))

theorem foldl_max_const : ∀ (t : List Nat) (dep x : Nat),
    x = dep → (∀ y ∈ t, y = dep) → t.foldl max x = dep := by
  intro t
  induction t with
  | nil => intro dep x h1 _; simpa using h1
  | cons y t ih =>
      intro dep x h1 h2
      simp only [List.foldl_cons]
      exact ih dep (max x y) (by rw [h1, h2 y (by simp)]; simp)
        (fun z hz => h2 z (by simp [hz]))

theorem adfNormBranch_isDF (bd : List (PyVal × PyVal)) (df : PyVal)
    (h : adfNormBranch bd = some df) : isDFLike df = true := by
  unfold adfNormBranch at h
  split at h
  · cases h; rfl
  · split at h
    · cases h; rfl
    · cases h

/-- Writing at an existing path `q` succeeds, stores the new value at
`q`, and leaves every path incomparable with `q` untouched. -/
theorem setLeafAux_subAt : ∀ (q : List PyVal) (T w v : PyVal), q ≠ [] →
    subAt T q = some w →
    ∃ T', setLeafAux T q v = .ok T' ∧ subAt T' q = some v ∧
      ∀ p, ¬ (q <+: p) → ¬ (p <+: q) → subAt T' p = subAt T p
  | [], _, _, _, h, _ => absurd rfl h
  | [x], T, w, v, _, hsub => by
      cases T <;> simp only [subAt] at hsub <;> try exact absurd hsub (by simp)
      case vdict d =>
        cases hl : lookupD d x with
        | none => rw [hl] at hsub; cases hsub
        | some w1 =>
            refine ⟨.vdict (dictSet d x v), rfl, ?_, ?_⟩
            · simp [subAt, lookupD_dictSet_self]
            · intro p hqp hpq
              cases p with
              | nil => exact absurd List.nil_prefix hpq
              | cons z p' =>
                  have hz : ¬ (x = z) := by
                    intro he
                    exact hqp (List.cons_prefix_cons.mpr ⟨he, List.nil_prefix⟩)
                  have hz' : z ≠ x := fun he => hz he.symm
                  simp [subAt, lookupD_dictSet_ne d x z v hz']
  | x :: y :: rest, T, w, v, _, hsub => by
      cases T <;> simp only [subAt] at hsub <;> try exact absurd hsub (by simp)
      case vdict d =>
        cases hl : lookupD d x with
        | none => rw [hl] at hsub; cases hsub
        | some w1 =>
            rw [hl] at hsub
            obtain ⟨T1, hset1, hsub1, hpres1⟩ :=
              setLeafAux_subAt (y :: rest) w1 w v (by simp) hsub
            refine ⟨.vdict (dictSet d x T1), ?_, ?_, ?_⟩
            · simp [setLeafAux, hl, hset1, Bind.bind, Except.bind]
            · simp [subAt, lookupD_dictSet_self, hsub1]
            · intro p hqp hpq
              cases p with
              | nil => exact absurd List.nil_prefix hpq
              | cons z p' =>
                  by_cases hz : z = x
                  · subst hz
                    have h1 : ¬ ((y :: rest) <+: p') := by
                      intro hc
                      exact hqp (List.cons_prefix_cons.mpr ⟨rfl, hc⟩)
                    have h2 : ¬ (p' <+: (y :: rest)) := by
                      intro hc
                      exact hpq (List.cons_prefix_cons.mpr ⟨rfl, hc⟩)
                    simp [subAt, lookupD_dictSet_self, hl, hpres1 p' h1 h2]
                  · simp [subAt, lookupD_dictSet_ne d x z T1 hz]

/-- The normalization loop succeeds on incomparable dictionary
branches, rewriting exactly the matching ones and nothing else. -/
theorem adfNormalize_effect : ∀ (branches : List (List PyVal × PyVal)) (T : PyVal),
    (∀ qb ∈ branches, qb.1 ≠ [] ∧ subAt T qb.1 = some qb.2 ∧ ∃ bd, qb.2 = .vdict bd) →
    List.Pairwise (fun a b => ¬ (a.1 <+: b.1) ∧ ¬ (b.1 <+: a.1)) branches →
    ∃ T', adfNormalize branches T = .ok T' ∧
      (∀ p, (∀ qb ∈ branches, ¬ (qb.1 <+: p) ∧ ¬ (p <+: qb.1)) → subAt T' p = subAt T p) ∧
      (∀ qb ∈ branches, ∀ bd, qb.2 = .vdict bd →
        subAt T' qb.1 = (match adfNormBranch bd with
                         | some df => some df
                         | Option.none => some qb.2)) := by
  intro branches
  induction branches with
  | nil =>
      intro T _ _
      exact ⟨T, rfl, fun p _ => rfl, by simp⟩
  | cons qb rest ih =>
      intro T hfacts hpw
      obtain ⟨q, b⟩ := qb
      obtain ⟨hqne, hqsub, bd, rfl⟩ := hfacts (q, b) (by simp)
      rw [List.pairwise_cons] at hpw
      cases hnb : adfNormBranch bd with
      | none =>
          obtain ⟨T', hrun, hpres, hrew⟩ := ih T
            (fun e he => hfacts e (by simp [he])) hpw.2
          refine ⟨T', ?_, ?_, ?_⟩
          · simp [adfNormalize, hnb, hrun]
          · intro p hp
            exact hpres p (fun e he => hp e (by simp [he]))
          · intro e he bd' hbd'
            rcases List.mem_cons.mp he with rfl | he'
            · cases hbd'
              have hq' : ∀ e' ∈ rest, ¬ (e'.1 <+: q) ∧ ¬ (q <+: e'.1) := by
                intro e' he'
                have h := hpw.1 e' he'
                exact ⟨h.2, h.1⟩
              rw [hnb, hpres q hq']
              exact hqsub
            · exact hrew e he' bd' hbd'
      | some df =>
          obtain ⟨T1, hset1, hsub1, hpres1⟩ := setLeafAux_subAt q T (.vdict bd) df hqne hqsub
          have hrest : ∀ e ∈ rest, e.1 ≠ [] ∧ subAt T1 e.1 = some e.2 ∧
              ∃ bd', e.2 = .vdict bd' := by
            intro e he
            obtain ⟨h1, h2, h3⟩ := hfacts e (by simp [he])
            refine ⟨h1, ?_, h3⟩
            rw [hpres1 e.1 (hpw.1 e he).1 (hpw.1 e he).2]
            exact h2
          obtain ⟨T', hrun, hpres, hrew⟩ := ih T1 hrest hpw.2
          refine ⟨T', ?_, ?_, ?_⟩
          · simp [adfNormalize, hnb, setLeafM, hset1, hrun, Bind.bind, Except.bind]
          · intro p hp
            rw [hpres p (fun e he => hp e (by simp [he]))]
            have hq := hp (q, .vdict bd) (by simp)
            exact hpres1 p hq.1 hq.2
          · intro e he bd' hbd'
            rcases List.mem_cons.mp he with rfl | he'
            · cases hbd'
              have hq' : ∀ e' ∈ rest, ¬ (e'.1 <+: q) ∧ ¬ (q <+: e'.1) := by
                intro e' he'
                have h := hpw.1 e' he'
                exact ⟨h.2, h.1⟩
              rw [hnb, hpres q hq']
              exact hsub1
            · exact hrew e he' bd' hbd' 

theorem subAt_append : ∀ (a b : List PyVal) (T : PyVal),
    subAt T (a ++ b) = (subAt T a).bind (fun w => subAt w b) := by
  intro a
  induction a with
  | nil => intro b T; simp [subAt]
  | cons k p ih =>
      intro b T
      cases T <;> simp [subAt]
      rename_i d
      cases lookupD d k <;> simp [ih]

theorem incomp_of_ne_of_length_eq (p q : List PyVal) (hne : p ≠ q)
    (hlen : p.length = q.length) : ¬ (p <+: q) ∧ ¬ (q <+: p) :=
  ⟨fun h => hne (h.eq_of_length hlen), fun h => hne (h.eq_of_length hlen.symm).symm⟩

/-- Full path of a BFS queue entry. -/
def qpath (e : List PyVal × Int × (PyVal × PyVal)) : List PyVal := e.1 ++ [e.2.2.1]


theorem getNodesAux_spec :
    ∀ (fuel : Nat) (queue : List (List PyVal × Int × (PyVal × PyVal)))
    (level : Int) (acc : List (List PyVal × PyVal)) (root : PyVal),
    szQ queue < fuel →
    (∀ e ∈ queue, subAt root (qpath e) = some e.2.2.2 ∧ e.2.1 = (e.1.length : Int) ∧
      wfKeysB e.2.2.2 = true) →
    List.Pairwise (fun e1 e2 => ¬ (qpath e1 <+: qpath e2) ∧ ¬ (qpath e2 <+: qpath e1)) queue →
    (∀ a ∈ acc, subAt root a.1 = some a.2 ∧ (a.1.length : Int) = level + 1) →
    (∀ a ∈ acc, ∀ e ∈ queue, ¬ (qpath e <+: a.1)) →
    (acc.map Prod.fst).Nodup →
    (∀ a ∈ getNodesAux fuel queue level acc,
      subAt root a.1 = some a.2 ∧ (a.1.length : Int) = level + 1) ∧
    ((getNodesAux fuel queue level acc).map Prod.fst).Nodup := by
  intro fuel
  induction fuel with
  | zero => intro queue level acc root h1; omega
  | succ fuel ih =>
      intro queue level acc root h1 hqf hqpw haf haq hand
      cases queue with
      | nil =>
          constructor
          · intro a ha
            simp only [getNodesAux] at ha
            exact haf a ha
          · simpa [getNodesAux] using hand
      | cons e0 rest =>
          obtain ⟨p, l, k, v⟩ := e0
          obtain ⟨hsub0, hl0, hwf0⟩ := hqf (p, l, (k, v)) (by simp)
          have hsub0' : subAt root (p ++ [k]) = some v := hsub0
          have hlp : l = (p.length : Int) := hl0
          rw [List.pairwise_cons] at hqpw
          have hnotin : ∀ a ∈ acc, a.1 ≠ p ++ [k] := by
            intro a ha he
            exact haq a ha (p, l, (k, v)) (by simp)
              (by rw [he]; exact List.prefix_refl (p ++ [k]))
          -- facts about the new accumulator
          have haf' : ∀ a ∈ (if l = level then acc ++ [(p ++ [k], v)] else acc),
              subAt root a.1 = some a.2 ∧ (a.1.length : Int) = level + 1 := by
            intro a ha
            by_cases hll : l = level
            · rw [if_pos hll] at ha
              rcases List.mem_append.mp ha with ha' | ha'
              · exact haf a ha'
              · simp only [List.mem_singleton] at ha'
                subst ha'
                refine ⟨hsub0', ?_⟩
                show ((p ++ [k]).length : Int) = level + 1
                simp only [List.length_append, List.length_singleton]
                push_cast
                omega
            · rw [if_neg hll] at ha
              exact haf a ha
          have hand' : ((if l = level then acc ++ [(p ++ [k], v)] else acc).map
              Prod.fst).Nodup := by
            by_cases hll : l = level
            · rw [if_pos hll, List.map_append, List.nodup_append]
              refine ⟨hand, List.nodup_singleton _, ?_⟩
              intro x hx hx2
              simp only [List.map_cons, List.map_nil, List.mem_singleton] at hx2
              obtain ⟨a, ha, rfl⟩ := List.mem_map.mp hx
              exact hnotin a ha hx2
            · rw [if_neg hll]
              exact hand
          have hqfR : ∀ e ∈ rest, subAt root (qpath e) = some e.2.2.2 ∧
              e.2.1 = (e.1.length : Int) ∧ wfKeysB e.2.2.2 = true := by
            intro e he
            exact hqf e (List.mem_cons_of_mem _ he)
          have haqR : ∀ a ∈ (if l = level then acc ++ [(p ++ [k], v)] else acc),
              ∀ e ∈ rest, ¬ (qpath e <+: a.1) := by
            intro a ha e he
            by_cases hll : l = level
            · rw [if_pos hll] at ha
              rcases List.mem_append.mp ha with ha' | ha'
              · exact haq a ha' e (List.mem_cons_of_mem _ he)
              · simp only [List.mem_singleton] at ha'
                subst ha'
                exact (hqpw.1 e he).2
            · rw [if_neg hll] at ha
              exact haq a ha e (List.mem_cons_of_mem _ he)
          have hszR : szQ rest < fuel := by
            have hp := szV_pos v
            simp only [szQ] at h1
            omega
          cases v
          case vdict d =>
              simp only [wfKeysB, Bool.and_eq_true, decide_eq_true_eq] at hwf0
              have hnodk : (dictKeys d).Nodup := hwf0.1
              have hwfd : ∀ kv ∈ d, wfKeysB kv.2 = true := wfKeysD_mem d hwf0.2
              -- queue entry facts for the new queue
              have hqf' : ∀ e ∈ rest ++ d.map (fun kv => (p ++ [k], l + 1, kv)),
                  subAt root (qpath e) = some e.2.2.2 ∧ e.2.1 = (e.1.length : Int) ∧
                  wfKeysB e.2.2.2 = true := by
                intro e he
                rcases List.mem_append.mp he with he' | he'
                · exact hqfR e he'
                · obtain ⟨⟨k', v'⟩, hkv, rfl⟩ := List.mem_map.mp he'
                  refine ⟨?_, ?_, hwfd _ hkv⟩
                  · show subAt root ((p ++ [k]) ++ [k']) = some v'
                    rw [subAt_append, hsub0']
                    show subAt (.vdict d) [k'] = some v'
                    simp only [subAt]
                    rw [lookupD_of_mem_nodup d k' v' hnodk hkv]
                  · show l + 1 = ((p ++ [k]).length : Int)
                    simp only [List.length_append, List.length_singleton]
                    push_cast
                    omega
              -- key-distinctness of the children
              have hpk : List.Pairwise (fun kv1 kv2 : PyVal × PyVal => kv1.1 ≠ kv2.1) d :=
                List.pairwise_map.mp hnodk
              have hcross : ∀ m ∈ rest, ∀ kv ∈ d,
                  ¬ (qpath (p ++ [k], l + 1, kv) <+: qpath m) ∧
                  ¬ (qpath m <+: qpath (p ++ [k], l + 1, kv)) := by
                intro m hm kv hkv
                have hh := hqpw.1 m hm
                constructor
                · intro hc
                  exact hh.1 (List.IsPrefix.trans (List.prefix_append (p ++ [k]) [kv.1]) hc)
                · intro hc
                  rcases prefix_snoc_cases _ _ _ hc with hc' | hc'
                  · exact hh.2 hc'
                  · apply hh.1
                    rw [hc']
                    exact List.prefix_append (p ++ [k]) [kv.1]
              have hqpw' : List.Pairwise
                  (fun e1 e2 => ¬ (qpath e1 <+: qpath e2) ∧ ¬ (qpath e2 <+: qpath e1))
                  (rest ++ d.map (fun kv => (p ++ [k], l + 1, kv))) := by
                rw [List.pairwise_append]
                refine ⟨hqpw.2, ?_, ?_⟩
                · rw [List.pairwise_map]
                  refine List.Pairwise.imp ?_ hpk
                  intro kv1 kv2 hne
                  refine incomp_of_ne_of_length_eq _ _ ?_ (by simp [qpath])
                  show (p ++ [k]) ++ [kv1.1] ≠ (p ++ [k]) ++ [kv2.1]
                  intro he
                  exact hne (by simpa using List.append_cancel_left he)
                · intro a ha b hb
                  obtain ⟨kv, hkv, rfl⟩ := List.mem_map.mp hb
                  have hic := hcross a ha kv hkv
                  exact ⟨hic.2, hic.1⟩
              have haq' : ∀ a ∈ (if l = level then acc ++ [(p ++ [k], .vdict d)] else acc),
                  ∀ e ∈ rest ++ d.map (fun kv => (p ++ [k], l + 1, kv)),
                  ¬ (qpath e <+: a.1) := by
                intro a ha e he
                rcases List.mem_append.mp he with he' | he'
                · exact haqR a ha e he'
                · obtain ⟨⟨k', v'⟩, hkv, rfl⟩ := List.mem_map.mp he'
                  by_cases hll : l = level
                  · rw [if_pos hll] at ha
                    rcases List.mem_append.mp ha with ha' | ha'
                    · intro hc
                      apply haq a ha' (p, l, (k, .vdict d)) (by simp)
                      exact List.IsPrefix.trans (List.prefix_append (p ++ [k]) [k']) hc
                    · simp only [List.mem_singleton] at ha'
                      subst ha'
                      intro hc
                      have hlc := hc.length_le
                      simp only [qpath, List.length_append, List.length_singleton] at hlc
                      omega
                  · rw [if_neg hll] at ha
                    intro hc
                    apply haq a ha (p, l, (k, .vdict d)) (by simp)
                    exact List.IsPrefix.trans (List.prefix_append (p ++ [k]) [k']) hc
              have hsz' : szQ (rest ++ d.map (fun kv => (p ++ [k], l + 1, kv))) < fuel := by
                have hst := szQ_step p k l d rest
                omega
              simp only [getNodesAux]
              exact ih _ level _ root hsz' hqf' hqpw' haf' haq' hand'
          all_goals
            simp only [getNodesAux]
            exact ih rest level _ root hszR hqfR hqpw.2 haf' haqR hand'

/-- The nodes delivered by `getNodes` on a well-formed dictionary are
exactly located by their paths, sit one past the requested level, and
their paths repeat nowhere. -/
theorem getNodes_spec (d0 : List (PyVal × PyVal)) (level : Int)
    (hwf : wfKeysB (.vdict d0) = true) :
    (∀ a ∈ getNodes d0 level,
      subAt (.vdict d0) a.1 = some a.2 ∧ (a.1.length : Int) = level + 1) ∧
    ((getNodes d0 level).map Prod.fst).Nodup := by
  simp only [wfKeysB, Bool.and_eq_true, decide_eq_true_eq] at hwf
  have hpk0 : List.Pairwise (fun kv1 kv2 : PyVal × PyVal => kv1.1 ≠ kv2.1) d0 :=
    List.pairwise_map.mp hwf.1
  have hqf0 : ∀ e ∈ d0.map (fun kv => (([] : List PyVal), (0 : Int), kv)),
      subAt (.vdict d0) (qpath e) = some e.2.2.2 ∧ e.2.1 = (e.1.length : Int) ∧
      wfKeysB e.2.2.2 = true := by
    intro e he
    obtain ⟨⟨k, v⟩, hkv, rfl⟩ := List.mem_map.mp he
    refine ⟨?_, by simp, wfKeysD_mem d0 hwf.2 _ hkv⟩
    show subAt (.vdict d0) [k] = some v
    simp only [subAt]
    rw [lookupD_of_mem_nodup d0 k v hwf.1 hkv]
  have hqpw0 : List.Pairwise
      (fun e1 e2 => ¬ (qpath e1 <+: qpath e2) ∧ ¬ (qpath e2 <+: qpath e1))
      (d0.map (fun kv => (([] : List PyVal), (0 : Int), kv))) := by
    rw [List.pairwise_map]
    refine List.Pairwise.imp ?_ hpk0
    intro kv1 kv2 hne
    refine incomp_of_ne_of_length_eq _ _ ?_ (by simp [qpath])
    show [kv1.1] ≠ [kv2.1]
    simpa using hne
  exact getNodesAux_spec (szQ (d0.map (fun kv => ([], 0, kv))) + 1)
    (d0.map (fun kv => ([], 0, kv))) level [] (.vdict d0) (by omega)
    hqf0 hqpw0 (by simp) (by simp) (by simp)

/-- C9: on a well-formed tree of uniform leaf depth `dep + 2`, the tree
state after `asDataFrame` agrees with the input at every path not
touching the branch nodes two levels above the leaves; each such branch
keeps its value when its key set matches neither the grid nor the
overlap encodings, and is otherwise replaced in place by the single
tabular object built from it. -/
theorem c9_asDataFrame_frame_effect (d0 : List (PyVal × PyVal)) (dep : Nat)
    (hwf : wfKeysB (.vdict d0) = true)
    (huni : uniformB (.vdict d0) (dep + 2) = true) :
    ∃ tree' res, asDataFrame (.vdict d0) = (tree', res) ∧
      (∀ p : List PyVal,
        (∀ qb ∈ getNodes d0 (dep : Int), ¬ (qb.1 <+: p) ∧ ¬ (p <+: qb.1)) →
        subAt tree' p = subAt (.vdict d0) p) ∧
      (∀ qb ∈ getNodes d0 (dep : Int), ∀ bd, qb.2 = .vdict bd →
        (adfNormBranch bd = Option.none → subAt tree' qb.1 = some qb.2) ∧
        (∀ df, adfNormBranch bd = some df →
          subAt tree' qb.1 = some df ∧ isDFLike df = true)) := by
  have hu0 := huni
  simp only [uniformB, Bool.and_eq_true, decide_eq_true_eq] at hu0
  obtain ⟨hne0, hd⟩ := hu0
  -- all reported depths are dep + 1
  have hstep : ∀ e ∈ (d0.map (fun kv => (0, kv.2))).reverse,
      ∃ r, e.1 + r = dep + 1 ∧ uniformB e.2 r = true := by
    intro e he
    rw [List.mem_reverse] at he
    obtain ⟨kv, hkv, rfl⟩ := List.mem_map.mp he
    exact ⟨dep + 1, by omega, uniformD_mem d0 (dep + 1) hd kv hkv⟩
  obtain ⟨m1, m2, m3⟩ := getDepthsAux_uniform
    (szS ((d0.map (fun kv => (0, kv.2))).reverse) + 1)
    ((d0.map (fun kv => (0, kv.2))).reverse) [] (dep + 1) (by omega) hstep
  have hdepAll : ∀ y ∈ getDepths d0, y = dep + 1 := by
    intro y hy
    rcases m1 y hy with h | h
    · exact h
    · simp at h
  have hdepNe : getDepths d0 ≠ [] := by
    intro hemp
    have hsne : ((d0.map (fun kv => (0, kv.2))).reverse) ≠ [] := by simp [hne0]
    have h3 := m3 hsne
    rw [getDepths] at hemp
    rw [hemp] at h3
    simp at h3
  obtain ⟨x, xs, hlev⟩ : ∃ x xs, getDepths d0 = x :: xs := by
    cases hgd : getDepths d0 with
    | nil => exact absurd hgd hdepNe
    | cons x xs => exact ⟨x, xs, rfl⟩
  have hx : x = dep + 1 := hdepAll x (by rw [hlev]; simp)
  have hxs : ∀ y ∈ xs, y = dep + 1 := fun y hy => hdepAll y (by rw [hlev]; simp [hy])
  have hmi : xs.foldl min x = dep + 1 := foldl_min_const xs (dep + 1) x hx hxs
  have hma : xs.foldl max x = dep + 1 := foldl_max_const xs (dep + 1) x hx hxs
  -- the nominal depth
  have hlab : (getPaths (.vdict d0)).length = dep + 2 := by
    rw [getPaths]
    refine getPathsAux_uniform (szV (.vdict d0) + 1) [.vdict d0] (dep + 2)
      (by simp [szF]) (by simp) ?_
    intro v hv
    simp at hv
    subst hv
    exact huni
  have hcast : ((getPaths (.vdict d0)).length : Int) - 2 = (dep : Int) := by
    rw [hlab]; push_cast; ring
  -- the branch nodes two levels above the leaves
  obtain ⟨hgn1, hgn2⟩ := getNodes_spec d0 (dep : Int) hwf
  have hfacts : ∀ qb ∈ getNodes d0 (dep : Int),
      qb.1 ≠ [] ∧ subAt (.vdict d0) qb.1 = some qb.2 ∧ ∃ bd, qb.2 = .vdict bd := by
    intro qb hqb
    obtain ⟨hsub, hlen⟩ := hgn1 qb hqb
    have hlen' : qb.1.length = dep + 1 := by omega
    refine ⟨?_, hsub, ?_⟩
    · intro hc
      rw [hc] at hlen'
      simp at hlen'
    · have hub := uniformB_subAt qb.1 (.vdict d0) qb.2 (dep + 2) huni hsub
      have hu1 : uniformB qb.2 1 = true := by
        have h2 := hub.2
        rw [hlen'] at h2
        simpa [show dep + 2 - (dep + 1) = 1 from by omega] using h2
      cases hq : qb.2
      case vdict bd => exact ⟨bd, rfl⟩
      all_goals (rw [hq] at hu1; simp [uniformB] at hu1)
  have hpwB : List.Pairwise (fun a b => ¬ (a.1 <+: b.1) ∧ ¬ (b.1 <+: a.1))
      (getNodes d0 (dep : Int)) := by
    refine List.Pairwise.imp_of_mem ?_ (List.pairwise_map.mp hgn2)
    intro a b ha hb hne
    have hla := (hgn1 a ha).2
    have hlb := (hgn1 b hb).2
    exact incomp_of_ne_of_length_eq _ _ hne (by omega)
  obtain ⟨T', hrun, hpres, hrew⟩ :=
    adfNormalize_effect (getNodes d0 (dep : Int)) (.vdict d0) hfacts hpwB
  have hrun' : adfNormalize
      (getNodes d0 (((getPaths (.vdict d0)).length : Int) - 2)) (.vdict d0) = .ok T' := by
    rw [hcast]; exact hrun
  have hlen0 : ¬ d0.length = 0 := fun h => hne0 (List.length_eq_zero.mp h)
  have hform : ∃ res, asDataFrame (.vdict d0) = (T', res) := by
    simp only [asDataFrame, pyLenE]
    rw [if_neg hlen0, hlev]
    dsimp only
    rw [hmi, hma]
    rw [if_neg (by simp)]
    rw [hrun']
    dsimp only
    cases hm : adfMerge T' (getPaths T') with
    | error e => exact ⟨.error e, rfl⟩
    | ok df => exact ⟨.ok (some df), rfl⟩
  obtain ⟨res, hres⟩ := hform
  refine ⟨T', res, hres, hpres, ?_⟩
  intro qb hqb bd hbd
  have hr := hrew qb hqb bd hbd
  constructor
  · intro hnb
    rw [hnb] at hr
    rw [hr, hbd]
  · intro df hdf
    rw [hdf] at hr
    exact ⟨hr, adfNormBranch_isDF bd df hdf⟩

/-- A uniform depth-2 tree whose first branch carries the grid encoding
keys and whose second does not. -/
def c9ex : List (PyVal × PyVal) :=
  [(kA, .vdict [(.vstr ("rows"), .vlist [.vint 1]),
                (.vstr ("columns"), .vlist [.vint 2]),
                (.vstr ("matrix"), .vlist [.vint 3])]),
   (kB, .vdict [(kX, .vint 4), (kY, .vint 5)])]

/-- Witness for C9 on `c9ex`. -/
theorem c9_asDataFrame_frame_effect_witness :
    wfKeysB (.vdict c9ex) = true ∧ uniformB (.vdict c9ex) (0 + 2) = true ∧
    (∃ tree' res, asDataFrame (.vdict c9ex) = (tree', res) ∧
      (∀ p : List PyVal,
        (∀ qb ∈ getNodes c9ex ((0 : Nat) : Int), ¬ (qb.1 <+: p) ∧ ¬ (p <+: qb.1)) →
        subAt tree' p = subAt (.vdict c9ex) p) ∧
      (∀ qb ∈ getNodes c9ex ((0 : Nat) : Int), ∀ bd, qb.2 = .vdict bd →
        (adfNormBranch bd = Option.none → subAt tree' qb.1 = some qb.2) ∧
        (∀ df, adfNormBranch bd = some df →
          subAt tree' qb.1 = some df ∧ isDFLike df = true))) :=
  ⟨by decide, by decide, c9_asDataFrame_frame_effect c9ex 0 (by decide) (by decide)⟩

/-!  ## C2 — infrastructure for the amended `swop` round trip -/

mutual
/-- `None`-freeness: `None` appears neither as a dictionary key nor as
any node value of the tree. -/
def noneFree : PyVal → Bool
  | .vnone => false
  | .vdict d => noneFreeD d
  | _ => true

def noneFreeD : List (PyVal × PyVal) → Bool
  | [] => true
  | (k, v) :: rest => decide (k ≠ PyVal.vnone) && noneFree v && noneFreeD rest
end

theorem noneFreeD_mem (d : List (PyVal × PyVal)) (h : noneFreeD d = true) :
    ∀ kv ∈ d, kv.1 ≠ PyVal.vnone ∧ noneFree kv.2 = true := by
  induction d with
  | nil => simp
  | cons kw rest ih =>
      obtain ⟨k, w⟩ := kw
      simp only [noneFreeD, Bool.and_eq_true, decide_eq_true_eq] at h
      rintro ⟨k', v'⟩ hm
      rcases List.mem_cons.mp hm with he | ht
      · cases he; exact ⟨h.1.1, h.1.2⟩
      · exact ih h.2 _ ht

theorem lookupD_isSome_of_mem_keys (d : List (PyVal × PyVal)) (k : PyVal)
    (h : k ∈ dictKeys d) : ∃ v, lookupD d k = some v := by
  induction d with
  | nil => simp [dictKeys] at h
  | cons kw rest ih =>
      obtain ⟨k', w⟩ := kw
      by_cases he : k' = k
      · exact ⟨w, by simp [lookupD, he]⟩
      · simp only [dictKeys, List.map_cons, List.mem_cons] at h
        rcases h with h | h
        · exact absurd h.symm he
        · obtain ⟨v, hv⟩ := ih h
          exact ⟨v, by simp [lookupD, he, hv]⟩

theorem noneFree_subAt : ∀ (q : List PyVal) (T w : PyVal),
    noneFree T = true → subAt T q = some w → noneFree w = true := by
  intro q
  induction q with
  | nil => intro T w h1 h2; simp [subAt] at h2; subst h2; exact h1
  | cons k p ih =>
      intro T w h1 h2
      cases T <;> simp [subAt] at h2
      rename_i d
      rcases hl : lookupD d k with _ | w1
      · rw [hl] at h2; cases h2
      · rw [hl] at h2
        exact ih w1 w (noneFreeD_mem d h1 _ (lookupD_mem d k w1 hl)).2 h2

theorem lookupD_vnone_of_noneFree (d : List (PyVal × PyVal))
    (h : noneFreeD d = true) : lookupD d PyVal.vnone = Option.none := by
  induction d with
  | nil => rfl
  | cons kw rest ih =>
      obtain ⟨k, w⟩ := kw
      simp only [noneFreeD, Bool.and_eq_true, decide_eq_true_eq] at h
      simp [lookupD, h.1.1, ih h.2]

theorem subAt_vnone_mem : ∀ (q : List PyVal) (T : PyVal),
    noneFree T = true → PyVal.vnone ∈ q → subAt T q = Option.none := by
  intro q
  induction q with
  | nil => simp
  | cons k p ih =>
      intro T h1 hm
      cases T <;> simp [subAt]
      case vdict d =>
        rcases List.mem_cons.mp hm with he | ht
        · rw [← he, lookupD_vnone_of_noneFree d h1]
        · rcases hl : lookupD d k with _ | w1
          · rfl
          · exact ih w1 (noneFreeD_mem d h1 _ (lookupD_mem d k w1 hl)).2 ht

theorem dictKeys_dictSet (d : List (PyVal × PyVal)) (x v : PyVal) :
    dictKeys (dictSet d x v) = if x ∈ dictKeys d then dictKeys d else dictKeys d ++ [x] := by
  induction d with
  | nil => simp [dictSet, dictKeys]
  | cons kw rest ih =>
      obtain ⟨k, w⟩ := kw
      by_cases he : k = x
      · simp [dictSet, dictKeys, he]
      · have hne : ¬ x = k := fun h => he h.symm
        have hs : dictSet ((k, w) :: rest) x v = (k, w) :: dictSet rest x v := by
          simp [dictSet, he]
        rw [hs, show dictKeys ((k, w) :: dictSet rest x v) = k :: dictKeys (dictSet rest x v)
          from rfl, ih, show dictKeys ((k, w) :: rest) = k :: dictKeys rest from rfl]
        by_cases hm : x ∈ dictKeys rest
        · rw [if_pos hm, if_pos (by simp [List.mem_cons, hm])]
        · rw [if_neg hm, if_neg (by simp [List.mem_cons, hne, hm]), List.cons_append]

theorem dictKeys_dictSet_nodup (d : List (PyVal × PyVal)) (x v : PyVal)
    (h : (dictKeys d).Nodup) : (dictKeys (dictSet d x v)).Nodup := by
  rw [dictKeys_dictSet]
  by_cases hm : x ∈ dictKeys d
  · simpa [hm] using h
  · rw [if_neg hm, List.nodup_append]
    refine ⟨h, by simp, ?_⟩
    intro a ha hax
    simp only [List.mem_singleton] at hax
    subst hax
    exact hm ha

theorem noneFreeD_dictSet (d : List (PyVal × PyVal)) (x v : PyVal)
    (h : noneFreeD d = true) (hx : x ≠ PyVal.vnone) (hv : noneFree v = true) :
    noneFreeD (dictSet d x v) = true := by
  induction d with
  | nil => simp [dictSet, noneFreeD, hx, hv]
  | cons kw rest ih =>
      obtain ⟨k, w⟩ := kw
      simp only [noneFreeD, Bool.and_eq_true, decide_eq_true_eq] at h
      by_cases he : k = x <;>
        simp [dictSet, he, noneFreeD, h.1.1, h.1.2, h.2, hx, hv, ih h.2]

theorem uniformD_dictSet (d : List (PyVal × PyVal)) (x v : PyVal) (r : Nat)
    (h : uniformD d r = true) (hv : uniformB v r = true) :
    uniformD (dictSet d x v) r = true := by
  induction d with
  | nil => simp [dictSet, uniformD, hv]
  | cons kw rest ih =>
      obtain ⟨k, w⟩ := kw
      simp only [uniformD, Bool.and_eq_true] at h
      by_cases he : k = x <;>
        simp [dictSet, he, uniformD, h.1, h.2, hv, ih h.2]

theorem subAt_none_extend (T : PyVal) (q e : List PyVal)
    (h : subAt T q = Option.none) : subAt T (q ++ e) = Option.none := by
  rw [subAt_append, h]
  rfl

theorem pfilterNone_noneless (l : List PyVal) (h : PyVal.vnone ∉ l) :
    pfilterNone l = l := by
  rw [pfilterNone, List.filter_eq_self]
  intro a ha
  simp only [decide_eq_true_eq]
  intro he
  exact h (he ▸ ha)

theorem pfilterNone_append (a b : List PyVal) :
    pfilterNone (a ++ b) = pfilterNone a ++ pfilterNone b := by
  simp [pfilterNone, List.filter_append]

theorem pfilterNone_vnone : pfilterNone [PyVal.vnone] = [] := rfl

theorem mem_uniqueAux : ∀ (l seen : List PyVal) (x : PyVal),
    x ∈ uniqueAux seen l ↔ x ∈ l ∧ x ∉ seen := by
  intro l
  induction l with
  | nil => simp [uniqueAux]
  | cons y rest ih =>
      intro seen x
      by_cases hy : y ∈ seen
      · rw [uniqueAux, if_pos hy, ih]
        constructor
        · rintro ⟨h1, h2⟩
          exact ⟨List.mem_cons_of_mem _ h1, h2⟩
        · rintro ⟨h1, h2⟩
          rcases List.mem_cons.mp h1 with he | ht
          · subst he; exact absurd hy h2
          · exact ⟨ht, h2⟩
      · rw [uniqueAux, if_neg hy]
        constructor
        · intro h
          rcases List.mem_cons.mp h with he | ht
          · subst he; exact ⟨by simp, hy⟩
          · obtain ⟨h1, h2⟩ := (ih _ _).mp ht
            refine ⟨List.mem_cons_of_mem _ h1, ?_⟩
            intro hc
            exact h2 (by simp [hc])
        · rintro ⟨h1, h2⟩
          rcases List.mem_cons.mp h1 with he | ht
          · subst he; simp
          · by_cases hxy : x = y
            · subst hxy; simp
            · refine List.mem_cons_of_mem _ ((ih _ _).mpr ⟨ht, ?_⟩)
              intro hc
              rcases List.mem_cons.mp hc with h | h
              · exact hxy h
              · exact h2 h

theorem mem_unique (l : List PyVal) (x : PyVal) : x ∈ unique l ↔ x ∈ l := by
  rw [unique, mem_uniqueAux]
  simp

theorem nodup_uniqueAux : ∀ (l seen : List PyVal), (uniqueAux seen l).Nodup := by
  intro l
  induction l with
  | nil => intro seen; simp [uniqueAux]
  | cons y rest ih =>
      intro seen
      by_cases hy : y ∈ seen
      · rw [uniqueAux, if_pos hy]; exact ih seen
      · rw [uniqueAux, if_neg hy, List.nodup_cons]
        refine ⟨?_, ih _⟩
        intro hc
        exact ((mem_uniqueAux rest (y :: seen) y).mp hc).2 (by simp)

theorem nodup_unique (l : List PyVal) : (unique l).Nodup := nodup_uniqueAux l []

theorem mem_pyProduct : ∀ (xss : List (List PyVal)) (xs : List PyVal),
    xs ∈ pyProduct xss ↔ List.Forall₂ (fun x l => x ∈ l) xs xss := by
  intro xss
  induction xss with
  | nil =>
      intro xs
      simp only [pyProduct, List.mem_singleton]
      constructor
      · rintro rfl; exact List.Forall₂.nil
      · intro h; cases h; rfl
  | cons l ls ih =>
      intro xs
      simp only [pyProduct, List.mem_bind, List.mem_map]
      constructor
      · rintro ⟨x, hx, p, hp, rfl⟩
        exact List.Forall₂.cons hx ((ih p).mp hp)
      · intro h
        cases h with
        | cons hx hp => exact ⟨_, hx, _, (ih _).mpr hp, rfl⟩

theorem pyProduct_singleton (l : List PyVal) :
    pyProduct [l] = l.map (fun x => [x]) := by
  induction l with
  | nil => rfl
  | cons x rest ih =>
      simp only [pyProduct] at ih ⊢
      simp only [List.cons_bind, ih]
      rfl

theorem nodup_pyProduct : ∀ (xss : List (List PyVal)),
    (∀ l ∈ xss, l.Nodup) → (pyProduct xss).Nodup := by
  intro xss
  induction xss with
  | nil => intro _; simp [pyProduct]
  | cons l ls ih =>
      intro h
      simp only [pyProduct]
      rw [List.nodup_bind]
      refine ⟨?_, ?_⟩
      · intro x hx
        exact (ih (fun l' hl' => h l' (by simp [hl']))).map
          (fun p q hpq => by injection hpq)
      · have hl := h l (by simp)
        refine List.Pairwise.imp_of_mem ?_ hl
        intro a b _ _ hne p hpa hpb
        obtain ⟨pa, _, rfl⟩ := List.mem_map.mp hpa
        obtain ⟨pb, _, hb⟩ := List.mem_map.mp hpb
        injection hb.symm with h1 h2
        exact hne h1

theorem mem_dictKeys_of_mem (d : List (PyVal × PyVal)) (kv : PyVal × PyVal)
    (h : kv ∈ d) : kv.1 ∈ dictKeys d := List.mem_map_of_mem Prod.fst h

theorem mem_dictVals_of_mem (d : List (PyVal × PyVal)) (kv : PyVal × PyVal)
    (h : kv ∈ d) : kv.2 ∈ dictVals d := List.mem_map_of_mem Prod.snd h

theorem scanKeyed_mem : ∀ (lvl : List PyVal) (d : List (PyVal × PyVal)),
    (∀ v ∈ lvl, isDictV v = true) → .vdict d ∈ lvl →
    (∀ k ∈ dictKeys d, k ∈ (scanKeyed lvl).1) ∧
    (∀ w ∈ dictVals d, w ∈ (scanKeyed lvl).2) := by
  intro lvl
  induction lvl with
  | nil => simp
  | cons v rest ih =>
      intro d hdicts hmem
      have hv := hdicts v (by simp)
      cases v <;> simp [isDictV] at hv
      rename_i d'
      simp only [scanKeyed]
      rcases List.mem_cons.mp hmem with he | ht
      · injection he with he'
        subst he'
        exact ⟨fun k hk => List.mem_append_left _ hk,
               fun w hw => List.mem_append_left _ hw⟩
      · have := ih d (fun v hv' => hdicts v (by simp [hv'])) ht
        exact ⟨fun k hk => List.mem_append_right _ (this.1 k hk),
               fun w hw => List.mem_append_right _ (this.2 w hw)⟩

theorem scanKeyed_sound : ∀ (lvl : List PyVal),
    (∀ k ∈ (scanKeyed lvl).1, ∃ d, PyVal.vdict d ∈ lvl ∧ k ∈ dictKeys d) ∧
    (∀ w ∈ (scanKeyed lvl).2, ∃ d, PyVal.vdict d ∈ lvl ∧ w ∈ dictVals d) := by
  intro lvl
  induction lvl with
  | nil => simp [scanKeyed]
  | cons v rest ih =>
      cases v
      case vdict d' =>
        simp only [scanKeyed]
        constructor
        · intro k hk
          rcases List.mem_append.mp hk with h | h
          · exact ⟨d', by simp, h⟩
          · obtain ⟨d, hd, hkd⟩ := ih.1 k h
            exact ⟨d, by simp [hd], hkd⟩
        · intro w hw
          rcases List.mem_append.mp hw with h | h
          · exact ⟨d', by simp, h⟩
          · obtain ⟨d, hd, hwd⟩ := ih.2 w h
            exact ⟨d, by simp [hd], hwd⟩
      all_goals simp [scanKeyed]

theorem uniformB_isDict (v : PyVal) (r : Nat) (h : uniformB v (r + 1) = true) :
    ∃ d, v = .vdict d ∧ d ≠ [] := by
  cases v <;> simp [uniformB] at h ⊢
  exact h.1

theorem getPathsAux_complete : ∀ (fuel : Nat) (lvl : List PyVal) (r : Nat),
    szF lvl < fuel → (∀ v ∈ lvl, uniformB v r = true) →
    ∀ v ∈ lvl, ∀ (q : List PyVal) (w : PyVal), subAt v q = some w →
    ∀ ℓ, ℓ < q.length → q.getD ℓ PyVal.vnone ∈ (getPathsAux fuel lvl).getD ℓ [] := by
  intro fuel
  induction fuel with
  | zero => intro lvl r h1; omega
  | succ fuel ih =>
      intro lvl r h1 hu v hv q w hsub ℓ hℓ
      cases q with
      | nil => simp at hℓ
      | cons k q' =>
          cases v <;> simp only [subAt] at hsub <;> try cases hsub
          rename_i d
          rcases hlk : lookupD d k with _ | w1
          · rw [hlk] at hsub; cases hsub
          · rw [hlk] at hsub
            -- the level consists of dictionaries
            cases r with
            | zero =>
                have := hu _ hv
                simp [uniformB] at this
            | succ r' =>
                have hdicts : ∀ x ∈ lvl, isDictV x = true := by
                  intro x hx
                  obtain ⟨dx, rfl, _⟩ := uniformB_isDict x r' (hu x hx)
                  rfl
                have hfilter : lvl.filter pyHasKeys = lvl :=
                  filter_pyHasKeys_uniform lvl r' hu
                obtain ⟨e1, e2, e3⟩ := scanKeyed_uniform lvl r' hu
                have hlvlne : lvl ≠ [] := by
                  intro hc; rw [hc] at hv; cases hv
                have hs1ne : (scanKeyed lvl).1 ≠ [] := fun hc => hlvlne (e1.mp hc)
                have hmemd := scanKeyed_mem lvl d hdicts hv
                simp only [getPathsAux, hfilter, hs1ne, if_neg, if_false]
                cases ℓ with
                | zero =>
                    simp only [List.getD_cons_zero]
                    exact (mem_unique _ _).mpr
                      (hmemd.1 k (mem_dictKeys_of_mem d (k, w1) (lookupD_mem d k w1 hlk)))
                | succ ℓ' =>
                    simp only [List.getD_cons_succ]
                    have hw1 : w1 ∈ (scanKeyed lvl).2 :=
                      hmemd.2 w1 (mem_dictVals_of_mem d (k, w1) (lookupD_mem d k w1 hlk))
                    have hsz : szF (scanKeyed lvl).2 < fuel := by
                      have h2 := szF_scanKeyed_lt lvl (by rw [← hfilter] at hs1ne ⊢; exact hs1ne)
                      rw [← hfilter] at h2 ⊢
                      have h3 := szF_filter_le pyHasKeys lvl
                      omega
                    exact ih (scanKeyed lvl).2 r' hsz e3 w1 hw1 q' w hsub ℓ' (by simpa using hℓ)

theorem getPathsAux_noneFree : ∀ (fuel : Nat) (lvl : List PyVal),
    (∀ v ∈ lvl, noneFree v = true) →
    ∀ ℓ k, k ∈ (getPathsAux fuel lvl).getD ℓ [] → k ≠ PyVal.vnone := by
  intro fuel
  induction fuel with
  | zero => intro lvl _ ℓ k h; simp [getPathsAux] at h
  | succ fuel ih =>
      intro lvl hnf ℓ k hk
      by_cases hs1 : (scanKeyed (lvl.filter pyHasKeys)).1 = []
      · simp [getPathsAux, hs1] at hk
      · simp only [getPathsAux, hs1, if_neg, if_false] at hk
        have hnf' : ∀ v ∈ lvl.filter pyHasKeys, noneFree v = true :=
          fun v hv => hnf v (List.mem_of_mem_filter hv)
        cases ℓ with
        | zero =>
            simp only [List.getD_cons_zero] at hk
            obtain ⟨d, hd, hkd⟩ := (scanKeyed_sound _).1 k ((mem_unique _ _).mp hk)
            obtain ⟨kv, hkv, rfl⟩ := List.mem_map.mp hkd
            exact (noneFreeD_mem d (hnf' _ hd) kv hkv).1
        | succ ℓ' =>
            simp only [List.getD_cons_succ] at hk
            refine ih _ ?_ ℓ' k hk
            intro v hv
            obtain ⟨d, hd, hvd⟩ := (scanKeyed_sound _).2 v hv
            obtain ⟨kv, hkv, rfl⟩ := List.mem_map.mp hvd
            exact (noneFreeD_mem d (hnf' _ hd) kv hkv).2

theorem getPathsAux_nodup : ∀ (fuel : Nat) (lvl : List PyVal) (ℓ : Nat),
    ((getPathsAux fuel lvl).getD ℓ []).Nodup := by
  intro fuel
  induction fuel with
  | zero => intro lvl ℓ; simp [getPathsAux]
  | succ fuel ih =>
      intro lvl ℓ
      by_cases hs1 : (scanKeyed (lvl.filter pyHasKeys)).1 = []
      · simp [getPathsAux, hs1]
      · simp only [getPathsAux, hs1, if_neg, if_false]
        cases ℓ with
        | zero => simpa using nodup_unique _
        | succ ℓ' => simpa using ih _ ℓ'

theorem getPaths_complete (T : PyVal) (r : Nat) (huni : uniformB T r = true)
    (q : List PyVal) (w : PyVal) (hsub : subAt T q = some w) :
    ∀ ℓ, ℓ < q.length → q.getD ℓ PyVal.vnone ∈ (getPaths T).getD ℓ [] := by
  intro ℓ hℓ
  exact getPathsAux_complete (szV T + 1) [T] r (by simp [szF]) (by simpa using huni)
    T (by simp) q w hsub ℓ hℓ

theorem getPaths_noneFree (T : PyVal) (hnf : noneFree T = true) :
    ∀ ℓ k, k ∈ (getPaths T).getD ℓ [] → k ≠ PyVal.vnone :=
  fun ℓ k hk => getPathsAux_noneFree (szV T + 1) [T] (by simpa using hnf) ℓ k hk

theorem getPaths_nodup (T : PyVal) (ℓ : Nat) : ((getPaths T).getD ℓ []).Nodup :=
  getPathsAux_nodup (szV T + 1) [T] ℓ

theorem getPaths_keyless (w : PyVal) (h : pyHasKeys w = false) : getPaths w = [] := by
  rw [getPaths]
  simp [getPathsAux, List.filter, h, scanKeyed]

theorem getPaths_cons (d : List (PyVal × PyVal)) (hne : d ≠ []) :
    ∃ tail, getPaths (.vdict d) = unique (dictKeys d) :: tail := by
  rw [getPaths]
  have hf : [PyVal.vdict d].filter pyHasKeys = [PyVal.vdict d] := by
    simp [List.filter, pyHasKeys]
  have hs : scanKeyed [PyVal.vdict d] = (dictKeys d, dictVals d) := by
    simp [scanKeyed]
  have hs1 : dictKeys d ≠ [] := by
    simpa [dictKeys] using hne
  simp only [getPathsAux, hf, hs, hs1, if_neg, if_false]
  exact ⟨_, rfl⟩

theorem getLeafE_subAt_uniform : ∀ (q : List PyVal) (T : PyVal) (r : Nat),
    uniformB T r = true → q.length ≤ r →
    getLeafE T q = .ok ((subAt T q).getD PyVal.vnone) := by
  intro q
  induction q with
  | nil => intro T r _ _; simp [getLeafE, subAt]
  | cons k p ih =>
      intro T r hu hlen
      cases r with
      | zero => simp at hlen
      | succ r' =>
          obtain ⟨d, rfl, hdne⟩ := uniformB_isDict T r' hu
          simp only [uniformB, Bool.and_eq_true] at hu
          simp only [getLeafE, pySubscript, subAt]
          rcases hl : lookupD d k with _ | w
          · rfl
          · have hw : uniformB w r' = true :=
              uniformD_mem d r' hu.2 _ (lookupD_mem d k w hl)
            exact ih w r' hw (by simpa using hlen)

theorem exists_deep : ∀ (m : Nat) (w : PyVal), uniformB w m = true →
    ∃ s, s.length = m ∧ (subAt w s).isSome = true := by
  intro m
  induction m with
  | zero => intro w _; exact ⟨[], rfl, by simp [subAt]⟩
  | succ m ih =>
      intro w hu
      obtain ⟨d, rfl, hdne⟩ := uniformB_isDict w m hu
      simp only [uniformB, Bool.and_eq_true] at hu
      cases d with
      | nil => exact absurd rfl hdne
      | cons kv d' =>
          obtain ⟨k, v⟩ := kv
          have hv : uniformB v m = true := by
            have := hu.2
            simp only [uniformD, Bool.and_eq_true] at this
            exact this.1
          obtain ⟨s, hs1, hs2⟩ := ih v hv
          refine ⟨k :: s, by simp [hs1], ?_⟩
          simpa [subAt, lookupD] using hs2

theorem mem_dictKeys_dictSet (d : List (PyVal × PyVal)) (v : PyVal) (x key : PyVal) :
    key ∈ dictKeys (dictSet d x v) ↔ key ∈ dictKeys d ∨ key = x := by
  rw [dictKeys_dictSet]
  by_cases hm : x ∈ dictKeys d
  · rw [if_pos hm]
    constructor
    · exact Or.inl
    · rintro (h | rfl)
      · exact h
      · exact hm
  · rw [if_neg hm]
    simp [List.mem_append]


/-- Writing along a path whose existing strict prefixes are dictionaries
(missing ones are created) succeeds, stores the value at the path, leaves
incomparable paths untouched, and turns every strict prefix into a
dictionary whose key set gains exactly the next path component. -/
theorem setLeafAux_graft : ∀ (rest : List PyVal) (x : PyVal) (T v : PyVal),
    pathDictOk T (x :: rest) = true →
    ∃ T', setLeafAux T (x :: rest) v = .ok T' ∧
      subAt T' (x :: rest) = some v ∧
      (∀ p, ¬ ((x :: rest) <+: p) → ¬ (p <+: (x :: rest)) → subAt T' p = subAt T p) ∧
      (∀ p, p <+: (x :: rest) → p ≠ (x :: rest) → ∃ dd', subAt T' p = some (.vdict dd') ∧
        (∀ key, key ∈ dictKeys dd' ↔
          ((∃ dd, subAt T p = some (.vdict dd) ∧ key ∈ dictKeys dd) ∨
            key = (x :: rest).getD p.length PyVal.vnone)) ∧
        ((∀ dd, subAt T p = some (.vdict dd) → (dictKeys dd).Nodup) → (dictKeys dd').Nodup))
  | [], x, T, v, h => by
      cases T <;> simp [pathDictOk, isDictV] at h
      rename_i d
      refine ⟨.vdict (dictSet d x v), rfl, ?_, ?_, ?_⟩
      · simp [subAt, lookupD_dictSet_self]
      · intro p hnp hpn
        cases p with
        | nil => exact absurd (List.nil_prefix) hpn
        | cons k p' =>
            by_cases hk : k = x
            · subst hk
              exact absurd (by simp) hnp
            · simp only [subAt, lookupD_dictSet_ne d x k v hk]
      · intro p hp hpne
        have hpnil : p = [] := by
          rcases prefix_snoc_cases p [] x (by simpa using hp) with h' | h'
          · simpa using h'
          · exact absurd (by simpa using h') hpne
        subst hpnil
        refine ⟨dictSet d x v, by simp [subAt], ?_, ?_⟩
        · intro key
          rw [mem_dictKeys_dictSet]
          constructor
          · rintro (h' | h')
            · exact Or.inl ⟨d, by simp [subAt], h'⟩
            · exact Or.inr (by simpa using h')
          · rintro (⟨dd, hdd, hkk⟩ | h')
            · simp [subAt] at hdd
              subst hdd
              exact Or.inl hkk
            · exact Or.inr (by simpa using h')
        · intro hnd
          exact dictKeys_dictSet_nodup d x v (hnd d (by simp [subAt]))
  | y :: rest', x, T, v, h => by
      cases T <;> simp only [pathDictOk] at h <;> try cases h
      rename_i d
      rcases hl : lookupD d x with _ | w
      all_goals rw [hl] at h
      case none =>
          obtain ⟨w', hrun, htgt, hframe, hpref⟩ :=
            setLeafAux_graft rest' y (.vdict []) v (pathDictOk_fresh y rest')
          refine ⟨.vdict (dictSet d x w'), ?_, ?_, ?_, ?_⟩
          · simp [setLeafAux, hl, hrun, Bind.bind, Except.bind]
          · simp only [subAt, lookupD_dictSet_self]
            exact htgt
          · intro p hnp hpn
            cases p with
            | nil => exact absurd (List.nil_prefix) hpn
            | cons k p' =>
                by_cases hk : k = x
                · subst hk
                  rw [List.cons_prefix_cons] at hnp hpn
                  have hnp' : ¬ ((y :: rest') <+: p') := fun hc => hnp ⟨rfl, hc⟩
                  have hpn' : ¬ (p' <+: (y :: rest')) := fun hc => hpn ⟨rfl, hc⟩
                  have hp'ne : p' ≠ [] := by
                    intro hc
                    subst hc
                    exact hpn' (List.nil_prefix)
                  have hfr := hframe p' hnp' hpn'
                  simp only [subAt, lookupD_dictSet_self, hl]
                  rw [hfr]
                  cases p' with
                  | nil => exact absurd rfl hp'ne
                  | cons z p'' => simp [subAt, lookupD]
                · simp only [subAt, lookupD_dictSet_ne d x k w' hk]
          · intro p hp hpne
            cases p with
            | nil =>
                refine ⟨dictSet d x w', by simp [subAt], ?_, ?_⟩
                · intro key
                  rw [mem_dictKeys_dictSet]
                  constructor
                  · rintro (h' | h')
                    · exact Or.inl ⟨d, by simp [subAt], h'⟩
                    · exact Or.inr (by simpa using h')
                  · rintro (⟨dd, hdd, hkk⟩ | h')
                    · simp [subAt] at hdd
                      subst hdd
                      exact Or.inl hkk
                    · exact Or.inr (by simpa using h')
                · intro hnd
                  exact dictKeys_dictSet_nodup d x w' (hnd d (by simp [subAt]))
            | cons k p' =>
                rw [List.cons_prefix_cons] at hp
                obtain ⟨rfl, hp'⟩ := hp
                have hp'ne : p' ≠ y :: rest' := by
                  intro hc
                  exact hpne (by rw [hc])
                obtain ⟨dd', hdd', hkeys, hnd⟩ := hpref p' hp' hp'ne
                refine ⟨dd', ?_, ?_, ?_⟩
                · simp only [subAt, lookupD_dictSet_self]
                  exact hdd'
                · intro key
                  rw [hkeys key]
                  have hnone : subAt (PyVal.vdict d) (k :: p') = Option.none := by
                    cases p' <;> simp [subAt, hl]
                  constructor
                  · rintro (⟨dd, hdd, hkk⟩ | h')
                    · cases p' with
                      | nil =>
                          simp [subAt] at hdd
                          subst hdd
                          simp [dictKeys] at hkk
                      | cons z p'' => simp [subAt, lookupD] at hdd
                    · exact Or.inr (by simpa using h')
                  · rintro (⟨dd, hdd, hkk⟩ | h')
                    · rw [hnone] at hdd
                      cases hdd
                    · exact Or.inr (by simpa using h')
                · intro _
                  refine hnd ?_
                  intro dd hdd
                  cases p' with
                  | nil =>
                      simp [subAt] at hdd
                      subst hdd
                      simp [dictKeys]
                  | cons z p'' => simp [subAt, lookupD] at hdd
      case some =>
          obtain ⟨w', hrun, htgt, hframe, hpref⟩ := setLeafAux_graft rest' y w v h
          refine ⟨.vdict (dictSet d x w'), ?_, ?_, ?_, ?_⟩
          · simp [setLeafAux, hl, hrun, Bind.bind, Except.bind]
          · simp only [subAt, lookupD_dictSet_self]
            exact htgt
          · intro p hnp hpn
            cases p with
            | nil => exact absurd (List.nil_prefix) hpn
            | cons k p' =>
                by_cases hk : k = x
                · subst hk
                  rw [List.cons_prefix_cons] at hnp hpn
                  have hnp' : ¬ ((y :: rest') <+: p') := fun hc => hnp ⟨rfl, hc⟩
                  have hpn' : ¬ (p' <+: (y :: rest')) := fun hc => hpn ⟨rfl, hc⟩
                  have hfr := hframe p' hnp' hpn'
                  simp only [subAt, lookupD_dictSet_self, hl]
                  exact hfr
                · simp only [subAt, lookupD_dictSet_ne d x k w' hk]
          · intro p hp hpne
            cases p with
            | nil =>
                refine ⟨dictSet d x w', by simp [subAt], ?_, ?_⟩
                · intro key
                  rw [mem_dictKeys_dictSet]
                  constructor
                  · rintro (h' | h')
                    · exact Or.inl ⟨d, by simp [subAt], h'⟩
                    · exact Or.inr (by simpa using h')
                  · rintro (⟨dd, hdd, hkk⟩ | h')
                    · simp [subAt] at hdd
                      subst hdd
                      exact Or.inl hkk
                    · exact Or.inr (by simpa using h')
                · intro hnd
                  exact dictKeys_dictSet_nodup d x w' (hnd d (by simp [subAt]))
            | cons k p' =>
                rw [List.cons_prefix_cons] at hp
                obtain ⟨rfl, hp'⟩ := hp
                have hp'ne : p' ≠ y :: rest' := by
                  intro hc
                  exact hpne (by rw [hc])
                obtain ⟨dd', hdd', hkeys, hnd⟩ := hpref p' hp' hp'ne
                refine ⟨dd', ?_, ?_, ?_⟩
                · simp only [subAt, lookupD_dictSet_self]
                  exact hdd'
                · intro key
                  rw [hkeys key]
                  have hsub : subAt (PyVal.vdict d) (k :: p') = subAt w p' := by
                    simp [subAt, hl]
                  rw [hsub]
                  simp
                · intro hnd2
                  refine hnd ?_
                  intro dd hdd
                  refine hnd2 dd ?_
                  simp [subAt, hl, hdd]

theorem dictSet_ne_nil (d : List (PyVal × PyVal)) (x v : PyVal) :
    dictSet d x v ≠ [] := by
  cases d with
  | nil => simp [dictSet]
  | cons kw rest =>
      obtain ⟨k, w⟩ := kw
      by_cases he : k = x <;> simp [dictSet, he]

theorem setLeafAux_uniform : ∀ (rest : List PyVal) (x : PyVal) (T T' v : PyVal) (m : Nat),
    setLeafAux T (x :: rest) v = .ok T' →
    (x :: rest).length ≤ m → uniformB v (m - (x :: rest).length) = true →
    (uniformB T m = true ∨ T = .vdict []) →
    uniformB T' m = true
  | [], x, T, T', v, m, hrun, hlen, hv, hT => by
      cases m with
      | zero => simp at hlen
      | succ m' =>
          obtain ⟨d, rfl⟩ : ∃ d, T = .vdict d := by
            rcases hT with hT | rfl
            · obtain ⟨d, rfl, _⟩ := uniformB_isDict T m' hT
              exact ⟨d, rfl⟩
            · exact ⟨[], rfl⟩
          simp only [setLeafAux] at hrun
          injection hrun with hrun
          subst hrun
          have hd : uniformD d m' = true := by
            rcases hT with hT | hT
            · simp only [uniformB, Bool.and_eq_true] at hT
              exact hT.2
            · injection hT with hT
              subst hT
              rfl
          simp only [uniformB, Bool.and_eq_true, decide_eq_true_eq]
          refine ⟨dictSet_ne_nil d x v, ?_⟩
          exact uniformD_dictSet d x v m' hd (by simpa using hv)
  | y :: rest', x, T, T', v, m, hrun, hlen, hv, hT => by
      cases m with
      | zero => simp at hlen
      | succ m' =>
          obtain ⟨d, rfl⟩ : ∃ d, T = .vdict d := by
            rcases hT with hT | rfl
            · obtain ⟨d, rfl, _⟩ := uniformB_isDict T m' hT
              exact ⟨d, rfl⟩
            · exact ⟨[], rfl⟩
          have hd : uniformD d m' = true := by
            rcases hT with hT | hT
            · simp only [uniformB, Bool.and_eq_true] at hT
              exact hT.2
            · injection hT with hT
              subst hT
              rfl
          have harith : uniformB v (m' - (y :: rest').length) = true := by
            have he : m' - (y :: rest').length = m' + 1 - (x :: y :: rest').length := by
              simp
            rw [he]
            exact hv
          have hlen' : (y :: rest').length ≤ m' := by
            simp at hlen ⊢
            omega
          rcases hl : lookupD d x with _ | w
          · rcases hres : setLeafAux (.vdict []) (y :: rest') v with e | w'
            · simp [setLeafAux, hl, hres, Bind.bind, Except.bind] at hrun
            · simp only [setLeafAux, hl, hres, Bind.bind, Except.bind,
                Except.ok.injEq] at hrun
              subst hrun
              have hw' := setLeafAux_uniform rest' y (.vdict []) w' v m' hres hlen' harith
                (Or.inr rfl)
              simp only [uniformB, Bool.and_eq_true, decide_eq_true_eq]
              exact ⟨dictSet_ne_nil d x w', uniformD_dictSet d x w' m' hd hw'⟩
          · rcases hres : setLeafAux w (y :: rest') v with e | w'
            · simp [setLeafAux, hl, hres, Bind.bind, Except.bind] at hrun
            · simp only [setLeafAux, hl, hres, Bind.bind, Except.bind,
                Except.ok.injEq] at hrun
              subst hrun
              have hwu : uniformB w m' = true :=
                uniformD_mem d m' hd _ (lookupD_mem d x w hl)
              have hw' := setLeafAux_uniform rest' y w w' v m' hres hlen' harith (Or.inl hwu)
              simp only [uniformB, Bool.and_eq_true, decide_eq_true_eq]
              exact ⟨dictSet_ne_nil d x w', uniformD_dictSet d x w' m' hd hw'⟩

theorem setLeafAux_noneFree : ∀ (rest : List PyVal) (x : PyVal) (T T' v : PyVal),
    setLeafAux T (x :: rest) v = .ok T' →
    noneFree T = true → noneFree v = true → (∀ k ∈ x :: rest, k ≠ PyVal.vnone) →
    noneFree T' = true
  | [], x, T, T', v, hrun, hT, hv, hks => by
      cases T <;> simp only [setLeafAux] at hrun
      case vdict d =>
          injection hrun with hrun
          subst hrun
          exact noneFreeD_dictSet d x v hT (hks x (by simp)) hv
      case vlist xs =>
          cases x <;> dsimp only at hrun <;> try cases hrun
          rename_i i
          split at hrun <;> split at hrun <;>
            first
              | (injection hrun with hrun; subst hrun; rfl)
              | cases hrun
      all_goals cases hrun
  | y :: rest', x, T, T', v, hrun, hT, hv, hks => by
      have hks' : ∀ k ∈ y :: rest', k ≠ PyVal.vnone := fun k hk => hks k (by simp [hk])
      cases T <;> simp only [setLeafAux] at hrun
      case vdict d =>
          rcases hl : lookupD d x with _ | w
          · rcases hres : setLeafAux (.vdict []) (y :: rest') v with e | w'
            · simp [hl, hres, Bind.bind, Except.bind] at hrun
            · simp only [hl, hres, Bind.bind, Except.bind, Except.ok.injEq] at hrun
              subst hrun
              exact noneFreeD_dictSet d x w' hT (hks x (by simp))
                (setLeafAux_noneFree rest' y (.vdict []) w' v hres rfl hv hks')
          · rcases hres : setLeafAux w (y :: rest') v with e | w'
            · simp [hl, hres, Bind.bind, Except.bind] at hrun
            · simp only [hl, hres, Bind.bind, Except.bind, Except.ok.injEq] at hrun
              subst hrun
              have hw : noneFree w = true :=
                (noneFreeD_mem d hT _ (lookupD_mem d x w hl)).2
              exact noneFreeD_dictSet d x w' hT (hks x (by simp))
                (setLeafAux_noneFree rest' y w w' v hres hw hv hks')
      case vlist xs =>
          cases x <;> dsimp only at hrun <;> try cases hrun
          rename_i i
          simp only [Bind.bind, Except.bind] at hrun
          repeat' split at hrun
          all_goals try cases hrun
          all_goals try (injection hrun with hrun; subst hrun)
          all_goals rfl
      case vstr s =>
          rcases hps : pySubscript (.vstr s) x with e | w
          · simp [hps, Bind.bind, Except.bind] at hrun
          · rcases hres : setLeafAux w (y :: rest') v with e | w'
            all_goals simp [hps, hres, Bind.bind, Except.bind] at hrun
      all_goals cases hrun

theorem pathDictOk_of_prefix_dicts : ∀ (rest : List PyVal) (x : PyVal) (T : PyVal),
    (∀ p, p <+: (x :: rest) → p ≠ (x :: rest) →
      (subAt T p = Option.none ∨ ∃ dd, subAt T p = some (.vdict dd))) →
    pathDictOk T (x :: rest) = true
  | [], x, T, h => by
      rcases h [] (List.nil_prefix) (by simp) with h' | ⟨dd, h'⟩
      · simp [subAt] at h'
      · simp [subAt] at h'
        subst h'
        rfl
  | y :: rest', x, T, h => by
      obtain ⟨d, rfl⟩ : ∃ dd, T = .vdict dd := by
        rcases h [] (List.nil_prefix) (by simp) with h' | ⟨dd, h'⟩
        · simp [subAt] at h'
        · simp [subAt] at h'
          exact ⟨dd, h'⟩
      simp only [pathDictOk]
      rcases hl : lookupD d x with _ | w
      · rfl
      · refine pathDictOk_of_prefix_dicts rest' y w ?_
        intro p hp hpne
        have h2 := h (x :: p) (by rw [List.cons_prefix_cons]; exact ⟨rfl, hp⟩)
          (by intro hc; injection hc with h1 h2; exact hpne h2)
        rcases h2 with h2 | ⟨dd, h2⟩
        · simp only [subAt, hl] at h2
          exact Or.inl h2
        · simp only [subAt, hl] at h2
          exact Or.inr ⟨dd, h2⟩

theorem exceptFoldlM_append {α : Type} (a b : List α)
    (f : PyVal → α → Except PyErr PyVal) (init : PyVal) :
    (a ++ b).foldlM f init = a.foldlM f init >>= fun r => b.foldlM f r := by
  induction a generalizing init with
  | nil => simp [List.foldlM]
  | cons x xs ih =>
      simp only [List.cons_append, List.foldlM_cons]
      cases hfx : f init x with
      | error e => simp [Bind.bind, Except.bind]
      | ok r => simp [Bind.bind, Except.bind, ih]

theorem exceptFoldlM_bind {α β : Type} (l : List α) (f : α → List β)
    (g : PyVal → β → Except PyErr PyVal) (init : PyVal) :
    (l.bind f).foldlM g init = l.foldlM (fun acc a => (f a).foldlM g acc) init := by
  induction l generalizing init with
  | nil => simp [List.foldlM]
  | cons x xs ih =>
      simp only [List.cons_bind, List.foldlM_cons, exceptFoldlM_append]
      cases hfx : (f x).foldlM g init with
      | error e => simp [Bind.bind, Except.bind]
      | ok r => simp [Bind.bind, Except.bind, ih]

theorem exceptFoldlM_map {α β : Type} (l : List α) (h : α → β)
    (g : PyVal → β → Except PyErr PyVal) (init : PyVal) :
    (l.map h).foldlM g init = l.foldlM (fun acc a => g acc (h a)) init := by
  induction l generalizing init with
  | nil => simp [List.foldlM]
  | cons x xs ih =>
      simp only [List.map_cons, List.foldlM_cons]
      cases hgx : g init (h x) with
      | error e => simp [Bind.bind, Except.bind]
      | ok r => simp [Bind.bind, Except.bind, ih]

theorem subAt_emptyD (p : List PyVal) (hp : p ≠ []) :
    subAt (.vdict []) p = Option.none := by
  cases p with
  | nil => exact absurd rfl hp
  | cons k p' => simp [subAt, lookupD]

theorem valid_prefix (T : PyVal) (a b : List PyVal)
    (h : (subAt T (a ++ b)).isSome = true) : (subAt T a).isSome = true := by
  rw [subAt_append] at h
  cases hsa : subAt T a with
  | none => rw [hsa] at h; simp at h
  | some w => simp

theorem vnone_not_mem_pfilterNone (l : List PyVal) : PyVal.vnone ∉ pfilterNone l := by
  intro h
  rw [pfilterNone, List.mem_filter] at h
  simpa using h.2

theorem ext_incomp (w1 w2 : List PyVal) (s : List PyVal)
    (hne : w1 ≠ w2) (hlen : w1.length = w2.length) :
    ¬ (w2 <+: w1 ++ s) ∧ ¬ (w1 ++ s <+: w2) := by
  constructor
  · intro hc
    rw [List.prefix_iff_eq_take] at hc
    rw [hc, ← hlen, List.take_left] at hne
    exact hne rfl
  · intro hc
    have hl := hc.length_le
    simp only [List.length_append] at hl
    have hs : s = [] := by
      rw [← List.length_eq_zero]
      omega
    subst hs
    rw [List.append_nil] at hc
    exact hne (hc.eq_of_length (by omega))

/-- The source path read by one `(p1, p2, prefix, infix)` combination of
`swop`. -/
def qoldOf : PyVal × PyVal × List PyVal × List PyVal → List PyVal
  | (p1, p2, pfx, ifx) => pfilterNone (pfx ++ [p1] ++ ifx ++ [p2])

/-- The target path written by one combination of `swop`. -/
def qnewOf : PyVal × PyVal × List PyVal × List PyVal → List PyVal
  | (p1, p2, pfx, ifx) => pfilterNone (pfx ++ [p2] ++ ifx ++ [p1])

/-- Well-formedness of a combination enumerated by `swop(…, i, j)`: the
level keys are not `None` and the (filtered) prefix and infix segments
have the lengths of the level ranges they enumerate. -/
def comboOK (i j : Nat) : PyVal × PyVal × List PyVal × List PyVal → Prop
  | (p1, p2, pfx, ifx) => p1 ≠ PyVal.vnone ∧ p2 ≠ PyVal.vnone ∧
      (pfilterNone pfx).length = i ∧ (pfilterNone ifx).length = j - i - 1

theorem qoldOf_decomp (i j : Nat) (c : PyVal × PyVal × List PyVal × List PyVal)
    (h : comboOK i j c) :
    qoldOf c = pfilterNone c.2.2.1 ++ c.1 :: (pfilterNone c.2.2.2 ++ [c.2.1]) ∧
    qnewOf c = pfilterNone c.2.2.1 ++ c.2.1 :: (pfilterNone c.2.2.2 ++ [c.1]) := by
  obtain ⟨p1, p2, pfx, ifx⟩ := c
  obtain ⟨h1, h2, _, _⟩ := h
  constructor
  · show pfilterNone (pfx ++ [p1] ++ ifx ++ [p2]) = _
    rw [pfilterNone_append, pfilterNone_append, pfilterNone_append]
    rw [pfilterNone_noneless [p1] (by simpa using fun he => h1 he.symm),
        pfilterNone_noneless [p2] (by simpa using fun he => h2 he.symm)]
    simp
  · show pfilterNone (pfx ++ [p2] ++ ifx ++ [p1]) = _
    rw [pfilterNone_append, pfilterNone_append, pfilterNone_append]
    rw [pfilterNone_noneless [p1] (by simpa using fun he => h1 he.symm),
        pfilterNone_noneless [p2] (by simpa using fun he => h2 he.symm)]
    simp

theorem comboOK_lengths (i j : Nat) (c : PyVal × PyVal × List PyVal × List PyVal)
    (h : comboOK i j c) (hij : i < j) :
    (qoldOf c).length = j + 1 ∧ (qnewOf c).length = j + 1 := by
  obtain ⟨hold, hnew⟩ := qoldOf_decomp i j c h
  obtain ⟨p1, p2, pfx, ifx⟩ := c
  obtain ⟨_, _, h3, h4⟩ := h
  constructor
  · rw [hold]
    simp only [List.length_append, List.length_cons, List.length_singleton]
    simp at h3 h4 ⊢
    omega
  · rw [hnew]
    simp only [List.length_append, List.length_cons, List.length_singleton]
    simp at h3 h4 ⊢
    omega

theorem pfilter_snoc (pfx : List PyVal) (p1 : PyVal) (ifx : List PyVal) (p2 k : PyVal)
    (hk : k ≠ PyVal.vnone) :
    pfilterNone (pfx ++ [p1] ++ ifx ++ [p2] ++ [k]) =
    pfilterNone (pfx ++ [p1] ++ ifx ++ [p2]) ++ [k] := by
  rw [pfilterNone_append (pfx ++ [p1] ++ ifx ++ [p2]) [k],
      pfilterNone_noneless [k] (by simpa using fun he => hk he.symm)]

theorem sibling_incomp (q : List PyVal) (a b : PyVal) (s : List PyVal) (hne : a ≠ b) :
    ¬ (q ++ [a] <+: q ++ b :: s) ∧ ¬ (q ++ b :: s <+: q ++ [a]) := by
  constructor
  · intro hc
    rw [List.prefix_append_right_inj, List.cons_prefix_cons] at hc
    exact hne hc.1
  · intro hc
    rw [List.prefix_append_right_inj, List.cons_prefix_cons] at hc
    exact hne hc.1.symm

theorem setLeafM_graft (q : List PyVal) (T v : PyVal) (hq : q ≠ [])
    (hpre : ∀ p, p <+: q → p ≠ q →
      subAt T p = Option.none ∨ ∃ dd, subAt T p = some (.vdict dd)) :
    ∃ T', setLeafM T q v = .ok T' ∧ subAt T' q = some v ∧
      (∀ p, ¬ (q <+: p) → ¬ (p <+: q) → subAt T' p = subAt T p) ∧
      (∀ p, p <+: q → p ≠ q → ∃ dd', subAt T' p = some (.vdict dd')) := by
  cases q with
  | nil => exact absurd rfl hq
  | cons x rest =>
      have hok : pathDictOk T (x :: rest) = true := pathDictOk_of_prefix_dicts rest x T hpre
      obtain ⟨T', hrun, htgt, hframe, hpref⟩ := setLeafAux_graft rest x T v hok
      refine ⟨T', hrun, htgt, hframe, ?_⟩
      intro p hp hpne
      obtain ⟨dd', hdd', _, _⟩ := hpref p hp hpne
      exact ⟨dd', hdd'⟩

theorem setLeafM_uniform (q : List PyVal) (T T' v : PyVal) (n : Nat)
    (hrun : setLeafM T q v = .ok T') (hq : q ≠ []) (hlen : q.length ≤ n)
    (hv : uniformB v (n - q.length) = true)
    (hT : uniformB T n = true ∨ T = .vdict []) : uniformB T' n = true := by
  cases q with
  | nil => exact absurd rfl hq
  | cons x rest => exact setLeafAux_uniform rest x T T' v n hrun hlen hv hT

theorem setLeafM_noneFree (q : List PyVal) (T T' v : PyVal)
    (hrun : setLeafM T q v = .ok T') (hq : q ≠ []) (hT : noneFree T = true)
    (hv : noneFree v = true) (hks : ∀ k ∈ q, k ≠ PyVal.vnone) : noneFree T' = true := by
  cases q with
  | nil => exact absurd rfl hq
  | cons x rest => exact setLeafAux_noneFree rest x T T' v hrun hT hv hks

/-- Effect of the innermost suffix loop of `swop` (dictionary branch):
copy the sub-trees `work[qold ++ [k]]` to `qnew ++ [k]` for every key
`k` of the branch. -/
theorem swopKeys_spec : ∀ (ks : List PyVal) (acc : PyVal) (work : PyVal) (n : Nat)
    (qold qnew : List PyVal) (dw : List (PyVal × PyVal)) (p1 p2 : PyVal)
    (pfx ifx : List PyVal),
    uniformB work n = true → noneFree work = true →
    pfilterNone (pfx ++ [p1] ++ ifx ++ [p2]) = qold →
    pfilterNone (pfx ++ [p2] ++ ifx ++ [p1]) = qnew →
    subAt work qold = some (.vdict dw) →
    qold.length + 1 ≤ n → qnew.length = qold.length → qnew ≠ [] →
    (∀ k' ∈ qnew, k' ≠ PyVal.vnone) →
    ks.Nodup → (∀ k ∈ ks, k ∈ dictKeys dw) →
    (∀ p, p <+: qnew → subAt acc p = Option.none ∨ ∃ dd, subAt acc p = some (.vdict dd)) →
    (∀ k ∈ ks, ∀ s, subAt acc (qnew ++ k :: s) = Option.none) →
    (uniformB acc n = true ∨ acc = .vdict []) →
    noneFree acc = true →
    ∃ acc', ks.foldlM (fun nt k =>
        (do
          let data ← getLeafE work (pfilterNone (pfx ++ [p1] ++ ifx ++ [p2] ++ [k]))
          if data = PyVal.vnone then pure nt
          else setLeafM nt (pfilterNone (pfx ++ [p2] ++ ifx ++ [p1] ++ [k])) data)) acc
        = .ok acc' ∧
      (∀ k ∈ ks, ∀ s, subAt acc' (qnew ++ k :: s) = subAt work (qold ++ k :: s)) ∧
      (∀ k, k ∉ ks → ∀ s, subAt acc' (qnew ++ k :: s) = subAt acc (qnew ++ k :: s)) ∧
      (∀ p, ¬ (qnew <+: p) → ¬ (p <+: qnew) → subAt acc' p = subAt acc p) ∧
      (∀ p, p <+: qnew → subAt acc' p = subAt acc p ∨ ∃ dd', subAt acc' p = some (.vdict dd')) ∧
      (uniformB acc' n = true ∨ acc' = .vdict []) ∧
      noneFree acc' = true := by
  intro ks
  induction ks with
  | nil =>
      intro acc work n qold qnew dw p1 p2 pfx ifx _ _ _ _ _ _ _ _ _ _ _ _ _ hu hnf
      exact ⟨acc, rfl, by simp, fun k _ s => rfl, fun p _ _ => rfl,
        fun p _ => Or.inl rfl, hu, hnf⟩
  | cons k ks' ih =>
      intro acc work n qold qnew dw p1 p2 pfx ifx hwu hwnf hqold hqnew hdw hlen hql
        hqne hqkeys hnodup hksmem htrie huntouched huacc hnfacc
      have hknF : noneFree (.vdict dw) = true := noneFree_subAt qold work (.vdict dw) hwnf hdw
      have hkmem : k ∈ dictKeys dw := hksmem k (by simp)
      have hkne : k ≠ PyVal.vnone := by
        obtain ⟨kv, hkv, rfl⟩ := List.mem_map.mp hkmem
        exact (noneFreeD_mem dw hknF kv hkv).1
      -- the data read for this key
      obtain ⟨val, hval⟩ := lookupD_isSome_of_mem_keys dw k hkmem
      have hsubk : subAt work (qold ++ [k]) = some val := by
        rw [subAt_append, hdw]
        show subAt (.vdict dw) [k] = some val
        simp [subAt, hval]
      have hvalnf : noneFree val = true := noneFree_subAt (qold ++ [k]) work val hwnf hsubk
      have hvalne : val ≠ PyVal.vnone := by
        intro he
        rw [he] at hvalnf
        cases hvalnf
      have hread : getLeafE work (qold ++ [k]) = .ok val := by
        rw [getLeafE_subAt_uniform (qold ++ [k]) work n hwu (by simp; omega), hsubk]
        rfl
      -- run the write for this key
      have hpathrw : pfilterNone (pfx ++ [p1] ++ ifx ++ [p2] ++ [k]) = qold ++ [k] := by
        rw [pfilter_snoc pfx p1 ifx p2 k hkne, hqold]
      have hpathrw2 : pfilterNone (pfx ++ [p2] ++ ifx ++ [p1] ++ [k]) = qnew ++ [k] := by
        rw [pfilter_snoc pfx p2 ifx p1 k hkne, hqnew]
      obtain ⟨acc1, hrun1, htgt1, hframe1, hpref1⟩ :=
        setLeafM_graft (qnew ++ [k]) acc val (by simp)
          (by
            intro p hp hpne
            rcases prefix_snoc_cases p qnew k hp with hp' | hp'
            · exact htrie p hp'
            · exact absurd hp' hpne)
      have hstep : (do
          let data ← getLeafE work (pfilterNone (pfx ++ [p1] ++ ifx ++ [p2] ++ [k]))
          if data = PyVal.vnone then pure acc
          else setLeafM acc (pfilterNone (pfx ++ [p2] ++ ifx ++ [p1] ++ [k])) data)
          = .ok acc1 := by
        rw [hpathrw, hpathrw2, hread]
        simp only [Bind.bind, Except.bind, if_neg hvalne]
        exact hrun1
      -- invariants for the remaining keys
      have hlen2 : (qnew ++ [k]).length ≤ n := by
        simp
        omega
      have hvalu : uniformB val (n - (qnew ++ [k]).length) = true := by
        have := uniformB_subAt (qold ++ [k]) work val n hwu hsubk
        have he : n - (qnew ++ [k]).length = n - (qold ++ [k]).length := by
          simp [hql]
        rw [he]
        exact this.2
      have hu1 : uniformB acc1 n = true ∨ acc1 = .vdict [] :=
        Or.inl (setLeafM_uniform (qnew ++ [k]) acc acc1 val n hrun1 (by simp) hlen2 hvalu huacc)
      have hnf1 : noneFree acc1 = true :=
        setLeafM_noneFree (qnew ++ [k]) acc acc1 val hrun1 (by simp) hnfacc hvalnf
          (by
            intro k' hk'
            rcases List.mem_append.mp hk' with h' | h'
            · exact hqkeys k' h'
            · simp at h'
              subst h'
              exact hkne)
      have htrie1 : ∀ p, p <+: qnew →
          subAt acc1 p = Option.none ∨ ∃ dd, subAt acc1 p = some (.vdict dd) := by
        intro p hp
        obtain ⟨dd', hdd'⟩ := hpref1 p (hp.trans (by simp)) (by
          intro hc
          have := congrArg List.length hc
          have hpl := hp.length_le
          simp at this
          omega)
        exact Or.inr ⟨dd', hdd'⟩
      have huntouched1 : ∀ k' ∈ ks', ∀ s, subAt acc1 (qnew ++ k' :: s) = Option.none := by
        intro k' hk' s
        have hkne' : k ≠ k' := by
          intro he
          subst he
          exact (List.nodup_cons.mp hnodup).1 hk'
        have hinc := sibling_incomp qnew k k' s hkne'
        rw [hframe1 (qnew ++ k' :: s) hinc.1 hinc.2]
        exact huntouched k' (by simp [hk']) s
      obtain ⟨acc', hrun', r1, r2, r3, r4, r5, r6⟩ := ih acc1 work n qold qnew dw p1 p2 pfx ifx
        hwu hwnf hqold hqnew hdw hlen hql hqne hqkeys (List.nodup_cons.mp hnodup).2
        (fun k' hk' => hksmem k' (by simp [hk'])) htrie1 huntouched1 hu1 hnf1
      refine ⟨acc', ?_, ?_, ?_, ?_, ?_, r5, r6⟩
      · rw [List.foldlM_cons, hstep]
        simpa [Bind.bind, Except.bind] using hrun'
      · intro k' hk' s
        rcases List.mem_cons.mp hk' with he | ht
        · subst he
          have hknotin : k' ∉ ks' := (List.nodup_cons.mp hnodup).1
          rw [r2 k' hknotin s]
          have h1 : subAt acc1 (qnew ++ k' :: s) = subAt val s := by
            have : qnew ++ k' :: s = (qnew ++ [k']) ++ s := by simp
            rw [this, subAt_append, htgt1]
            rfl
          have h2 : subAt work (qold ++ k' :: s) = subAt val s := by
            have : qold ++ k' :: s = (qold ++ [k']) ++ s := by simp
            rw [this, subAt_append, hsubk]
            rfl
          rw [h1, h2]
        · exact r1 k' ht s
      · intro k' hk' s
        have hknein : k' ∉ ks' := fun hc => hk' (by simp [hc])
        have hkne2 : k ≠ k' := fun he => hk' (by simp [he])
        rw [r2 k' hknein s]
        have hinc := sibling_incomp qnew k k' s hkne2
        exact hframe1 (qnew ++ k' :: s) hinc.1 hinc.2
      · intro p hnp hpn
        rw [r3 p hnp hpn]
        refine hframe1 p ?_ ?_
        · intro hc
          exact hnp (List.IsPrefix.trans (by simp) hc)
        · intro hc
          rcases prefix_snoc_cases p qnew k hc with hc' | hc'
          · exact hpn hc'
          · exact hnp (by rw [hc']; simp)
      · intro p hp
        rcases r4 p hp with h' | h'
        · obtain ⟨dd', hdd'⟩ := hpref1 p (hp.trans (by simp)) (by
            intro hc
            have hc2 := congrArg List.length hc
            have hpl := hp.length_le
            simp at hc2
            omega)
          rw [h', hdd']
          exact Or.inr ⟨dd', rfl⟩
        · exact Or.inr h'

theorem lookupD_none_of_not_mem_keys (d : List (PyVal × PyVal)) (k : PyVal)
    (h : k ∉ dictKeys d) : lookupD d k = Option.none := by
  cases hl : lookupD d k with
  | none => rfl
  | some v => exact absurd (mem_dictKeys_of_mem d (k, v) (lookupD_mem d k v hl)) h

/-- Effect of one `(p1, p2, prefix, infix)` combination of `swop` on the
accumulator tree: combinations absent from the source tree change
nothing, present ones copy the source sub-trees below the combination to
the swapped location. -/
theorem swopQuad_spec (work : PyVal) (n i j : Nat) (p1 p2 : PyVal) (pfx ifx : List PyVal)
    (acc : PyVal)
    (hwu : uniformB work n = true) (hwnf : noneFree work = true)
    (hOK : comboOK i j (p1, p2, pfx, ifx)) (hij : i < j) (hjn : j < n)
    (htrie : ∀ p, p <+: qnewOf (p1, p2, pfx, ifx) →
      subAt acc p = Option.none ∨ ∃ dd, subAt acc p = some (.vdict dd))
    (huntouched : ∀ s, subAt acc (qnewOf (p1, p2, pfx, ifx) ++ s) = Option.none)
    (huacc : uniformB acc n = true ∨ acc = .vdict [])
    (hnfacc : noneFree acc = true) :
    ∃ acc', swopQuad work p1 p2 pfx ifx acc = .ok acc' ∧
      (∀ s, (j + 1 < n → s ≠ []) →
        subAt acc' (qnewOf (p1, p2, pfx, ifx) ++ s) =
          subAt work (qoldOf (p1, p2, pfx, ifx) ++ s)) ∧
      (∀ p, ¬ (qnewOf (p1, p2, pfx, ifx) <+: p) → ¬ (p <+: qnewOf (p1, p2, pfx, ifx)) →
        subAt acc' p = subAt acc p) ∧
      (∀ p, p <+: qnewOf (p1, p2, pfx, ifx) → p ≠ qnewOf (p1, p2, pfx, ifx) →
        subAt acc' p = subAt acc p ∨ ∃ dd', subAt acc' p = some (.vdict dd')) ∧
      (uniformB acc' n = true ∨ acc' = .vdict []) ∧
      noneFree acc' = true := by
  obtain ⟨hlold, hlnew⟩ := comboOK_lengths i j (p1, p2, pfx, ifx) hOK hij
  have hqoldF : qoldOf (p1, p2, pfx, ifx) = pfilterNone (pfx ++ [p1] ++ ifx ++ [p2]) := rfl
  have hqnewF : qnewOf (p1, p2, pfx, ifx) = pfilterNone (pfx ++ [p2] ++ ifx ++ [p1]) := rfl
  have hqnewne : qnewOf (p1, p2, pfx, ifx) ≠ [] := by
    intro hc
    rw [hc] at hlnew
    simp at hlnew
  have hqnkeys : ∀ k' ∈ qnewOf (p1, p2, pfx, ifx), k' ≠ PyVal.vnone := by
    intro k' hk' he
    subst he
    rw [hqnewF] at hk'
    exact vnone_not_mem_pfilterNone _ hk'
  have hlenle : (qoldOf (p1, p2, pfx, ifx)).length ≤ n := by omega
  have hread : getLeafE work (pfilterNone (pfx ++ [p1] ++ ifx ++ [p2])) =
      .ok ((subAt work (qoldOf (p1, p2, pfx, ifx))).getD PyVal.vnone) := by
    rw [← hqoldF]
    exact getLeafE_subAt_uniform _ work n hwu hlenle
  cases hsub : subAt work (qoldOf (p1, p2, pfx, ifx)) with
  | none =>
      refine ⟨acc, ?_, ?_, fun p _ _ => rfl, fun p _ _ => Or.inl rfl, huacc, hnfacc⟩
      · rw [swopQuad, hread, hsub]
        simp only [Option.getD_none, Bind.bind, Except.bind]
        rw [getPaths_keyless PyVal.vnone rfl]
        simp only [ne_eq, not_true_eq_false, if_false, reduceIte]
        rw [List.foldlM_cons]
        have hpath0 : pfilterNone (pfx ++ [p1] ++ ifx ++ [p2] ++ [PyVal.vnone]) =
            qoldOf (p1, p2, pfx, ifx) := by
          rw [pfilterNone_append, pfilterNone_vnone, List.append_nil, hqoldF]
        rw [hpath0]
        rw [show getLeafE work (qoldOf (p1, p2, pfx, ifx)) = .ok PyVal.vnone from by
          rw [hqoldF, hread, hsub]
          rfl]
        rfl
      · intro s _
        rw [huntouched s, subAt_none_extend work _ s hsub]
  | some wv =>
      have hwvu0 := uniformB_subAt (qoldOf (p1, p2, pfx, ifx)) work wv n hwu hsub
      have hwvnf : noneFree wv = true :=
        noneFree_subAt (qoldOf (p1, p2, pfx, ifx)) work wv hwnf hsub
      have hwvne : wv ≠ PyVal.vnone := by
        intro he
        rw [he] at hwvnf
        cases hwvnf
      by_cases hcase : j + 1 < n
      · -- the branch is a non-empty dictionary; copy it key by key
        obtain ⟨m, hm⟩ : ∃ m, n - (qoldOf (p1, p2, pfx, ifx)).length = m + 1 :=
          ⟨n - j - 2, by omega⟩
        have hwvu : uniformB wv (m + 1) = true := by rw [← hm]; exact hwvu0.2
        obtain ⟨dw, rfl, hdwne⟩ := uniformB_isDict wv m hwvu
        obtain ⟨tail, htail⟩ := getPaths_cons dw hdwne
        obtain ⟨acc', hrun, r1, r2, r3, r4, r5, r6⟩ :=
          swopKeys_spec (unique (dictKeys dw)) acc work n
            (qoldOf (p1, p2, pfx, ifx)) (qnewOf (p1, p2, pfx, ifx)) dw p1 p2 pfx ifx
            hwu hwnf hqoldF.symm hqnewF.symm hsub (by omega) (by omega) hqnewne hqnkeys
            (nodup_unique _) (fun k hk => (mem_unique _ _).mp hk) htrie
            (fun k _ s => huntouched (k :: s)) huacc hnfacc
        refine ⟨acc', ?_, ?_, r3, fun p hp _ => r4 p hp, r5, r6⟩
        · rw [swopQuad, hread, hsub]
          simp only [Option.getD_some, Bind.bind, Except.bind]
          rw [htail]
          simp only [ne_eq, reduceCtorEq, not_false_eq_true, if_true, List.headD_cons,
            reduceIte]
          rw [pyProduct_singleton, exceptFoldlM_map]
          exact hrun
        · intro s hs
          have hsne : s ≠ [] := hs hcase
          cases s with
          | nil => exact absurd rfl hsne
          | cons k s' =>
              by_cases hk : k ∈ dictKeys dw
              · exact r1 k ((mem_unique _ _).mpr hk) s'
              · rw [r2 k (fun hc => hk ((mem_unique _ _).mp hc)) s', huntouched (k :: s')]
                have : subAt work (qoldOf (p1, p2, pfx, ifx) ++ k :: s') = Option.none := by
                  have he : qoldOf (p1, p2, pfx, ifx) ++ k :: s' =
                      (qoldOf (p1, p2, pfx, ifx) ++ [k]) ++ s' := by simp
                  rw [he]
                  refine subAt_none_extend work _ s' ?_
                  rw [subAt_append, hsub]
                  show subAt (.vdict dw) [k] = Option.none
                  simp [subAt, lookupD_none_of_not_mem_keys dw k hk]
                rw [this]
      · -- the branch is a leaf: a single copy at the swapped path
        have hn : n = j + 1 := by omega
        have hwvu : uniformB wv 0 = true := by
          have : n - (qoldOf (p1, p2, pfx, ifx)).length = 0 := by omega
          rw [← this]
          exact hwvu0.2
        have hkeyless : pyHasKeys wv = false := uniformB_not_keyed wv hwvu
        obtain ⟨acc1, hrun1, htgt1, hframe1, hpref1⟩ :=
          setLeafM_graft (qnewOf (p1, p2, pfx, ifx)) acc wv hqnewne
            (fun p hp _ => htrie p hp)
        refine ⟨acc1, ?_, ?_, hframe1, ?_, ?_, ?_⟩
        · rw [swopQuad, hread, hsub]
          simp only [Option.getD_some, Bind.bind, Except.bind]
          rw [getPaths_keyless wv hkeyless]
          simp only [ne_eq, not_true_eq_false, if_false, reduceIte]
          rw [List.foldlM_cons]
          have hpath0 : pfilterNone (pfx ++ [p1] ++ ifx ++ [p2] ++ [PyVal.vnone]) =
              qoldOf (p1, p2, pfx, ifx) := by
            rw [pfilterNone_append, pfilterNone_vnone, List.append_nil, hqoldF]
          have hpath1 : pfilterNone (pfx ++ [p2] ++ ifx ++ [p1] ++ [PyVal.vnone]) =
              qnewOf (p1, p2, pfx, ifx) := by
            rw [pfilterNone_append, pfilterNone_vnone, List.append_nil, hqnewF]
          rw [hpath0, hpath1]
          rw [show getLeafE work (qoldOf (p1, p2, pfx, ifx)) = .ok wv from by
            rw [hqoldF, hread, hsub]
            rfl]
          simp only [Bind.bind, Except.bind, if_neg hwvne]
          rw [hrun1]
          rfl
        · intro s _
          cases s with
          | nil => simpa using htgt1.trans hsub.symm
          | cons k s' =>
              rw [subAt_append, subAt_append, htgt1, hsub]
        · intro p hp hpne
          obtain ⟨dd', hdd'⟩ := hpref1 p hp hpne
          exact Or.inr ⟨dd', hdd'⟩
        · exact Or.inl (setLeafM_uniform _ acc acc1 wv n hrun1 hqnewne (by omega)
            (by
              have : n - (qnewOf (p1, p2, pfx, ifx)).length = 0 := by omega
              rw [this]
              exact hwvu) huacc)
        · exact setLeafM_noneFree _ acc acc1 wv hrun1 hqnewne hnfacc hwvnf hqnkeys

/-- Effect of the whole combination enumeration of `swop` on the
accumulator: each combination present in the source contributes the
source sub-trees below it at the swapped location, and nothing else is
touched. -/
theorem swopCombos_spec : ∀ (combos : List (PyVal × PyVal × List PyVal × List PyVal))
    (acc : PyVal) (work : PyVal) (n i j : Nat),
    uniformB work n = true → noneFree work = true → i < j → j < n →
    (∀ c ∈ combos, comboOK i j c) →
    List.Pairwise (fun c1 c2 => qnewOf c1 ≠ qnewOf c2) combos →
    (∀ p : List PyVal, p.length ≤ j →
      subAt acc p = Option.none ∨ ∃ dd, subAt acc p = some (.vdict dd)) →
    (∀ c ∈ combos, ∀ s, subAt acc (qnewOf c ++ s) = Option.none) →
    (uniformB acc n = true ∨ acc = .vdict []) →
    noneFree acc = true →
    ∃ U, combos.foldlM (fun nt c => swopQuad work c.1 c.2.1 c.2.2.1 c.2.2.2 nt) acc
        = .ok U ∧
      (∀ c ∈ combos, ∀ s, (j + 1 < n → s ≠ []) →
        subAt U (qnewOf c ++ s) = subAt work (qoldOf c ++ s)) ∧
      (∀ p, (∀ c ∈ combos, ¬ (qnewOf c <+: p) ∧ ¬ (p <+: qnewOf c)) →
        subAt U p = subAt acc p) ∧
      (uniformB U n = true ∨ U = .vdict []) ∧
      noneFree U = true := by
  intro combos
  induction combos with
  | nil =>
      intro acc work n i j _ _ _ _ _ _ _ _ hu hnf
      exact ⟨acc, rfl, by simp, fun p _ => rfl, hu, hnf⟩
  | cons c0 rest ih =>
      intro acc work n i j hwu hwnf hij hjn hOKs hpw htrie huntouched huacc hnfacc
      obtain ⟨q1, q2, qp, qi⟩ := c0
      have hOK0 : comboOK i j (q1, q2, qp, qi) := hOKs _ (by simp)
      obtain ⟨hlo0, hln0⟩ := comboOK_lengths i j (q1, q2, qp, qi) hOK0 hij
      rw [List.pairwise_cons] at hpw
      have htrie0 : ∀ p, p <+: qnewOf (q1, q2, qp, qi) →
          subAt acc p = Option.none ∨ ∃ dd, subAt acc p = some (.vdict dd) := by
        intro p hp
        by_cases hpe : p = qnewOf (q1, q2, qp, qi)
        · subst hpe
          have := huntouched (q1, q2, qp, qi) (by simp) []
          rw [List.append_nil] at this
          exact Or.inl this
        · refine htrie p ?_
          have h1 := hp.length_le
          have h2 : p.length ≠ (qnewOf (q1, q2, qp, qi)).length := by
            intro hc
            exact hpe (hp.eq_of_length hc)
          omega
      obtain ⟨acc1, hrun1, q1val, q1frame, q1pref, q1uni, q1nf⟩ :=
        swopQuad_spec work n i j q1 q2 qp qi acc hwu hwnf hOK0 hij hjn htrie0
          (huntouched (q1, q2, qp, qi) (by simp)) huacc hnfacc
      have htrie1 : ∀ p : List PyVal, p.length ≤ j →
          subAt acc1 p = Option.none ∨ ∃ dd, subAt acc1 p = some (.vdict dd) := by
        intro p hpl
        have hnpre : ¬ (qnewOf (q1, q2, qp, qi) <+: p) := by
          intro hc
          have := hc.length_le
          omega
        by_cases hp : p <+: qnewOf (q1, q2, qp, qi)
        · have hpne : p ≠ qnewOf (q1, q2, qp, qi) := by
            intro hc
            rw [hc] at hpl
            omega
          rcases q1pref p hp hpne with h' | h'
          · rw [h']
            exact htrie p hpl
          · exact Or.inr h'
        · rw [q1frame p hnpre hp]
          exact htrie p hpl
      have huntouched1 : ∀ c ∈ rest, ∀ s, subAt acc1 (qnewOf c ++ s) = Option.none := by
        intro c hc s
        have hols := comboOK_lengths i j c (hOKs c (by simp [hc])) hij
        have hne : qnewOf c ≠ qnewOf (q1, q2, qp, qi) := fun he => (hpw.1 c hc) he.symm
        have hinc := ext_incomp (qnewOf c) (qnewOf (q1, q2, qp, qi)) s hne (by omega)
        rw [q1frame _ hinc.1 hinc.2]
        exact huntouched c (by simp [hc]) s
      obtain ⟨U, hrunU, dval, dframe, duni, dnf⟩ := ih acc1 work n i j hwu hwnf hij hjn
        (fun c hc => hOKs c (by simp [hc])) hpw.2 htrie1 huntouched1 q1uni q1nf
      refine ⟨U, ?_, ?_, ?_, duni, dnf⟩
      · rw [List.foldlM_cons]
        show (swopQuad work q1 q2 qp qi acc) >>= _ = .ok U
        rw [hrun1]
        simpa [Bind.bind, Except.bind] using hrunU
      · intro c hc s hs
        rcases List.mem_cons.mp hc with he | ht
        · subst he
          have hfr : subAt U (qnewOf (q1, q2, qp, qi) ++ s) =
              subAt acc1 (qnewOf (q1, q2, qp, qi) ++ s) := by
            refine dframe _ ?_
            intro c' hc'
            have hols := comboOK_lengths i j c' (hOKs c' (by simp [hc'])) hij
            have hne : qnewOf (q1, q2, qp, qi) ≠ qnewOf c' := hpw.1 c' hc'
            exact ext_incomp (qnewOf (q1, q2, qp, qi)) (qnewOf c') s hne (by omega)
          rw [hfr]
          exact q1val s hs
        · exact dval c ht s hs
      · intro p hp
        rw [dframe p (fun c hc => hp c (by simp [hc]))]
        exact q1frame p (hp _ (by simp)).1 (hp _ (by simp)).2

theorem getD_append_left {α : Type} : ∀ (a b : List α) (m : Nat) (d : α), m < a.length →
    (a ++ b).getD m d = a.getD m d
  | [], _, _, _, h => by simp at h
  | x :: a', b, 0, d, _ => rfl
  | x :: a', b, m + 1, d, h => by
      simp only [List.cons_append, List.getD_cons_succ]
      exact getD_append_left a' b m d (by simpa using h)

theorem getD_append_mid {α : Type} : ∀ (a : List α) (x : α) (r : List α) (d : α),
    (a ++ x :: r).getD a.length d = x
  | [], x, r, d => rfl
  | z :: a', x, r, d => by
      simp only [List.cons_append, List.length_cons, List.getD_cons_succ]
      exact getD_append_mid a' x r d

theorem getD_append_shift {α : Type} : ∀ (a b : List α) (ℓ : Nat) (d : α),
    (a ++ b).getD (a.length + ℓ) d = b.getD ℓ d
  | [], b, ℓ, d => by simp
  | z :: a', b, ℓ, d => by
      simp only [List.cons_append, List.length_cons]
      have he : a'.length + 1 + ℓ = (a'.length + ℓ) + 1 := by omega
      rw [he, List.getD_cons_succ]
      exact getD_append_shift a' b ℓ d

theorem getD_take_lt {α : Type} : ∀ (l : List α) (m ℓ : Nat) (d : α), ℓ < m →
    (l.take m).getD ℓ d = l.getD ℓ d
  | [], _, _, _, _ => by simp
  | x :: l', m + 1, 0, d, _ => rfl
  | x :: l', m + 1, ℓ + 1, d, h => by
      simp only [List.take_cons, List.getD_cons_succ]
      exact getD_take_lt l' m ℓ d (by omega)

theorem getD_drop {α : Type} : ∀ (l : List α) (m ℓ : Nat) (d : α),
    (l.drop m).getD ℓ d = l.getD (m + ℓ) d
  | _, 0, _, _ => by simp
  | [], m + 1, ℓ, d => by simp
  | x :: l', m + 1, ℓ, d => by
      simp only [List.drop_succ_cons]
      have he : m + 1 + ℓ = (m + ℓ) + 1 := by omega
      rw [he, List.getD_cons_succ]
      exact getD_drop l' m ℓ d

theorem listGetD_of_lists {α : Type} : ∀ (ls : List α) (m : Nat) (d : α),
    m < ls.length → ls.getD m d ∈ ls := by
  intro ls
  induction ls with
  | nil => intro m d h; simp at h
  | cons l ls' ih =>
      intro m d h
      cases m with
      | zero => simp
      | succ m' => exact List.mem_cons_of_mem _ (ih m' d (by simpa using h))

theorem forall₂_of_getD : ∀ (xs : List PyVal) (ls : List (List PyVal)),
    xs.length = ls.length →
    (∀ ℓ, ℓ < xs.length → xs.getD ℓ PyVal.vnone ∈ ls.getD ℓ []) →
    List.Forall₂ (fun x l => x ∈ l) xs ls
  | [], [], _, _ => List.Forall₂.nil
  | [], l :: ls', h, _ => by simp at h
  | x :: xs', [], h, _ => by simp at h
  | x :: xs', l :: ls', h, hmem => by
      refine List.Forall₂.cons (hmem 0 (by simp)) ?_
      refine forall₂_of_getD xs' ls' (by simpa using h) ?_
      intro ℓ hl
      have := hmem (ℓ + 1) (by simpa using hl)
      simpa using this

theorem forall₂_mem_left : ∀ (xs : List PyVal) (ls : List (List PyVal)),
    List.Forall₂ (fun x l => x ∈ l) xs ls → ∀ x ∈ xs, ∃ l ∈ ls, x ∈ l := by
  intro xs
  induction xs with
  | nil => intro ls _ x hx; simp at hx
  | cons z xs' ih =>
      intro ls hf x hx
      cases hf with
      | cons hz hrest =>
          rcases List.mem_cons.mp hx with he | ht
          · subst he
            exact ⟨_, by simp, hz⟩
          · obtain ⟨l, hl, hxl⟩ := ih _ hrest x ht
            exact ⟨l, by simp [hl], hxl⟩

theorem forall₂_getD_mem : ∀ (xs : List PyVal) (ls : List (List PyVal)),
    List.Forall₂ (fun x l => x ∈ l) xs ls →
    ∀ ℓ, ℓ < xs.length → xs.getD ℓ PyVal.vnone ∈ ls.getD ℓ [] := by
  intro xs
  induction xs with
  | nil => intro ls _ ℓ h; simp at h
  | cons z xs' ih =>
      intro ls hf ℓ hl
      cases hf with
      | cons hz hrest =>
          cases ℓ with
          | zero => simpa using hz
          | succ ℓ' =>
              simp only [List.getD_cons_succ]
              exact ih _ hrest ℓ' (by simpa using hl)

/-- Any path reaching below position `j` splits into the five segments
whose middle components sit at positions `i` and `j`. -/
theorem path_decomp (p : List PyVal) (i j : Nat) (hij : i < j) (hj : j < p.length) :
    ∃ (A B s : List PyVal) (x y : PyVal), p = A ++ x :: (B ++ y :: s) ∧
      A.length = i ∧ B.length = j - i - 1 := by
  have h1 : p = p.take i ++ p.drop i := (List.take_append_drop i p).symm
  have h2 : p.drop i = p.getD i PyVal.vnone :: p.drop (i + 1) := by
    rw [List.getD_eq_getElem p PyVal.vnone (by omega)]
    exact List.drop_eq_getElem_cons (by omega)
  have h3 : p.drop (i + 1) =
      (p.drop (i + 1)).take (j - i - 1) ++ (p.drop (i + 1)).drop (j - i - 1) :=
    (List.take_append_drop _ _).symm
  have h4 : (p.drop (i + 1)).drop (j - i - 1) = p.drop j := by
    rw [List.drop_drop]
    have he : i + 1 + (j - i - 1) = j := by omega
    rw [he]
  have h5 : p.drop j = p.getD j PyVal.vnone :: p.drop (j + 1) := by
    rw [List.getD_eq_getElem p PyVal.vnone (by omega)]
    exact List.drop_eq_getElem_cons (by omega)
  refine ⟨p.take i, (p.drop (i + 1)).take (j - i - 1), p.drop (j + 1),
    p.getD i PyVal.vnone, p.getD j PyVal.vnone, ?_, by simp; omega, by simp; omega⟩
  calc p = p.take i ++ p.drop i := h1
    _ = p.take i ++ (p.getD i PyVal.vnone :: p.drop (i + 1)) := by rw [h2]
    _ = p.take i ++ (p.getD i PyVal.vnone ::
          ((p.drop (i + 1)).take (j - i - 1) ++ (p.drop (i + 1)).drop (j - i - 1))) := by
        conv_lhs => rw [h3]
    _ = p.take i ++ (p.getD i PyVal.vnone ::
          ((p.drop (i + 1)).take (j - i - 1) ++ p.drop j)) := by rw [h4]
    _ = p.take i ++ (p.getD i PyVal.vnone ::
          ((p.drop (i + 1)).take (j - i - 1) ++ (p.getD j PyVal.vnone :: p.drop (j + 1)))) := by
        rw [h5]

theorem mem_quad (L1 L2 : List PyVal) (L3 L4 : List (List PyVal))
    (c : PyVal × PyVal × List PyVal × List PyVal) :
    c ∈ L1.bind (fun p1 => L2.bind (fun p2 => L3.bind (fun pfx =>
        L4.map (fun ifx => (p1, p2, pfx, ifx))))) ↔
    c.1 ∈ L1 ∧ c.2.1 ∈ L2 ∧ c.2.2.1 ∈ L3 ∧ c.2.2.2 ∈ L4 := by
  obtain ⟨p1, p2, pfx, ifx⟩ := c
  simp only [List.mem_bind, List.mem_map, Prod.mk.injEq]
  constructor
  · rintro ⟨a, ha, b, hb, q, hq, r, hr, rfl, rfl, rfl, rfl⟩
    exact ⟨ha, hb, hq, hr⟩
  · rintro ⟨h1, h2, h3, h4⟩
    exact ⟨p1, h1, p2, h2, pfx, h3, ifx, h4, rfl, rfl, rfl, rfl⟩

theorem nodup_quad (L1 L2 : List PyVal) (L3 L4 : List (List PyVal))
    (h1 : L1.Nodup) (h2 : L2.Nodup) (h3 : L3.Nodup) (h4 : L4.Nodup) :
    (L1.bind (fun p1 => L2.bind (fun p2 => L3.bind (fun pfx =>
        L4.map (fun ifx => (p1, p2, pfx, ifx)))))).Nodup := by
  rw [List.nodup_bind]
  constructor
  · intro p1 _
    rw [List.nodup_bind]
    constructor
    · intro p2 _
      rw [List.nodup_bind]
      constructor
      · intro pfx _
        refine h4.map ?_
        intro a b hab
        exact congrArg (fun t : PyVal × PyVal × List PyVal × List PyVal => t.2.2.2) hab
      · refine List.Pairwise.imp_of_mem ?_ h3
        intro a b _ _ hne q hqa hqb
        obtain ⟨ia, _, rfl⟩ := List.mem_map.mp hqa
        obtain ⟨ib, _, hb⟩ := List.mem_map.mp hqb
        exact hne (congrArg (fun t : PyVal × PyVal × List PyVal × List PyVal => t.2.2.1)
          hb.symm)
    · refine List.Pairwise.imp_of_mem ?_ h2
      intro a b _ _ hne q hqa hqb
      simp only [List.mem_bind, List.mem_map] at hqa hqb
      obtain ⟨_, _, ia, _, rfl⟩ := hqa
      obtain ⟨_, _, ib, _, hb⟩ := hqb
      exact hne (congrArg (fun t : PyVal × PyVal × List PyVal × List PyVal => t.2.1) hb.symm)
  · refine List.Pairwise.imp_of_mem ?_ h1
    intro a b _ _ hne q hqa hqb
    simp only [List.mem_bind, List.mem_map] at hqa hqb
    obtain ⟨_, _, _, _, ia, _, rfl⟩ := hqa
    obtain ⟨_, _, _, _, ib, _, hb⟩ := hqb
    exact hne (congrArg (fun t : PyVal × PyVal × List PyVal × List PyVal => t.1) hb.symm)

/-- The `if segment-levels ≠ [] then product else [[None]]` pattern of
`swop` for the prefix and infix enumerations. -/
def segProd (segs : List (List PyVal)) : List (List PyVal) :=
  if segs ≠ [] then pyProduct segs else [[PyVal.vnone]]

theorem segProd_main (segs : List (List PyVal))
    (hnn : ∀ l ∈ segs, ∀ k ∈ l, k ≠ PyVal.vnone) :
    ∀ q ∈ segProd segs, pfilterNone q = q ∨ q = [PyVal.vnone] := by
  intro q hq
  rw [segProd] at hq
  by_cases hs : segs = []
  · rw [if_neg (by simpa using hs)] at hq
    simp at hq
    exact Or.inr hq
  · rw [if_pos hs] at hq
    refine Or.inl (pfilterNone_noneless q ?_)
    intro hv
    obtain ⟨l, hl, hvl⟩ := forall₂_mem_left q segs ((mem_pyProduct segs q).mp hq) _ hv
    exact hnn l hl _ hvl rfl

theorem segProd_forall₂ (segs : List (List PyVal))
    (hnn : ∀ l ∈ segs, ∀ k ∈ l, k ≠ PyVal.vnone) :
    ∀ q ∈ segProd segs, List.Forall₂ (fun x l => x ∈ l) (pfilterNone q) segs := by
  intro q hq
  rcases segProd_main segs hnn q hq with h | h
  · rw [h]
    rw [segProd] at hq
    by_cases hs : segs = []
    · rw [if_neg (by simpa using hs)] at hq
      simp at hq
      subst hq
      simp [pfilterNone, List.filter] at h
    · rw [if_pos hs] at hq
      exact (mem_pyProduct segs q).mp hq
  · subst h
    rw [segProd] at hq
    by_cases hs : segs = []
    · subst hs
      exact List.Forall₂.nil
    · rw [if_pos hs] at hq
      have := forall₂_mem_left _ segs ((mem_pyProduct segs _).mp hq) PyVal.vnone (by simp)
      obtain ⟨l, hl, hvl⟩ := this
      exact absurd rfl (hnn l hl _ hvl)

theorem segProd_complete (segs : List (List PyVal)) (A : List PyVal)
    (hfa : List.Forall₂ (fun x l => x ∈ l) A segs) (hnv : PyVal.vnone ∉ A) :
    ∃ q ∈ segProd segs, pfilterNone q = A := by
  rw [segProd]
  by_cases hs : segs = []
  · subst hs
    cases hfa
    exact ⟨[PyVal.vnone], by simp, rfl⟩
  · rw [if_pos hs]
    exact ⟨A, (mem_pyProduct segs A).mpr hfa, pfilterNone_noneless A hnv⟩

theorem segProd_inj (segs : List (List PyVal))
    (hnn : ∀ l ∈ segs, ∀ k ∈ l, k ≠ PyVal.vnone) :
    ∀ q ∈ segProd segs, ∀ q' ∈ segProd segs,
    pfilterNone q = pfilterNone q' → q = q' := by
  intro q hq q' hq' hf
  rw [segProd] at hq hq'
  by_cases hs : segs = []
  · rw [if_neg (by simpa using hs)] at hq hq'
    simp at hq hq'
    rw [hq, hq']
  · rw [if_pos hs] at hq hq'
    have h1 : pfilterNone q = q := by
      refine pfilterNone_noneless q ?_
      intro hv
      obtain ⟨l, hl, hvl⟩ := forall₂_mem_left q segs ((mem_pyProduct segs q).mp hq) _ hv
      exact hnn l hl _ hvl rfl
    have h2 : pfilterNone q' = q' := by
      refine pfilterNone_noneless q' ?_
      intro hv
      obtain ⟨l, hl, hvl⟩ := forall₂_mem_left q' segs ((mem_pyProduct segs q').mp hq') _ hv
      exact hnn l hl _ hvl rfl
    rw [← h1, ← h2, hf]

theorem segProd_nodup (segs : List (List PyVal)) (hnd : ∀ l ∈ segs, l.Nodup) :
    (segProd segs).Nodup := by
  rw [segProd]
  by_cases hs : segs = []
  · rw [if_neg (by simpa using hs)]
    simp
  · rw [if_pos hs]
    exact nodup_pyProduct segs hnd

theorem seg_getD_j (A B s : List PyVal) (x y : PyVal) :
    (A ++ x :: (B ++ y :: s)).getD (A.length + 1 + B.length) PyVal.vnone = y := by
  have he : A ++ x :: (B ++ y :: s) = (A ++ x :: B) ++ y :: s := by simp
  rw [he]
  have hl : (A ++ x :: B).length = A.length + 1 + B.length := by simp; omega
  rw [← hl]
  exact getD_append_mid _ y _ _

theorem seg_getD_mid (A B s : List PyVal) (x y : PyVal) (ℓ : Nat) (h : ℓ < B.length) :
    (A ++ x :: (B ++ y :: s)).getD (A.length + 1 + ℓ) PyVal.vnone = B.getD ℓ PyVal.vnone := by
  have he : A ++ x :: (B ++ y :: s) = (A ++ [x]) ++ (B ++ y :: s) := by simp
  rw [he]
  have hl : A.length + 1 + ℓ = (A ++ [x]).length + ℓ := by simp
  rw [hl, getD_append_shift]
  exact getD_append_left B _ ℓ _ h

theorem seg_take (A B s : List PyVal) (x y : PyVal) :
    (A ++ x :: (B ++ y :: s)).take (A.length + 1 + B.length + 1) = A ++ x :: (B ++ [y]) := by
  have he : A ++ x :: (B ++ y :: s) = (A ++ x :: (B ++ [y])) ++ s := by simp
  rw [he]
  have hl : (A ++ x :: (B ++ [y])).length = A.length + 1 + B.length + 1 := by
    simp
    omega
  rw [← hl, List.take_left]

theorem seg_len (A B s : List PyVal) (x y : PyVal) :
    (A ++ x :: (B ++ y :: s)).length = A.length + 1 + B.length + 1 + s.length := by
  simp
  omega

/-- A defined segment path in a uniform `None`-free tree has all its
components in the aggregated per-level key lists of `getPaths`, and none
of them is `None`. -/
theorem subAt_seg_complete (T : PyVal) (n i j : Nat)
    (huni : uniformB T n = true) (hnf : noneFree T = true)
    (hij : i < j)
    (A B s : List PyVal) (x y : PyVal) (hA : A.length = i) (hB : B.length = j - i - 1)
    (hsome : (subAt T (A ++ x :: (B ++ y :: s))).isSome = true) :
    x ∈ (getPaths T).getD i [] ∧ y ∈ (getPaths T).getD j [] ∧
    (∀ ℓ, ℓ < i → A.getD ℓ PyVal.vnone ∈ (getPaths T).getD ℓ []) ∧
    (∀ ℓ, ℓ < j - i - 1 → B.getD ℓ PyVal.vnone ∈ (getPaths T).getD (i + 1 + ℓ) []) ∧
    PyVal.vnone ∉ (A ++ x :: (B ++ y :: s)) := by
  obtain ⟨w, hw⟩ := Option.isSome_iff_exists.mp hsome
  have hcomp := getPaths_complete T n huni _ w hw
  have hlenp := seg_len A B s x y
  have hnv : PyVal.vnone ∉ (A ++ x :: (B ++ y :: s)) := by
    intro hv
    rw [subAt_vnone_mem _ T hnf hv] at hw
    cases hw
  refine ⟨?_, ?_, ?_, ?_, hnv⟩
  · have := hcomp i (by omega)
    rw [← hA, getD_append_mid] at this
    rwa [hA] at this
  · have := hcomp j (by omega)
    have hj' : j = A.length + 1 + B.length := by omega
    rw [hj', seg_getD_j] at this
    rwa [← hj'] at this
  · intro ℓ hℓ
    have := hcomp ℓ (by omega)
    rwa [getD_append_left A _ ℓ _ (by omega)] at this
  · intro ℓ hℓ
    have := hcomp (i + 1 + ℓ) (by omega)
    have hi' : i + 1 + ℓ = A.length + 1 + ℓ := by omega
    rw [hi', seg_getD_mid A B s x y ℓ (by omega)] at this
    rwa [← hi'] at this

/-- Full effect of one `swop` call on a uniform `None`-free tree: the
call succeeds, produces a uniform `None`-free tree, and the sub-tree at
any segment path with the level-`i` and level-`j` components exchanged
is the source sub-tree at the unexchanged path (below the copied depth
both are `none` or equal whole sub-trees). -/
theorem swop_spec (T : PyVal) (n i j : Nat)
    (huni : uniformB T n = true) (hnf : noneFree T = true)
    (hij : i < j) (hjn : j < n) :
    ∃ U, swop T i j = .ok U ∧ uniformB U n = true ∧ noneFree U = true ∧
      (∀ (A B s : List PyVal) (x y : PyVal), A.length = i → B.length = j - i - 1 →
        (j + 1 < n → s ≠ []) →
        subAt U (A ++ y :: (B ++ x :: s)) = subAt T (A ++ x :: (B ++ y :: s))) := by
  have hplen : (getPaths T).length = n := by
    rw [getPaths]
    exact getPathsAux_uniform (szV T + 1) [T] n (by simp [szF]) (by simp)
      (by simpa using huni)
  have hlev : ∀ ℓ k, k ∈ (getPaths T).getD ℓ [] → k ≠ PyVal.vnone :=
    getPaths_noneFree T hnf
  have hlevnd : ∀ ℓ, ((getPaths T).getD ℓ []).Nodup := getPaths_nodup T
  have hnlist : ∀ l ∈ getPaths T, ∀ k ∈ l, k ≠ PyVal.vnone := by
    intro l hl k hk
    obtain ⟨ℓ, hℓ, hleq⟩ := List.mem_iff_getElem.mp hl
    refine hlev ℓ k ?_
    rw [List.getD_eq_getElem _ _ hℓ, hleq]
    exact hk
  have hndlist : ∀ l ∈ getPaths T, l.Nodup := by
    intro l hl
    obtain ⟨ℓ, hℓ, hleq⟩ := List.mem_iff_getElem.mp hl
    have := hlevnd ℓ
    rwa [List.getD_eq_getElem _ _ hℓ, hleq] at this
  have hsegAnn : ∀ l ∈ (getPaths T).take i, ∀ k ∈ l, k ≠ PyVal.vnone :=
    fun l hl => hnlist l (List.take_subset _ _ hl)
  have hsegBnn : ∀ l ∈ ((getPaths T).drop (i + 1)).take (j - (i + 1)),
      ∀ k ∈ l, k ≠ PyVal.vnone :=
    fun l hl => hnlist l (List.drop_subset _ _ (List.take_subset _ _ hl))
  have hsegAlen : ((getPaths T).take i).length = i := by
    rw [List.length_take]
    omega
  have hsegBlen : (((getPaths T).drop (i + 1)).take (j - (i + 1))).length = j - (i + 1) := by
    rw [List.length_take, List.length_drop]
    omega
  have hsegAget : ∀ ℓ, ℓ < i → ((getPaths T).take i).getD ℓ [] = (getPaths T).getD ℓ [] :=
    fun ℓ hℓ => getD_take_lt _ i ℓ [] hℓ
  have hsegBget : ∀ ℓ, ℓ < j - (i + 1) →
      (((getPaths T).drop (i + 1)).take (j - (i + 1))).getD ℓ [] =
      (getPaths T).getD (i + 1 + ℓ) [] := by
    intro ℓ hℓ
    rw [getD_take_lt _ _ ℓ [] hℓ, getD_drop]
  -- combination membership facts
  have hOKall : ∀ c ∈ (((getPaths T).getD i []).bind (fun p1 =>
      ((getPaths T).getD j []).bind (fun p2 =>
        (segProd ((getPaths T).take i)).bind (fun pfx =>
          (segProd (((getPaths T).drop (i + 1)).take (j - (i + 1)))).map
            (fun ifx => (p1, p2, pfx, ifx)))))), comboOK i j c := by
    intro c hc
    rw [mem_quad] at hc
    obtain ⟨p1, p2, pfx, ifx⟩ := c
    obtain ⟨h1, h2, h3, h4⟩ := hc
    have hfa := segProd_forall₂ _ hsegAnn pfx h3
    have hfb := segProd_forall₂ _ hsegBnn ifx h4
    refine ⟨hlev i p1 h1, hlev j p2 h2, ?_, ?_⟩
    · rw [hfa.length_eq, hsegAlen]
    · rw [hfb.length_eq, hsegBlen]
      omega
  have hpw : List.Pairwise (fun c1 c2 => qnewOf c1 ≠ qnewOf c2)
      (((getPaths T).getD i []).bind (fun p1 =>
      ((getPaths T).getD j []).bind (fun p2 =>
        (segProd ((getPaths T).take i)).bind (fun pfx =>
          (segProd (((getPaths T).drop (i + 1)).take (j - (i + 1)))).map
            (fun ifx => (p1, p2, pfx, ifx)))))) := by
    have hnodup := nodup_quad ((getPaths T).getD i []) ((getPaths T).getD j [])
      (segProd ((getPaths T).take i))
      (segProd (((getPaths T).drop (i + 1)).take (j - (i + 1))))
      (hlevnd i) (hlevnd j)
      (segProd_nodup _ (fun l hl => hndlist l (List.take_subset _ _ hl)))
      (segProd_nodup _ (fun l hl => hndlist l (List.drop_subset _ _ (List.take_subset _ _ hl))))
    refine List.Pairwise.imp_of_mem ?_ hnodup
    intro c1 c2 hm1 hm2 hne heq
    apply hne
    have hOK1 := hOKall c1 hm1
    have hOK2 := hOKall c2 hm2
    obtain ⟨hd1o, hd1n⟩ := qoldOf_decomp i j c1 hOK1
    obtain ⟨hd2o, hd2n⟩ := qoldOf_decomp i j c2 hOK2
    obtain ⟨p1, p2, pfx, ifx⟩ := c1
    obtain ⟨q1, q2, qfx, qix⟩ := c2
    rw [mem_quad] at hm1 hm2
    rw [hd1n, hd2n] at heq
    simp only at heq hd1n hd2n hm1 hm2
    obtain ⟨hA, hrest⟩ := List.append_inj heq (by
      rw [hOK1.2.2.1, hOK2.2.2.1])
    injection hrest with hp2 hrest
    obtain ⟨hB, hlast⟩ := List.append_inj hrest (by
      rw [hOK1.2.2.2, hOK2.2.2.2])
    injection hlast with hp1 _
    have hpfx : pfx = qfx := segProd_inj _ hsegAnn pfx hm1.2.2.1 qfx hm2.2.2.1 hA
    have hifx : ifx = qix := segProd_inj _ hsegBnn ifx hm1.2.2.2 qix hm2.2.2.2 hB
    rw [hp1, hp2, hpfx, hifx]
  -- run the combination fold from the fresh tree
  obtain ⟨U, hrunU, dval, dframe, duni, dnf⟩ :=
    swopCombos_spec _ (.vdict []) T n i j huni hnf hij hjn hOKall hpw
      (by
        intro p hpl
        cases p with
        | nil => exact Or.inr ⟨[], by simp [subAt]⟩
        | cons z p' => exact Or.inl (subAt_emptyD _ (by simp)))
      (by
        intro c hc s
        have hl := (comboOK_lengths i j c (hOKall c hc) hij).2
        refine subAt_emptyD _ ?_
        intro hcon
        rw [List.append_eq_nil] at hcon
        rw [hcon.1] at hl
        simp at hl)
      (Or.inr rfl) rfl
  -- the general segment-path characterization
  have hP1 : ∀ (A B s : List PyVal) (x y : PyVal), A.length = i → B.length = j - i - 1 →
      (j + 1 < n → s ≠ []) →
      subAt U (A ++ y :: (B ++ x :: s)) = subAt T (A ++ x :: (B ++ y :: s)) := by
    intro A B s x y hA hB hs
    by_cases henum : x ∈ (getPaths T).getD i [] ∧ y ∈ (getPaths T).getD j [] ∧
        (∃ pfx ∈ segProd ((getPaths T).take i), pfilterNone pfx = A) ∧
        (∃ ifx ∈ segProd (((getPaths T).drop (i + 1)).take (j - (i + 1))),
          pfilterNone ifx = B)
    · obtain ⟨hx, hy, ⟨pfx, hpfx, hpfA⟩, ⟨ifx, hifx, hifB⟩⟩ := henum
      have hcmem : (x, y, pfx, ifx) ∈ (((getPaths T).getD i []).bind (fun p1 =>
          ((getPaths T).getD j []).bind (fun p2 =>
            (segProd ((getPaths T).take i)).bind (fun pfx =>
              (segProd (((getPaths T).drop (i + 1)).take (j - (i + 1)))).map
                (fun ifx => (p1, p2, pfx, ifx)))))) :=
        (mem_quad _ _ _ _ _).mpr ⟨hx, hy, hpfx, hifx⟩
      have hOKc := hOKall _ hcmem
      obtain ⟨hdo, hdn⟩ := qoldOf_decomp i j (x, y, pfx, ifx) hOKc
      simp only at hdo hdn
      rw [hpfA, hifB] at hdo hdn
      have := dval _ hcmem s hs
      rw [hdo, hdn] at this
      have he1 : (A ++ y :: (B ++ [x])) ++ s = A ++ y :: (B ++ x :: s) := by simp
      have he2 : (A ++ x :: (B ++ [y])) ++ s = A ++ x :: (B ++ y :: s) := by simp
      rwa [he1, he2] at this
    · have hrhs : subAt T (A ++ x :: (B ++ y :: s)) = Option.none := by
        cases hsub : subAt T (A ++ x :: (B ++ y :: s)) with
        | none => rfl
        | some w =>
            exfalso
            obtain ⟨hx, hy, hApre, hBpre, hnv⟩ := subAt_seg_complete T n i j huni hnf hij
              A B s x y hA hB (by rw [hsub]; rfl)
            refine henum ⟨hx, hy, ?_, ?_⟩
            · refine segProd_complete _ A ?_ (fun hv => hnv (by simp [hv]))
              refine forall₂_of_getD A _ (by omega) ?_
              intro ℓ hℓ
              rw [hsegAget ℓ (by omega)]
              exact hApre ℓ (by omega)
            · refine segProd_complete _ B ?_ (fun hv => hnv (by simp [hv]))
              refine forall₂_of_getD B _ (by omega) ?_
              intro ℓ hℓ
              rw [hsegBget ℓ (by omega)]
              exact hBpre ℓ (by omega)
      have hlhs : subAt U (A ++ y :: (B ++ x :: s)) = Option.none := by
        have hfr : subAt U (A ++ y :: (B ++ x :: s)) =
            subAt (.vdict []) (A ++ y :: (B ++ x :: s)) := by
          refine dframe _ ?_
          intro c hc
          have hOKc := hOKall c hc
          have hlc := (comboOK_lengths i j c hOKc hij).2
          have hqne : A ++ y :: (B ++ [x]) ≠ qnewOf c := by
            intro heq
            obtain ⟨hdo, hdn⟩ := qoldOf_decomp i j c hOKc
            obtain ⟨p1, p2, pfx, ifx⟩ := c
            rw [mem_quad] at hc
            simp only at hdn hc
            rw [hdn] at heq
            obtain ⟨hA2, hrest⟩ := List.append_inj heq.symm (by rw [hOKc.2.2.1, hA])
            injection hrest with hp2 hrest
            obtain ⟨hB2, hlast⟩ := List.append_inj hrest (by rw [hOKc.2.2.2, hB])
            injection hlast with hp1 _
            refine henum ⟨?_, ?_, ⟨pfx, hc.2.2.1, hA2⟩, ⟨ifx, hc.2.2.2, hB2⟩⟩
            · rw [← hp1]
              exact hc.1
            · rw [← hp2]
              exact hc.2.1
          have hinc := ext_incomp (A ++ y :: (B ++ [x])) (qnewOf c) s hqne (by
            simp only [List.length_append, List.length_cons, List.length_nil]
            omega)
          have hee : (A ++ y :: (B ++ [x])) ++ s = A ++ y :: (B ++ x :: s) := by simp
          rw [hee] at hinc
          exact hinc
        rw [hfr]
        exact subAt_emptyD _ (by simp)
      rw [hlhs, hrhs]
  -- the result is not the fresh empty tree
  have hUne : U ≠ .vdict [] := by
    obtain ⟨p0, hp0len, hp0some⟩ := exists_deep n T huni
    obtain ⟨A0, B0, s0, x0, y0, hdec, hA0, hB0⟩ := path_decomp p0 i j hij (by omega)
    have hs0 : j + 1 < n → s0 ≠ [] := by
      intro hlt hcon
      have := seg_len A0 B0 s0 x0 y0
      rw [← hdec, hp0len, hcon] at this
      simp at this
      omega
    have hval := hP1 A0 B0 s0 x0 y0 hA0 hB0 hs0
    rw [hdec] at hp0some
    intro hcon
    rw [hcon] at hval
    rw [← hval] at hp0some
    rw [subAt_emptyD _ (by simp)] at hp0some
    cases hp0some
  refine ⟨U, ?_, duni.resolve_right hUne, dnf, hP1⟩
  -- finally, the program run reaches exactly this combination fold
  have hg1 : ¬ ((getPaths T).length ≤ i) := by omega
  have hg2 : ¬ ((getPaths T).length ≤ j) := by omega
  have hg3 : ¬ (i = j) := by omega
  have hgt : ¬ (i > j) := by omega
  have hflat : (((getPaths T).getD i []).bind (fun p1 =>
      ((getPaths T).getD j []).bind (fun p2 =>
        (segProd ((getPaths T).take i)).bind (fun pfx =>
          (segProd (((getPaths T).drop (i + 1)).take (j - (i + 1)))).map
            (fun ifx => (p1, p2, pfx, ifx)))))).foldlM
        (fun nt c => swopQuad T c.1 c.2.1 c.2.2.1 c.2.2.2 nt) (.vdict [])
      = ((getPaths T).getD i []).foldlM (fun nt1 p1 =>
          ((getPaths T).getD j []).foldlM (fun nt2 p2 =>
            (segProd ((getPaths T).take i)).foldlM (fun nt3 pfx =>
              (segProd (((getPaths T).drop (i + 1)).take (j - (i + 1)))).foldlM
                (fun nt4 ifx => swopQuad T p1 p2 pfx ifx nt4) nt3) nt2) nt1)
          (PyVal.vdict []) := by
    simp only [exceptFoldlM_bind, exceptFoldlM_map]
  simp only [swop]
  rw [if_neg hg1, if_neg hg2, if_neg hg3]
  simp only [if_neg hgt]
  rw [show (if (getPaths T).take i ≠ [] then pyProduct ((getPaths T).take i)
      else [[PyVal.vnone]]) = segProd ((getPaths T).take i) from rfl]
  rw [show (if ((getPaths T).drop (i + 1)).take (j - (i + 1)) ≠ [] then
      pyProduct (((getPaths T).drop (i + 1)).take (j - (i + 1)))
      else [[PyVal.vnone]]) = segProd (((getPaths T).drop (i + 1)).take (j - (i + 1)))
      from rfl]
  rw [← hflat]
  exact hrunU

theorem valid_ext_iff (W : PyVal) (n L : Nat) (hW : uniformB W n = true) (hLn : L ≤ n)
    (p : List PyVal) (hp : p.length ≤ L) :
    ((subAt W p).isSome = true ↔
      ∃ e, (p ++ e).length = L ∧ (subAt W (p ++ e)).isSome = true) := by
  constructor
  · intro hv
    obtain ⟨w, hw⟩ := Option.isSome_iff_exists.mp hv
    have hwu := uniformB_subAt p W w n hW hw
    obtain ⟨s', hs'len, hs'v⟩ := exists_deep (n - p.length) w hwu.2
    have hfull : (subAt W (p ++ s')).isSome = true := by
      rw [subAt_append, hw]
      exact hs'v
    refine ⟨s'.take (L - p.length), ?_, ?_⟩
    · simp only [List.length_append, List.length_take]
      omega
    · have hdecomp : p ++ s' = (p ++ s'.take (L - p.length)) ++ s'.drop (L - p.length) := by
        rw [List.append_assoc, List.take_append_drop]
      rw [hdecomp] at hfull
      exact valid_prefix W _ _ hfull
  · rintro ⟨e, _, hv⟩
    exact valid_prefix W p e hv

/-- C2 (amended): on a `None`-free tree whose leaves all sit at the
uniform depth `n`, with `i < j < n`, two successive `swop(·, i, j)`
calls succeed and restore every sub-tree at depth `min (j+2) n` and
below — in particular every leaf payload returns to its original path —
and preserve exactly the set of populated paths at every depth.  (The
shallower dictionaries are rebuilt with the same key sets but possibly
different insertion order, so whole-tree equality does not hold, and the
original claim fails for trees with leaves above level `j`:
`c2_swop_counterexample`.) -/
theorem c2_swop_roundtrip (T : PyVal) (n i j : Nat)
    (huni : uniformB T n = true) (hnf : noneFree T = true)
    (hij : i < j) (hjn : j < n) :
    ∃ U V, swop T i j = .ok U ∧ swop U i j = .ok V ∧
      (∀ p : List PyVal, min (j + 2) n ≤ p.length → subAt V p = subAt T p) ∧
      (∀ p : List PyVal, ((subAt V p).isSome = true ↔ (subAt T p).isSome = true)) := by
  obtain ⟨U, hU, hUuni, hUnf, hP1U⟩ := swop_spec T n i j huni hnf hij hjn
  obtain ⟨V, hV, hVuni, hVnf, hP1V⟩ := swop_spec U n i j hUuni hUnf hij hjn
  have hdeep : ∀ p : List PyVal, min (j + 2) n ≤ p.length → subAt V p = subAt T p := by
    intro p hp
    have hjp : j < p.length := by omega
    obtain ⟨A, B, s, x, y, hdec, hA, hB⟩ := path_decomp p i j hij hjp
    have hlen := seg_len A B s x y
    rw [← hdec] at hlen
    have hs : j + 1 < n → s ≠ [] := by
      intro hlt hcon
      rw [hcon] at hlen
      simp at hlen
      omega
    have h1 := hP1V A B s y x hA hB hs
    have h2 := hP1U A B s x y hA hB hs
    rw [hdec, h1, h2]
  refine ⟨U, V, hU, hV, hdeep, ?_⟩
  intro p
  by_cases hp : min (j + 2) n ≤ p.length
  · rw [hdeep p hp]
  · have hVe := valid_ext_iff V n (min (j + 2) n) hVuni (by omega) p (by omega)
    have hTe := valid_ext_iff T n (min (j + 2) n) huni (by omega) p (by omega)
    rw [hVe, hTe]
    constructor
    · rintro ⟨e, he1, he2⟩
      refine ⟨e, he1, ?_⟩
      rwa [hdeep (p ++ e) (by omega)] at he2
    · rintro ⟨e, he1, he2⟩
      refine ⟨e, he1, ?_⟩
      rwa [hdeep (p ++ e) (by omega)]

/-- Witness for C2 on the uniform two-level tree `exC6`. -/
theorem c2_swop_roundtrip_witness :
    uniformB exC6 2 = true ∧ noneFree exC6 = true ∧ 0 < 1 ∧ 1 < 2 ∧
    (∃ U V, swop exC6 0 1 = .ok U ∧ swop U 0 1 = .ok V ∧
      (∀ p : List PyVal, min (1 + 2) 2 ≤ p.length → subAt V p = subAt exC6 p) ∧
      (∀ p : List PyVal, ((subAt V p).isSome = true ↔ (subAt exC6 p).isSome = true))) :=
  ⟨by decide, by decide, by decide, by decide,
    c2_swop_roundtrip exC6 2 0 1 (by decide) (by decide) (by decide) (by decide)⟩
